import Mathlib

/-!
# WarpX: the coupled H-M (Landau-Lifshitz-Gilbert) update

Shallow embedding of
`Source/FieldSolver/FiniteDifferenceSolver/MacroscopicEvolveHM.cpp`.

* `amrex::Real` is an arbitrary linearly ordered field `R` (exact arithmetic);
  evaluation on concrete inputs uses `ℚ`, statements about square roots are
  instantiated on `ℝ`.
* `amrex::Array4<Real>` is a function of `(i, j, k, n)`.
* `amrex::Abort` is the result `none`.
* The functions of `MacroscopicProperties.H`, `CartesianYeeAlgorithm.H` and
  `<cmath>` that the file calls are fields of `Env`.
* The state is the data of one grid: the three face arrays of `Mfield` and of
  `Hfield`; the three loop boxes `tbx`, `tby`, `tbz` are `Box`es.
-/

namespace WarpX

/-! ## Data model -/

/-- Array view `amrex::Array4<Real>`, indexed by `(i, j, k, n)`. -/
abbrev Array4 (R : Type) := Int → Int → Int → Nat → R

/-- Integer triple `amrex::IntVect`. -/
structure IntVect where
  x : Int
  y : Int
  z : Int
deriving DecidableEq, Repr

/-- The three components `n = 0, 1, 2` stored at one face cell. -/
structure Vec3 (R : Type) where
  c0 : R
  c1 : R
  c2 : R
deriving DecidableEq, Repr

/-- The three face arrays `Mfield[0..2]`, each with the components `0..2`. -/
structure Mfield (R : Type) where
  M_xface : Array4 R
  M_yface : Array4 R
  M_zface : Array4 R

/-- The three face arrays `Hfield[0..2]`, each with the single component `0`. -/
structure Hfield (R : Type) where
  Hx : Array4 R
  Hy : Array4 R
  Hz : Array4 R

/-- What the update mutates: `Mfield` and `Hfield`. -/
structure State (R : Type) where
  M : Mfield R
  H : Hfield R

/-- Everything the update only reads: configuration, material properties,
bias field, electric field, time step, and the functions defined outside the
file (`std::sqrt`, the two interpolators of `MacroscopicProperties`, the three
difference operators of `T_Algo` with their stencil coefficients). -/
structure Env (R : Type) where
  sqrt : R → R
  macro_avg_to_face : Int → Int → Int → IntVect → Array4 R → R
  face_avg_to_face : Int → Int → Int → Nat → IntVect → IntVect → Array4 R → R
  UpwardDx : Array4 R → Int → Int → Int → R
  UpwardDy : Array4 R → Int → Int → Int → R
  UpwardDz : Array4 R → Int → Int → Int → R
  mu0 : R
  dt : R
  coupling : Int
  M_normalization : Int
  mag_normalized_error : R
  mag_Ms_arr : Array4 R
  mag_alpha_arr : Array4 R
  mag_gamma_arr : Array4 R
  Hx_bias : Array4 R
  Hy_bias : Array4 R
  Hz_bias : Array4 R
  Ex : Array4 R
  Ey : Array4 R
  Ez : Array4 R

/-- Face orientation: which of the three lambdas of `ParallelFor` runs. -/
inductive Face where
  | x : Face
  | y : Face
  | z : Face
deriving DecidableEq, Repr

/-- The `IntVect` the lambda of a face passes as target orientation:
`(1,0,0)`, `(0,1,0)`, `(0,0,1)`. -/
def Face.dir : Face → IntVect
  | Face.x => ⟨1, 0, 0⟩
  | Face.y => ⟨0, 1, 0⟩
  | Face.z => ⟨0, 0, 1⟩

/-- One iteration of a `ParallelFor` lambda: a face orientation and a cell. -/
structure Work where
  face : Face
  i : Int
  j : Int
  k : Int
deriving DecidableEq, Repr

/-- Index box `amrex::Box` with inclusive corners. -/
structure Box where
  smallEnd : IntVect
  bigEnd : IntVect
deriving DecidableEq, Repr

/-- The integers `lo, lo+1, ..., hi`. -/
def rangeI (lo hi : Int) : List Int :=
  (List.range (hi + 1 - lo).toNat).map (fun (t : Nat) => lo + Int.ofNat t)

/-- Cells of a box in loop order (`k` outermost, `i` innermost), tagged with
the face whose lambda runs on them. -/
def Box.work (b : Box) (f : Face) : List Work :=
  (rangeI b.smallEnd.z b.bigEnd.z).flatMap fun k =>
    (rangeI b.smallEnd.y b.bigEnd.y).flatMap fun j =>
      (rangeI b.smallEnd.x b.bigEnd.x).map fun i => Work.mk f i j k

/-! ## Array access -/

section Kernel

variable {R : Type} [LinearOrderedField R]

/-- Components `0..2` of an array at a cell. -/
def readCell (a : Array4 R) (i j k : Int) : Vec3 R :=
  ⟨a i j k 0, a i j k 1, a i j k 2⟩

/-- Store components `0..2` at a cell; every other entry is kept. -/
def writeCell (a : Array4 R) (i j k : Int) (v : Vec3 R) : Array4 R :=
  fun i' j' k' n =>
    if i' = i ∧ j' = j ∧ k' = k then
      (if n = 0 then v.c0 else if n = 1 then v.c1 else if n = 2 then v.c2 else a i' j' k' n)
    else a i' j' k' n

/-- Store component `0` at a cell; every other entry is kept. -/
def writeComp0 (a : Array4 R) (i j k : Int) (v : R) : Array4 R :=
  fun i' j' k' n => if i' = i ∧ j' = j ∧ k' = k ∧ n = 0 then v else a i' j' k' n

/-- The face array of `Mfield` a work item addresses. -/
def Mfield.face (M : Mfield R) : Face → Array4 R
  | Face.x => M.M_xface
  | Face.y => M.M_yface
  | Face.z => M.M_zface

/-- Replace the face array of `Mfield` a work item addresses. -/
def Mfield.setFace (M : Mfield R) (f : Face) (a : Array4 R) : Mfield R :=
  match f with
  | Face.x => { M with M_xface := a }
  | Face.y => { M with M_yface := a }
  | Face.z => { M with M_zface := a }

/-! ## The per-cell M update (lines 118-391) -/

/-- Effective field at a face (lines 125-136, 216-227, 307-319): the bias
field mapped to the face, plus the Maxwell field when `coupling == 1`. -/
def H_eff (e : Env R) (H : Hfield R) (f : Face) (i j k : Int) : Vec3 R :=
  let Hx_eff := e.face_avg_to_face i j k 0 ⟨1, 0, 0⟩ f.dir e.Hx_bias
  let Hy_eff := e.face_avg_to_face i j k 0 ⟨0, 1, 0⟩ f.dir e.Hy_bias
  let Hz_eff := e.face_avg_to_face i j k 0 ⟨0, 0, 1⟩ f.dir e.Hz_bias
  if e.coupling = 1 then
    ⟨Hx_eff + e.face_avg_to_face i j k 0 ⟨1, 0, 0⟩ f.dir H.Hx,
     Hy_eff + e.face_avg_to_face i j k 0 ⟨0, 1, 0⟩ f.dir H.Hy,
     Hz_eff + e.face_avg_to_face i j k 0 ⟨0, 0, 1⟩ f.dir H.Hz⟩
  else
    ⟨Hx_eff, Hy_eff, Hz_eff⟩

/-- Interpolated gyromagnetic ratio (lines 140, 231, 323). -/
def mag_gamma_interp (e : Env R) (f : Face) (i j k : Int) : R :=
  e.macro_avg_to_face i j k f.dir e.mag_gamma_arr

/-- Interpolated saturation magnetization, the divisor of
`M_magnitude_normalized` (lines 161, 251, 342). -/
def mag_Ms_interp (e : Env R) (f : Face) (i j k : Int) : R :=
  e.macro_avg_to_face i j k f.dir e.mag_Ms_arr

/-- Magnitude used by the damping coefficient (lines 142-143, 233-234, 325);
`m` is the content of the face array being written, read at the cell. -/
def M_magnitude (e : Env R) (f : Face) (m : Vec3 R) (i j k : Int) : R :=
  if e.M_normalization = 0 then e.sqrt (m.c0 ^ 2 + m.c1 ^ 2 + m.c2 ^ 2)
  else e.macro_avg_to_face i j k f.dir e.mag_Ms_arr

/-- Gilbert damping coefficient (lines 144, 235, 326). Where `M_magnitude` is
0 the code divides by zero; the quotient here is then the field's `x / 0 = 0`
and stands for no value of the code. `LLG_divisors` lists the divisors of a
call, and statements about the value stored are made where they are not 0. -/
def Gil_damp (e : Env R) (f : Face) (m : Vec3 R) (i j k : Int) : R :=
  e.mu0 * mag_gamma_interp e f i j k * e.macro_avg_to_face i j k f.dir e.mag_alpha_arr
    / M_magnitude e f m i j k

/-- Lines 148-157: the three `+=` on an x-face. `M_xface` is the cell of the
array being written, `M_xface_old` the cell of the snapshot. -/
def M_xface_update (dt mu0 mag_gamma_interp Gil_damp : R) (M_xface_old H : Vec3 R)
    (M_xface : Vec3 R) : Vec3 R :=
  let Hx_eff := H.c0
  let Hy_eff := H.c1
  let Hz_eff := H.c2
  ⟨M_xface.c0 + (dt * (mu0 * mag_gamma_interp) * (M_xface_old.c1 * Hz_eff - M_xface_old.c2 * Hy_eff)
      + dt * Gil_damp * (M_xface_old.c1 * (M_xface_old.c0 * Hy_eff - M_xface_old.c1 * Hx_eff)
        - M_xface_old.c2 * (M_xface_old.c2 * Hx_eff - M_xface_old.c0 * Hz_eff))),
   M_xface.c1 + (dt * (mu0 * mag_gamma_interp) * (M_xface_old.c2 * Hx_eff - M_xface_old.c0 * Hz_eff)
      + dt * Gil_damp * (M_xface_old.c2 * (M_xface_old.c1 * Hz_eff - M_xface_old.c2 * Hy_eff)
        - M_xface_old.c0 * (M_xface_old.c0 * Hy_eff - M_xface_old.c1 * Hx_eff))),
   M_xface.c2 + (dt * (mu0 * mag_gamma_interp) * (M_xface_old.c0 * Hy_eff - M_xface_old.c1 * Hx_eff)
      + dt * Gil_damp * (M_xface_old.c0 * (M_xface_old.c2 * Hx_eff - M_xface_old.c0 * Hz_eff)
        - M_xface_old.c1 * (M_xface_old.c1 * Hz_eff - M_xface_old.c2 * Hy_eff)))⟩

/-- Lines 238-247: the three `+=` on a y-face. -/
def M_yface_update (dt mu0 mag_gamma_interp Gil_damp : R) (M_yface_old H : Vec3 R)
    (M_yface : Vec3 R) : Vec3 R :=
  let Hx_eff := H.c0
  let Hy_eff := H.c1
  let Hz_eff := H.c2
  ⟨M_yface.c0 + (dt * (mu0 * mag_gamma_interp) * (M_yface_old.c1 * Hz_eff - M_yface_old.c2 * Hy_eff)
      + dt * Gil_damp * (M_yface_old.c1 * (M_yface_old.c0 * Hy_eff - M_yface_old.c1 * Hx_eff)
        - M_yface_old.c2 * (M_yface_old.c2 * Hx_eff - M_yface_old.c0 * Hz_eff))),
   M_yface.c1 + (dt * (mu0 * mag_gamma_interp) * (M_yface_old.c2 * Hx_eff - M_yface_old.c0 * Hz_eff)
      + dt * Gil_damp * (M_yface_old.c2 * (M_yface_old.c1 * Hz_eff - M_yface_old.c2 * Hy_eff)
        - M_yface_old.c0 * (M_yface_old.c0 * Hy_eff - M_yface_old.c1 * Hx_eff))),
   M_yface.c2 + (dt * (mu0 * mag_gamma_interp) * (M_yface_old.c0 * Hy_eff - M_yface_old.c1 * Hx_eff)
      + dt * Gil_damp * (M_yface_old.c0 * (M_yface_old.c2 * Hx_eff - M_yface_old.c0 * Hz_eff)
        - M_yface_old.c1 * (M_yface_old.c1 * Hz_eff - M_yface_old.c2 * Hy_eff)))⟩

/-- Lines 329-338: the three `+=` on a z-face. The last product of the z
component reads `M_yface_old(i, j, k, 2)` (line 338), passed as
`M_yface_old_2`. -/
def M_zface_update (dt mu0 mag_gamma_interp Gil_damp : R) (M_zface_old H : Vec3 R)
    (M_yface_old_2 : R) (M_zface : Vec3 R) : Vec3 R :=
  let Hx_eff := H.c0
  let Hy_eff := H.c1
  let Hz_eff := H.c2
  ⟨M_zface.c0 + (dt * (mu0 * mag_gamma_interp) * (M_zface_old.c1 * Hz_eff - M_zface_old.c2 * Hy_eff)
      + dt * Gil_damp * (M_zface_old.c1 * (M_zface_old.c0 * Hy_eff - M_zface_old.c1 * Hx_eff)
        - M_zface_old.c2 * (M_zface_old.c2 * Hx_eff - M_zface_old.c0 * Hz_eff))),
   M_zface.c1 + (dt * (mu0 * mag_gamma_interp) * (M_zface_old.c2 * Hx_eff - M_zface_old.c0 * Hz_eff)
      + dt * Gil_damp * (M_zface_old.c2 * (M_zface_old.c1 * Hz_eff - M_zface_old.c2 * Hy_eff)
        - M_zface_old.c0 * (M_zface_old.c0 * Hy_eff - M_zface_old.c1 * Hx_eff))),
   M_zface.c2 + (dt * (mu0 * mag_gamma_interp) * (M_zface_old.c0 * Hy_eff - M_zface_old.c1 * Hx_eff)
      + dt * Gil_damp * (M_zface_old.c0 * (M_zface_old.c2 * Hx_eff - M_zface_old.c0 * Hz_eff)
        - M_zface_old.c1 * (M_zface_old.c1 * Hz_eff - M_yface_old_2 * Hy_eff)))⟩

/-- Value of M at the cell of a work item after the three `+=` and before the
validity policy. `M` is the field being written, `M_old` the snapshot. -/
def M_updated (e : Env R) (H : Hfield R) (M_old M : Mfield R) (w : Work) : Vec3 R :=
  let m := readCell (M.face w.face) w.i w.j w.k
  let g := mag_gamma_interp e w.face w.i w.j w.k
  let G := Gil_damp e w.face m w.i w.j w.k
  let Heff := H_eff e H w.face w.i w.j w.k
  match w.face with
  | Face.x => M_xface_update e.dt e.mu0 g G (readCell M_old.M_xface w.i w.j w.k) Heff m
  | Face.y => M_yface_update e.dt e.mu0 g G (readCell M_old.M_yface w.i w.j w.k) Heff m
  | Face.z => M_zface_update e.dt e.mu0 g G (readCell M_old.M_zface w.i w.j w.k) Heff
      (M_old.M_yface w.i w.j w.k 2) m

/-- Lines 161, 251, 342: magnitude of the updated M over the interpolated
saturation magnetization. Where the interpolated Ms is 0 the code divides by
zero (and goes on with an infinity or a NaN, which fails every comparison of
the validity policy); the quotient here is then the field's `x / 0 = 0` and
stands for no value of the code. Statements about the magnitude of the value
stored are made under `mag_Ms_interp ≠ 0`. -/
def M_magnitude_normalized (e : Env R) (f : Face) (m : Vec3 R) (i j k : Int) : R :=
  e.sqrt (m.c0 ^ 2 + m.c1 ^ 2 + m.c2 ^ 2) / mag_Ms_interp e f i j k

/-- Division of the three components by the normalized magnitude
(lines 187-189 and 204-206). -/
def normalize (m : Vec3 R) (n : R) : Vec3 R :=
  ⟨m.c0 / n, m.c1 / n, m.c2 / n⟩

/-- Lines 177-208 (the same text on the three faces): the validity policy
applied to the updated cell; `none` is `amrex::Abort`. -/
def validity (M_normalization : Int) (mag_normalized_error : R)
    (M_magnitude_normalized : R) (m : Vec3 R) : Option (Vec3 R) :=
  if M_normalization > 0 then
    if abs (1 - M_magnitude_normalized) > mag_normalized_error then none
    else some (normalize m M_magnitude_normalized)
  else if M_normalization = 0 then
    if M_magnitude_normalized > 1 + mag_normalized_error then none
    else if M_magnitude_normalized > 1 ∧ M_magnitude_normalized ≤ 1 + mag_normalized_error then
      some (normalize m M_magnitude_normalized)
    else some m
  else some m

/-- One call of a lambda of the first `ParallelFor`: the value stored at the
cell, or `none` when the call aborts. -/
def LLG_cell (e : Env R) (H : Hfield R) (M_old M : Mfield R) (w : Work) : Option (Vec3 R) :=
  let m := M_updated e H M_old M w
  validity e.M_normalization e.mag_normalized_error
    (M_magnitude_normalized e w.face m w.i w.j w.k) m

/-- One call of a lambda of the first `ParallelFor`, as a state change of
`Mfield`. -/
def M_kernel (e : Env R) (H : Hfield R) (M_old : Mfield R) (M : Mfield R) (w : Work) :
    Option (Mfield R) :=
  (LLG_cell e H M_old M w).map fun v =>
    M.setFace w.face (writeCell (M.face w.face) w.i w.j w.k v)

/-- The first loop: the calls of the work list in order; an abort ends it. -/
def M_loop (e : Env R) (H : Hfield R) (M_old : Mfield R) (ws : List Work) (M : Mfield R) :
    Option (Mfield R) :=
  ws.foldl (fun acc w => acc.bind fun M' => M_kernel e H M_old M' w) (some M)

/-! ## The H update (lines 394-444) -/

/-- One call of a lambda of the second `ParallelFor` (lines 428-441). -/
def H_kernel (e : Env R) (M_old M : Mfield R) (H : Hfield R) (w : Work) : Hfield R :=
  let i := w.i
  let j := w.j
  let k := w.k
  match w.face with
  | Face.x =>
    let v := H.Hx i j k 0 + (1 / e.mu0 * e.dt * e.UpwardDz e.Ey i j k
      - 1 / e.mu0 * e.dt * e.UpwardDy e.Ez i j k - M.M_xface i j k 0 + M_old.M_xface i j k 0)
    { H with Hx := writeComp0 H.Hx i j k v }
  | Face.y =>
    let v := H.Hy i j k 0 + (1 / e.mu0 * e.dt * e.UpwardDx e.Ez i j k
      - 1 / e.mu0 * e.dt * e.UpwardDz e.Ex i j k - M.M_yface i j k 1 + M_old.M_yface i j k 1)
    { H with Hy := writeComp0 H.Hy i j k v }
  | Face.z =>
    let v := H.Hz i j k 0 + (1 / e.mu0 * e.dt * e.UpwardDy e.Ex i j k
      - 1 / e.mu0 * e.dt * e.UpwardDx e.Ey i j k - M.M_zface i j k 2 + M_old.M_zface i j k 2)
    { H with Hz := writeComp0 H.Hz i j k v }

/-- The second loop: the calls of the work list in order. -/
def H_loop (e : Env R) (M_old M : Mfield R) (ws : List Work) (H : Hfield R) : Hfield R :=
  ws.foldl (H_kernel e M_old M) H

/-! ## The coupling step -/

/-- The step with the processing orders of the two loops as parameters:
snapshot (lines 63-71), first loop over `wsM`, second loop over `wsH`. -/
def stepInOrder (e : Env R) (wsM wsH : List Work) (s : State R) : Option (State R) :=
  let Mfield_old := s.M
  match M_loop e s.H Mfield_old wsM s.M with
  | none => none
  | some M' => some ⟨M', H_loop e Mfield_old M' wsH s.H⟩

/-- Work list of `ParallelFor(tbx, tby, tbz, ...)` in sequential order. -/
def workOf (tbx tby tbz : Box) : List Work :=
  tbx.work Face.x ++ tby.work Face.y ++ tbz.work Face.z

/-- `FiniteDifferenceSolver::MacroscopicEvolveHMCartesian` on one grid with
loop boxes `tbx`, `tby`, `tbz`. -/
def MacroscopicEvolveHMCartesian (e : Env R) (tbx tby tbz : Box) (s : State R) :
    Option (State R) :=
  stepInOrder e (workOf tbx tby tbz) (workOf tbx tby tbz) s

/-! ## The mutated step of the ordering property -/

/-- The second loop of the mutated step: every call reads the current M in
place of the snapshot, so that `- M_new + M_old` becomes `- M_new + M_new`. -/
def H_loop_mutated (e : Env R) (M : Mfield R) (ws : List Work) (H : Hfield R) : Hfield R :=
  ws.foldl (H_kernel e M M) H

/-- The step with the mutated second loop; the first loop is unchanged. -/
def MacroscopicEvolveHMCartesian_mutated (e : Env R) (tbx tby tbz : Box) (s : State R) :
    Option (State R) :=
  let Mfield_old := s.M
  match M_loop e s.H Mfield_old (workOf tbx tby tbz) s.M with
  | none => none
  | some M' => some ⟨M', H_loop_mutated e M' (workOf tbx tby tbz) s.H⟩

/-! ## Cell access by work item -/

/-- The triple of M stored at the cell of a work item. -/
def Mfield.cell (M : Mfield R) (w : Work) : Vec3 R :=
  readCell (M.face w.face) w.i w.j w.k

/-- Mfield with the triple at the cell of a work item replaced. -/
def Mfield.store (M : Mfield R) (w : Work) (v : Vec3 R) : Mfield R :=
  M.setFace w.face (writeCell (M.face w.face) w.i w.j w.k v)

/-- The face array of `Hfield` a work item addresses. -/
def Hfield.face (H : Hfield R) : Face → Array4 R
  | Face.x => H.Hx
  | Face.y => H.Hy
  | Face.z => H.Hz

/-- The value of H stored at the cell of a work item (`Hx(i,j,k)` on an
x-face, `Hy(i,j,k)` on a y-face, `Hz(i,j,k)` on a z-face). -/
def Hfield.cell (H : Hfield R) (w : Work) : R := H.face w.face w.i w.j w.k 0

/-- Hfield with the value at the cell of a work item replaced. -/
def Hfield.store (H : Hfield R) (w : Work) (v : R) : Hfield R :=
  match w.face with
  | Face.x => { H with Hx := writeComp0 H.Hx w.i w.j w.k v }
  | Face.y => { H with Hy := writeComp0 H.Hy w.i w.j w.k v }
  | Face.z => { H with Hz := writeComp0 H.Hz w.i w.j w.k v }

/-- The face-normal component of M at the cell of a work item: component 0 on
an x-face, 1 on a y-face, 2 on a z-face (the one the H update reads). -/
def Mfield.normal (M : Mfield R) (w : Work) : R :=
  match w.face with
  | Face.x => M.M_xface w.i w.j w.k 0
  | Face.y => M.M_yface w.i w.j w.k 1
  | Face.z => M.M_zface w.i w.j w.k 2

/-- The curl-of-E stencil difference the H update of a work item uses:
`UpwardDz(Ey) - UpwardDy(Ez)`, `UpwardDx(Ez) - UpwardDz(Ex)`,
`UpwardDy(Ex) - UpwardDx(Ey)`. -/
def curlE (e : Env R) (w : Work) : R :=
  match w.face with
  | Face.x => e.UpwardDz e.Ey w.i w.j w.k - e.UpwardDy e.Ez w.i w.j w.k
  | Face.y => e.UpwardDx e.Ez w.i w.j w.k - e.UpwardDz e.Ex w.i w.j w.k
  | Face.z => e.UpwardDy e.Ex w.i w.j w.k - e.UpwardDx e.Ey w.i w.j w.k

/-! ## Vector algebra used to state the update -/

/-- Sum of two triples. -/
def Vec3.add (a b : Vec3 R) : Vec3 R := ⟨a.c0 + b.c0, a.c1 + b.c1, a.c2 + b.c2⟩

/-- Multiple of a triple. -/
def Vec3.smul (t : R) (a : Vec3 R) : Vec3 R := ⟨t * a.c0, t * a.c1, t * a.c2⟩

/-- Vector cross product `a × b`. -/
def Vec3.cross (a b : Vec3 R) : Vec3 R :=
  ⟨a.c1 * b.c2 - a.c2 * b.c1, a.c2 * b.c0 - a.c0 * b.c2, a.c0 * b.c1 - a.c1 * b.c0⟩

/-- Explicit LLG step with torque coefficient `c`:
`M + dt * (c * (M × H) + G * (M × (M × H)))`. -/
def llgStep (dt c G : R) (M H : Vec3 R) : Vec3 R :=
  M.add (Vec3.smul dt ((Vec3.smul c (M.cross H)).add (Vec3.smul G (M.cross (M.cross H)))))

/-- The function `std::sqrt` is a square root on the nonnegative numbers. -/
def Env.SqrtSpec (e : Env R) : Prop :=
  ∀ x : R, 0 ≤ x → 0 ≤ e.sqrt x ∧ e.sqrt x * e.sqrt x = x

/-! ## Concrete inputs -/

/-- Array holding the same triple at every cell. -/
def uniform3 (v : Vec3 R) : Array4 R :=
  fun _ _ _ n => if n = 0 then v.c0 else if n = 1 then v.c1 else v.c2

/-- Array holding the same number at every cell. -/
def uniform1 (v : R) : Array4 R := fun _ _ _ _ => v

/-- Environment with uniform material, bias and electric fields. On uniform
fields every averaging interpolator returns the common value, which is what
the two interpolators here do by sampling the cell; the difference operators
are the Yee differences with unit coefficient. -/
def uniformEnv (sqrt : R → R) (mu0 dt : R) (coupling M_normalization : Int)
    (mag_normalized_error Ms alpha gamma : R) (H_bias E : Vec3 R) : Env R where
  sqrt := sqrt
  macro_avg_to_face := fun i j k _ F => F i j k 0
  face_avg_to_face := fun i j k n _ _ F => F i j k n
  UpwardDx := fun F i j k => F (i + 1) j k 0 - F i j k 0
  UpwardDy := fun F i j k => F i (j + 1) k 0 - F i j k 0
  UpwardDz := fun F i j k => F i j (k + 1) 0 - F i j k 0
  mu0 := mu0
  dt := dt
  coupling := coupling
  M_normalization := M_normalization
  mag_normalized_error := mag_normalized_error
  mag_Ms_arr := uniform1 Ms
  mag_alpha_arr := uniform1 alpha
  mag_gamma_arr := uniform1 gamma
  Hx_bias := uniform1 H_bias.c0
  Hy_bias := uniform1 H_bias.c1
  Hz_bias := uniform1 H_bias.c2
  Ex := uniform1 E.c0
  Ey := uniform1 E.c1
  Ez := uniform1 E.c2

/-- Magnetization holding the triple `v` at every cell of the three faces. -/
def uniformM (v : Vec3 R) : Mfield R := ⟨uniform3 v, uniform3 v, uniform3 v⟩

/-- Magnetic field holding `h` at every cell of the three faces. -/
def uniformH (h : R) : Hfield R := ⟨uniform1 h, uniform1 h, uniform1 h⟩

/-- Uniform environment at rest: no bias field, no electric field, no
coupling, `mu0 = dt = gamma = Ms = 1`, `alpha = 0`; the normalization mode and
the tolerance are parameters. -/
def restEnv (sqrt : R → R) (M_normalization : Int) (mag_normalized_error : R) : Env R :=
  uniformEnv sqrt 1 1 0 M_normalization mag_normalized_error 1 0 1 ⟨0, 0, 0⟩ ⟨0, 0, 0⟩

end Kernel

/-! ## Concrete inputs over the rationals -/

/-- Strict mode, no coupling, `mu0 = dt = gamma = Ms = 1`, `alpha = 0`,
tolerance `1/10`, bias field `(0, 0, 1)`. -/
def torqueEnv : Env ℚ := uniformEnv Rat.sqrt 1 1 0 1 (1 / 10) 1 0 1 ⟨0, 0, 1⟩ ⟨0, 0, 0⟩

/-- Magnetization `(0, 1, 0)` on every face cell, perpendicular to the bias
fields of `torqueEnv` and `kickEnv`. -/
def torqueM : Mfield ℚ := uniformM ⟨0, 1, 0⟩

/-- Magnetization `(0, 0, 1)` on every face cell, parallel to the bias field
of `torqueEnv`. -/
def alignedM : Mfield ℚ := uniformM ⟨0, 0, 1⟩

/-- Strict mode, no coupling, `mu0 = dt = gamma = alpha = Ms = 1`, tolerance
`1/10`, bias field `(0, 1, 0)`. -/
def dampedEnv : Env ℚ := uniformEnv Rat.sqrt 1 1 0 1 (1 / 10) 1 1 1 ⟨0, 1, 0⟩ ⟨0, 0, 0⟩

/-- Magnetization `(0, 1, 0)` on z-faces (parallel to the bias field of
`dampedEnv`) and `(0, 0, y)` on y-faces. -/
def dampedM (y : ℚ) : Mfield ℚ := ⟨uniform3 ⟨0, 1, 0⟩, uniform3 ⟨0, 0, y⟩, uniform3 ⟨0, 1, 0⟩⟩

/-- The box of the eight cells `0 <= i, j, k <= 1`. -/
def unitBox : Box := ⟨⟨0, 0, 0⟩, ⟨1, 1, 1⟩⟩

/-- Strict mode, no coupling, `mu0 = dt = gamma = Ms = 1`, `alpha = 0`,
tolerance `1/2`, bias field `(0, 0, 3/4)`. -/
def kickEnv : Env ℚ := uniformEnv Rat.sqrt 1 1 0 1 (1 / 2) 1 0 1 ⟨0, 0, 3 / 4⟩ ⟨0, 0, 0⟩

/-- The box of the single cell `(0, 0, 0)`. -/
def cellBox : Box := ⟨⟨0, 0, 0⟩, ⟨0, 0, 0⟩⟩

/-- The M the step returns on `kickEnv`, `torqueM`, `cellBox`: the updated
`(3/4, 1, 0)` has magnitude `5/4` and is renormalized to `(3/5, 4/5, 0)`. -/
def kickM_new : Mfield ℚ :=
  ((torqueM.store ⟨Face.x, 0, 0, 0⟩ ⟨3 / 5, 4 / 5, 0⟩).store
    ⟨Face.y, 0, 0, 0⟩ ⟨3 / 5, 4 / 5, 0⟩).store ⟨Face.z, 0, 0, 0⟩ ⟨3 / 5, 4 / 5, 0⟩

/-- The H the step returns on `kickEnv`, `torqueM`, `cellBox` from `H = 0`. -/
def kickH_new : Hfield ℚ :=
  (((uniformH 0).store ⟨Face.x, 0, 0, 0⟩ (-3 / 5)).store ⟨Face.y, 0, 0, 0⟩ (1 / 5)).store
    ⟨Face.z, 0, 0, 0⟩ 0

/-- The H the mutated step returns on `kickEnv`, `torqueM`, `cellBox` from
`H = 0`. -/
def kickH_mutated : Hfield ℚ :=
  (((uniformH 0).store ⟨Face.x, 0, 0, 0⟩ 0).store ⟨Face.y, 0, 0, 0⟩ 0).store
    ⟨Face.z, 0, 0, 0⟩ 0

/-! ## The dispatcher `MacroscopicEvolveHM` (lines 26-45) -/

section Dispatcher

variable {R : Type} [LinearOrderedField R]

/-- How a call of `MacroscopicEvolveHM` ends: it returns with the fields in a
state, or it stops in `amrex::Abort("Only yee algorithm is compatible for H
and M updates.")` (line 43) with the fields in the state they have at that
point, or it stops in one of the `amrex::Abort` calls of the validity policy
inside the Cartesian update. -/
inductive Outcome (R : Type) where
  | returned : State R → Outcome R
  | abortOnlyYee : State R → Outcome R
  | abortInvalidM : Outcome R

/-- `FiniteDifferenceSolver::MacroscopicEvolveHM`. The constant
`MaxwellSolverAlgo::Yee` (`WarpXAlgorithmSelection.H`) is the parameter `Yee`,
the member `m_fdtd_algo` the parameter of that name. -/
def MacroscopicEvolveHM (Yee m_fdtd_algo : Int) (e : Env R) (tbx tby tbz : Box)
    (s : State R) : Outcome R :=
  if m_fdtd_algo = Yee then
    match MacroscopicEvolveHMCartesian e tbx tby tbz s with
    | some s' => Outcome.returned s'
    | none => Outcome.abortInvalidM
  else
    Outcome.abortOnlyYee s

end Dispatcher

/-! ## Particle deposition (`Source/WarpXParticleContainer.cpp`)

* A particle tile is the list of its particles; the arrays the code passes
  (`m_xp`, `m_yp`, `m_zp`, `uxp`, `uyp`, `uzp`, `m_giv`, `wp`) are read
  index-wise as one record per particle.
* A scratch `FArrayBox` is its box and its component 0; a callee that is given
  `dataPtr()` and `length()` sees the values on the cells of the box
  (`FArrayBox.storage`).
* A `MultiFab` is the part a tile touches: the valid box, the ghost-cell count
  and the array of the tile's grid.
* A null pointer argument is `none`; dereferencing it ends the call with
  `none`.
* The functions of AMReX and of `WarpX` the code calls and the two deposition
  kernels are fields of `DepositEnv`.
* `trace` is ghost state: the calls of the `WarpX` level look-ups, of the
  kernels and of `atomicAdd`, in the order the code makes them.
-/

section Deposition

variable {R : Type} [LinearOrderedField R]

/-- Array view of one component, indexed by `(i, j, k)`. -/
abbrev Array3 (R : Type) := Int → Int → Int → R

/-- One particle: position, momentum, inverse Lorentz factor, weight. -/
structure Particle (R : Type) where
  x : R
  y : R
  z : R
  ux : R
  uy : R
  uz : R
  giv : R
  w : R

/-- Membership of a cell in a box. -/
def Box.contains (b : Box) (i j k : Int) : Prop :=
  (b.smallEnd.x ≤ i ∧ i ≤ b.bigEnd.x) ∧ (b.smallEnd.y ≤ j ∧ j ≤ b.bigEnd.y) ∧
    (b.smallEnd.z ≤ k ∧ k ≤ b.bigEnd.z)

instance (b : Box) (i j k : Int) : Decidable (b.contains i j k) := by
  unfold Box.contains
  exact inferInstance

/-- Member `amrex::Box::grow(int)`: the box enlarged by `n` cells on every
side. -/
def Box.grow (b : Box) (n : Int) : Box :=
  ⟨⟨b.smallEnd.x - n, b.smallEnd.y - n, b.smallEnd.z - n⟩,
   ⟨b.bigEnd.x + n, b.bigEnd.y + n, b.bigEnd.z + n⟩⟩

/-- Member `amrex::Box::length()`: the number of cells in each direction. -/
def Box.length (b : Box) : IntVect :=
  ⟨b.bigEnd.x - b.smallEnd.x + 1, b.bigEnd.y - b.smallEnd.y + 1,
   b.bigEnd.z - b.smallEnd.z + 1⟩

/-- Scratch buffer `amrex::FArrayBox` with one component. -/
structure FArrayBox (R : Type) where
  box : Box
  data : Array3 R

/-- The part of a `MultiFab` a tile touches. -/
structure MultiFab (R : Type) where
  validbox : Box
  nGrow : Int
  fab : Array4 R

/-- Destination of an `atomicAdd`. -/
inductive Dest where
  | jx : Dest
  | jy : Dest
  | jz : Dest
  | cjx : Dest
  | cjy : Dest
  | cjz : Dest
  | rhomf : Dest
  | crhomf : Dest
deriving DecidableEq, Repr

/-- Ghost record of one call. The two kernel events carry the index of the
first particle passed and the count passed. -/
inductive Event where
  | LowerCorner : Int → Event
  | CellSize : Int → Event
  | RefRatio : Int → Event
  | current_deposition : Int → Int → Event
  | charge_deposition : Int → Int → Event
  | atomicAdd : Dest → Event
  | pusher_positions : Int → Event
deriving DecidableEq, Repr

/-- What `warpx_current_deposition` is passed besides the three buffers
(lines 259-273 and 347-363). -/
structure CurrentDepositionArgs (R : Type) where
  ngJ : Int
  jxntot : IntVect
  jyntot : IntVect
  jzntot : IntVect
  np : Int
  particles : List (Particle R)
  q : R
  xyzmin : Vec3 R
  dt : R
  dx : Vec3 R
  nox : Int
  noy : Int
  noz : Int
  lvect : Int
  algo : Int

/-- What `warpx_charge_deposition` is passed besides the buffer (lines
438-448 and 492-502). -/
structure ChargeDepositionArgs (R : Type) where
  np : Int
  particles : List (Particle R)
  q : R
  xyzmin : Vec3 R
  dx : Vec3 R
  nx : Int
  ny : Int
  nz : Int
  nxg : Int
  nyg : Int
  nzg : Int
  nox : Int
  noy : Int
  noz : Int
  lvect : Int
  algo : Int

/-- Everything the deposition only reads and the functions defined outside
the file: `amrex::convert`, `amrex::coarsen`, the content `resize` leaves in
a buffer, the static members and functions of `WarpX`, the member `charge`,
and the two kernels, which return the buffers as they leave them. -/
structure DepositEnv (R : Type) where
  convert : Box → IntVect → Box
  coarsen : Box → IntVect → Box
  resizeData : FArrayBox R → Box → Array3 R
  LowerCorner : Box → Int → Vec3 R
  CellSize : Int → Vec3 R
  RefRatio : Int → IntVect
  jx_nodal_flag : IntVect
  jy_nodal_flag : IntVect
  jz_nodal_flag : IntVect
  nox : Int
  noy : Int
  noz : Int
  current_deposition_algo : Int
  charge_deposition_algo : Int
  charge : R
  warpx_current_deposition :
    CurrentDepositionArgs R → Array3 R → Array3 R → Array3 R → Array3 R × Array3 R × Array3 R
  warpx_charge_deposition : ChargeDepositionArgs R → Array3 R → Array3 R

/-- Member `FArrayBox::resize(box)`: the new box, with the content the
allocator leaves. -/
def FArrayBox.resize (d : DepositEnv R) (f : FArrayBox R) (b : Box) : FArrayBox R :=
  ⟨b, d.resizeData f b⟩

/-- Member `FArrayBox::setVal(v, b, 0, 1)`. -/
def FArrayBox.setVal (f : FArrayBox R) (v : R) (b : Box) : FArrayBox R :=
  ⟨f.box, fun i j k => if b.contains i j k then v else f.data i j k⟩

/-- What a callee given `dataPtr()` and `length()` sees: the values on the
cells of the box. -/
def FArrayBox.storage (f : FArrayBox R) : Array3 R :=
  fun i j k => if f.box.contains i j k then f.data i j k else 0

/-- The scratch buffer as the kernel receives it: `resize(b)` followed by
`setVal(0.0, b, 0, 1)` (lines 228-252, 316-340, 419-424, 471-476). -/
def zeroedScratch (d : DepositEnv R) (f : FArrayBox R) (b : Box) : FArrayBox R :=
  (f.resize d b).setVal 0 b

/-- Member `FArrayBox::atomicAdd(src, b, b, 0, destcomp, 1)` on the array of
the destination: component 0 of `src` is added to component `destcomp` on the
cells of `b`. -/
def atomicAdd (dest : Array4 R) (src : Array3 R) (b : Box) (destcomp : Nat) : Array4 R :=
  fun i j k n => if b.contains i j k ∧ n = destcomp then dest i j k n + src i j k
    else dest i j k n

/-- Store a new array in a `MultiFab`. -/
def MultiFab.withFab (m : MultiFab R) (a : Array4 R) : MultiFab R :=
  { m with fab := a }

/-! ### `DepositCurrent` (lines 195-391) -/

/-- What `DepositCurrent` reads and writes: the scratch buffers
`local_jx[thread_num]`, `local_jy[thread_num]`, `local_jz[thread_num]`, the
fields `jx`, `jy`, `jz`, the nullable coarse fields `cjx`, `cjy`, `cjz`, and
the ghost trace. -/
structure CurrentState (R : Type) where
  local_jx : FArrayBox R
  local_jy : FArrayBox R
  local_jz : FArrayBox R
  jx : MultiFab R
  jy : MultiFab R
  jz : MultiFab R
  cjx : Option (MultiFab R)
  cjy : Option (MultiFab R)
  cjz : Option (MultiFab R)
  trace : List Event

/-- The three scratch boxes of a tile box (lines 214-216 and 224-226, or
309-314): converted to the staggering of `jx`, `jy`, `jz` and grown by
`ngJ`. -/
def currentBoxes (d : DepositEnv R) (b : Box) (ngJ : Int) : Box × Box × Box :=
  ((d.convert b d.jx_nodal_flag).grow ngJ, (d.convert b d.jy_nodal_flag).grow ngJ,
    (d.convert b d.jz_nodal_flag).grow ngJ)

/-- Arguments of the fine call of `warpx_current_deposition` (lines
259-273): the first `np_current` particles, the lower corner of the tile box
at `lev`, the cell size of `lev`. -/
def currentArgsFine (d : DepositEnv R) (tilebox : Box) (P : List (Particle R))
    (ngJ np_current lev : Int) (dt : R) : CurrentDepositionArgs R :=
  let tb := currentBoxes d tilebox ngJ
  { ngJ := ngJ
    jxntot := tb.1.length
    jyntot := tb.2.1.length
    jzntot := tb.2.2.length
    np := np_current
    particles := P.take np_current.toNat
    q := d.charge
    xyzmin := d.LowerCorner tilebox lev
    dt := dt
    dx := d.CellSize lev
    nox := d.nox
    noy := d.noy
    noz := d.noz
    lvect := 8
    algo := d.current_deposition_algo }

/-- Arguments of the coarse call of `warpx_current_deposition` (lines
347-363): the `np - np_current` particles from index `np_current`, the lower
corner of the coarsened tile box at `lev - 1`, the cell size of
`max(lev - 1, 0)`. -/
def currentArgsCoarse (d : DepositEnv R) (tilebox : Box) (P : List (Particle R))
    (ngJ np_current np lev : Int) (dt : R) : CurrentDepositionArgs R :=
  let ctilebox := d.coarsen tilebox (d.RefRatio (lev - 1))
  let tb := currentBoxes d ctilebox ngJ
  { ngJ := ngJ
    jxntot := tb.1.length
    jyntot := tb.2.1.length
    jzntot := tb.2.2.length
    np := np - np_current
    particles := (P.drop np_current.toNat).take (np - np_current).toNat
    q := d.charge
    xyzmin := d.LowerCorner ctilebox (lev - 1)
    dt := dt
    dx := d.CellSize (max (lev - 1) 0)
    nox := d.nox
    noy := d.noy
    noz := d.noz
    lvect := 8
    algo := d.current_deposition_algo }

/-- The three buffers as the fine call of the kernel leaves them. -/
def currentScratchFine (d : DepositEnv R) (tilebox : Box) (P : List (Particle R))
    (np_current lev : Int) (dt : R) (st : CurrentState R) : Array3 R × Array3 R × Array3 R :=
  let ngJ := st.jx.nGrow
  let tb := currentBoxes d tilebox ngJ
  d.warpx_current_deposition (currentArgsFine d tilebox P ngJ np_current lev dt)
    (zeroedScratch d st.local_jx tb.1).storage (zeroedScratch d st.local_jy tb.2.1).storage
    (zeroedScratch d st.local_jz tb.2.2).storage

/-- Lines 222-300, the block `if (np_current > 0)`. -/
def DepositCurrent_fine (d : DepositEnv R) (tilebox : Box) (P : List (Particle R))
    (np_current lev : Int) (dt : R) (st : CurrentState R) : CurrentState R :=
  let ngJ := st.jx.nGrow
  let tb := currentBoxes d tilebox ngJ
  let out := currentScratchFine d tilebox P np_current lev dt st
  { st with
    local_jx := ⟨tb.1, out.1⟩
    local_jy := ⟨tb.2.1, out.2.1⟩
    local_jz := ⟨tb.2.2, out.2.2⟩
    jx := st.jx.withFab (atomicAdd st.jx.fab out.1 tb.1 0)
    jy := st.jy.withFab (atomicAdd st.jy.fab out.2.1 tb.2.1 0)
    jz := st.jz.withFab (atomicAdd st.jz.fab out.2.2 tb.2.2 0)
    trace := st.trace ++ [Event.current_deposition 0 np_current, Event.atomicAdd Dest.jx,
      Event.atomicAdd Dest.jy, Event.atomicAdd Dest.jz] }

/-- The three buffers as the coarse call of the kernel leaves them; `ngJ` is
`jx.nGrow()`. -/
def currentScratchCoarse (d : DepositEnv R) (tilebox : Box) (P : List (Particle R))
    (ngJ np_current np lev : Int) (dt : R) (st : CurrentState R) :
    Array3 R × Array3 R × Array3 R :=
  let ctilebox := d.coarsen tilebox (d.RefRatio (lev - 1))
  let tb := currentBoxes d ctilebox ngJ
  d.warpx_current_deposition (currentArgsCoarse d tilebox P ngJ np_current np lev dt)
    (zeroedScratch d st.local_jx tb.1).storage (zeroedScratch d st.local_jy tb.2.1).storage
    (zeroedScratch d st.local_jz tb.2.2).storage

/-- Lines 303-390, the block `if (np_current < np)`; `none` when one of
`cjx`, `cjy`, `cjz` is null. -/
def DepositCurrent_coarse (d : DepositEnv R) (tilebox : Box) (P : List (Particle R))
    (np_current np lev : Int) (dt : R) (st : CurrentState R) : Option (CurrentState R) :=
  let ngJ := st.jx.nGrow
  let ctilebox := d.coarsen tilebox (d.RefRatio (lev - 1))
  let tb := currentBoxes d ctilebox ngJ
  let out := currentScratchCoarse d tilebox P ngJ np_current np lev dt st
  match st.cjx, st.cjy, st.cjz with
  | some cjx, some cjy, some cjz =>
    some { st with
      local_jx := ⟨tb.1, out.1⟩
      local_jy := ⟨tb.2.1, out.2.1⟩
      local_jz := ⟨tb.2.2, out.2.2⟩
      cjx := some (cjx.withFab (atomicAdd cjx.fab out.1 tb.1 0))
      cjy := some (cjy.withFab (atomicAdd cjy.fab out.2.1 tb.2.1 0))
      cjz := some (cjz.withFab (atomicAdd cjz.fab out.2.2 tb.2.2 0))
      trace := st.trace ++ [Event.RefRatio (lev - 1), Event.LowerCorner (lev - 1),
        Event.current_deposition np_current (np - np_current), Event.atomicAdd Dest.cjx,
        Event.atomicAdd Dest.cjy, Event.atomicAdd Dest.cjz] }
  | _, _, _ => none

/-- `WarpXParticleContainer::DepositCurrent` on one tile: `tilebox` is
`pti.tilebox()`, `P` the particles of the tile. -/
def DepositCurrent (d : DepositEnv R) (tilebox : Box) (P : List (Particle R))
    (np_current np lev : Int) (dt : R) (st : CurrentState R) : Option (CurrentState R) :=
  let st0 := { st with trace := st.trace ++
    [Event.LowerCorner lev, Event.CellSize lev, Event.CellSize (max (lev - 1) 0)] }
  let st1 := if np_current > 0 then DepositCurrent_fine d tilebox P np_current lev dt st0
    else st0
  if np_current < np then DepositCurrent_coarse d tilebox P np_current np lev dt st1
  else some st1

/-! ### `DepositCharge` on one tile (lines 394-515) -/

/-- What the per-tile `DepositCharge` reads and writes: the scratch buffer
`local_rho[thread_num]`, the nullable fields `rhomf` and `crhomf`, and the
ghost trace. -/
structure ChargeState (R : Type) where
  local_rho : FArrayBox R
  rhomf : Option (MultiFab R)
  crhomf : Option (MultiFab R)
  trace : List Event

/-- The scratch box of a tile box (lines 409 and 418, or 469-470): converted
with `IntVect::TheUnitVector()` and grown by `ngRho`. -/
def chargeBox (d : DepositEnv R) (b : Box) (ngRho : Int) : Box :=
  (d.convert b ⟨1, 1, 1⟩).grow ngRho

/-- Arguments of the fine call of `warpx_charge_deposition` (lines 438-448). -/
def chargeArgsFine (d : DepositEnv R) (tilebox : Box) (P : List (Particle R))
    (ngRho np_current lev : Int) : ChargeDepositionArgs R :=
  let rholen := (chargeBox d tilebox ngRho).length
  { np := np_current
    particles := P.take np_current.toNat
    q := d.charge
    xyzmin := d.LowerCorner tilebox lev
    dx := d.CellSize lev
    nx := rholen.x - 1 - 2 * ngRho
    ny := rholen.y - 1 - 2 * ngRho
    nz := rholen.z - 1 - 2 * ngRho
    nxg := ngRho
    nyg := ngRho
    nzg := ngRho
    nox := d.nox
    noy := d.noy
    noz := d.noz
    lvect := 8
    algo := d.charge_deposition_algo }

/-- Arguments of the coarse call of `warpx_charge_deposition` (lines
492-502). -/
def chargeArgsCoarse (d : DepositEnv R) (tilebox : Box) (P : List (Particle R))
    (ngRho np_current np lev : Int) : ChargeDepositionArgs R :=
  let ctilebox := d.coarsen tilebox (d.RefRatio (lev - 1))
  let rholen := (chargeBox d ctilebox ngRho).length
  { np := np - np_current
    particles := (P.drop np_current.toNat).take (np - np_current).toNat
    q := d.charge
    xyzmin := d.LowerCorner ctilebox (lev - 1)
    dx := d.CellSize (max (lev - 1) 0)
    nx := rholen.x - 1 - 2 * ngRho
    ny := rholen.y - 1 - 2 * ngRho
    nz := rholen.z - 1 - 2 * ngRho
    nxg := ngRho
    nyg := ngRho
    nzg := ngRho
    nox := d.nox
    noy := d.noy
    noz := d.noz
    lvect := 8
    algo := d.charge_deposition_algo }

/-- The buffer as the fine call of the kernel leaves it. -/
def chargeScratchFine (d : DepositEnv R) (tilebox : Box) (P : List (Particle R))
    (ngRho np_current lev : Int) (local_rho : FArrayBox R) : Array3 R :=
  d.warpx_charge_deposition (chargeArgsFine d tilebox P ngRho np_current lev)
    (zeroedScratch d local_rho (chargeBox d tilebox ngRho)).storage

/-- The buffer as the coarse call of the kernel leaves it. -/
def chargeScratchCoarse (d : DepositEnv R) (tilebox : Box) (P : List (Particle R))
    (ngRho np_current np lev : Int) (local_rho : FArrayBox R) : Array3 R :=
  d.warpx_charge_deposition (chargeArgsCoarse d tilebox P ngRho np_current np lev)
    (zeroedScratch d local_rho
      (chargeBox d (d.coarsen tilebox (d.RefRatio (lev - 1))) ngRho)).storage

/-- Lines 415-460, the block `if (np_current > 0)`; `rhomf` is the
dereferenced field. -/
def DepositCharge_fine (d : DepositEnv R) (tilebox : Box) (P : List (Particle R))
    (icomp : Nat) (np_current lev : Int) (rhomf : MultiFab R) (st : ChargeState R) :
    ChargeState R :=
  let ngRho := rhomf.nGrow
  let tile_box := chargeBox d tilebox ngRho
  let out := chargeScratchFine d tilebox P ngRho np_current lev st.local_rho
  { st with
    local_rho := ⟨tile_box, out⟩
    rhomf := some (rhomf.withFab (atomicAdd rhomf.fab out tile_box icomp))
    trace := st.trace ++ [Event.charge_deposition 0 np_current, Event.atomicAdd Dest.rhomf] }

/-- Lines 463-514, the block `if (np_current < np)`; `ngRho` is
`rhomf->nGrow()`; `none` when `crhomf` is null. -/
def DepositCharge_coarse (d : DepositEnv R) (tilebox : Box) (P : List (Particle R))
    (icomp : Nat) (ngRho np_current np lev : Int) (st : ChargeState R) :
    Option (ChargeState R) :=
  let tile_box := chargeBox d (d.coarsen tilebox (d.RefRatio (lev - 1))) ngRho
  let out := chargeScratchCoarse d tilebox P ngRho np_current np lev st.local_rho
  match st.crhomf with
  | some crhomf =>
    some { st with
      local_rho := ⟨tile_box, out⟩
      crhomf := some (crhomf.withFab (atomicAdd crhomf.fab out tile_box icomp))
      trace := st.trace ++ [Event.RefRatio (lev - 1), Event.LowerCorner (lev - 1),
        Event.charge_deposition np_current (np - np_current), Event.atomicAdd Dest.crhomf] }
  | none => none

/-- `WarpXParticleContainer::DepositCharge` on one tile; `none` when `rhomf`
is null (line 407). -/
def DepositCharge (d : DepositEnv R) (tilebox : Box) (P : List (Particle R)) (icomp : Nat)
    (np_current np lev : Int) (st : ChargeState R) : Option (ChargeState R) :=
  match st.rhomf with
  | none => none
  | some rhomf =>
    let st0 := { st with trace := st.trace ++
      [Event.LowerCorner lev, Event.CellSize lev, Event.CellSize (max (lev - 1) 0)] }
    let st1 := if np_current > 0 then DepositCharge_fine d tilebox P icomp np_current lev rhomf st0
      else st0
    if np_current < np then
      DepositCharge_coarse d tilebox P icomp rhomf.nGrow np_current np lev st1
    else some st1

/-- The kernel events of a trace that are passed the particle of index `i`:
the events `current_deposition first count` and `charge_deposition first count`
with `first <= i < first + count`. -/
def Event.passes (i : Int) : Event → Bool
  | Event.current_deposition first count => decide (first ≤ i ∧ i < first + count)
  | Event.charge_deposition first count => decide (first ≤ i ∧ i < first + count)
  | _ => false

/-- The fields a `DepositCurrent` call deposits into. -/
def CurrentState.dest (st : CurrentState R) :
    MultiFab R × MultiFab R × MultiFab R ×
      Option (MultiFab R) × Option (MultiFab R) × Option (MultiFab R) :=
  (st.jx, st.jy, st.jz, st.cjx, st.cjy, st.cjz)

/-- The fields a per-tile `DepositCharge` call deposits into. -/
def ChargeState.dest (st : ChargeState R) : Option (MultiFab R) × Option (MultiFab R) :=
  (st.rhomf, st.crhomf)

/-- The current kernel is additive over the particle list: on zeroed buffers,
what it leaves for the concatenation of two particle lists is the sum of what
it leaves for each. -/
def DepositEnv.CurrentAdditive (d : DepositEnv R) : Prop :=
  ∀ (a : CurrentDepositionArgs R) (P1 P2 : List (Particle R)) (i j k : Int),
    (d.warpx_current_deposition
        { a with np := ((P1 ++ P2).length : Int), particles := P1 ++ P2 }
        (fun _ _ _ => 0) (fun _ _ _ => 0) (fun _ _ _ => 0)).1 i j k
      = (d.warpx_current_deposition { a with np := (P1.length : Int), particles := P1 }
          (fun _ _ _ => 0) (fun _ _ _ => 0) (fun _ _ _ => 0)).1 i j k
        + (d.warpx_current_deposition { a with np := (P2.length : Int), particles := P2 }
          (fun _ _ _ => 0) (fun _ _ _ => 0) (fun _ _ _ => 0)).1 i j k ∧
    (d.warpx_current_deposition
        { a with np := ((P1 ++ P2).length : Int), particles := P1 ++ P2 }
        (fun _ _ _ => 0) (fun _ _ _ => 0) (fun _ _ _ => 0)).2.1 i j k
      = (d.warpx_current_deposition { a with np := (P1.length : Int), particles := P1 }
          (fun _ _ _ => 0) (fun _ _ _ => 0) (fun _ _ _ => 0)).2.1 i j k
        + (d.warpx_current_deposition { a with np := (P2.length : Int), particles := P2 }
          (fun _ _ _ => 0) (fun _ _ _ => 0) (fun _ _ _ => 0)).2.1 i j k ∧
    (d.warpx_current_deposition
        { a with np := ((P1 ++ P2).length : Int), particles := P1 ++ P2 }
        (fun _ _ _ => 0) (fun _ _ _ => 0) (fun _ _ _ => 0)).2.2 i j k
      = (d.warpx_current_deposition { a with np := (P1.length : Int), particles := P1 }
          (fun _ _ _ => 0) (fun _ _ _ => 0) (fun _ _ _ => 0)).2.2 i j k
        + (d.warpx_current_deposition { a with np := (P2.length : Int), particles := P2 }
          (fun _ _ _ => 0) (fun _ _ _ => 0) (fun _ _ _ => 0)).2.2 i j k

/-- The charge kernel is additive over the particle list, on a zeroed
buffer. -/
def DepositEnv.ChargeAdditive (d : DepositEnv R) : Prop :=
  ∀ (a : ChargeDepositionArgs R) (P1 P2 : List (Particle R)) (i j k : Int),
    d.warpx_charge_deposition
        { a with np := ((P1 ++ P2).length : Int), particles := P1 ++ P2 } (fun _ _ _ => 0) i j k
      = d.warpx_charge_deposition { a with np := (P1.length : Int), particles := P1 }
          (fun _ _ _ => 0) i j k
        + d.warpx_charge_deposition { a with np := (P2.length : Int), particles := P2 }
          (fun _ _ _ => 0) i j k

end Deposition

/-! ### Concrete inputs for the deposition -/

/-- A deposition environment over the rationals: `convert` adds the flag to
the upper corner, `coarsen` divides the corners, every refinement ratio is 2,
every cell size is 1, and the two kernels add the whole contribution of their
particles at the node `(0, 0, 0)`. -/
def originEnv : DepositEnv ℚ where
  convert := fun b t => ⟨b.smallEnd, ⟨b.bigEnd.x + t.x, b.bigEnd.y + t.y, b.bigEnd.z + t.z⟩⟩
  coarsen := fun b r => ⟨⟨b.smallEnd.x / r.x, b.smallEnd.y / r.y, b.smallEnd.z / r.z⟩,
    ⟨b.bigEnd.x / r.x, b.bigEnd.y / r.y, b.bigEnd.z / r.z⟩⟩
  resizeData := fun f _ => f.data
  LowerCorner := fun b _ => ⟨(b.smallEnd.x : ℚ), (b.smallEnd.y : ℚ), (b.smallEnd.z : ℚ)⟩
  CellSize := fun _ => ⟨1, 1, 1⟩
  RefRatio := fun _ => ⟨2, 2, 2⟩
  jx_nodal_flag := ⟨0, 1, 1⟩
  jy_nodal_flag := ⟨1, 0, 1⟩
  jz_nodal_flag := ⟨1, 1, 0⟩
  nox := 1
  noy := 1
  noz := 1
  current_deposition_algo := 3
  charge_deposition_algo := 0
  charge := 1
  warpx_current_deposition := fun a bx bY bz =>
    (fun i j k => bx i j k + if i = 0 ∧ j = 0 ∧ k = 0 then
        (a.particles.map (fun p => a.q * p.w * p.ux * p.giv)).sum else 0,
     fun i j k => bY i j k + if i = 0 ∧ j = 0 ∧ k = 0 then
        (a.particles.map (fun p => a.q * p.w * p.uy * p.giv)).sum else 0,
     fun i j k => bz i j k + if i = 0 ∧ j = 0 ∧ k = 0 then
        (a.particles.map (fun p => a.q * p.w * p.uz * p.giv)).sum else 0)
  warpx_charge_deposition := fun a b =>
    fun i j k => b i j k + if i = 0 ∧ j = 0 ∧ k = 0 then
      (a.particles.map (fun p => a.q * p.w)).sum else 0

/-- A particle at the origin moving along x, weight 1. -/
def particleA : Particle ℚ := ⟨0, 0, 0, 1, 0, 0, 1, 1⟩

/-- A particle moving along y, weight 2. -/
def particleB : Particle ℚ := ⟨1 / 2, 0, 0, 0, 1, 0, 1, 2⟩

/-- A field with one ghost cell on the box `unitBox`, holding `v` everywhere. -/
def uniformFab (v : ℚ) : MultiFab ℚ := ⟨unitBox, 1, fun _ _ _ _ => v⟩

/-- A state of `DepositCurrent`: scratch buffers holding 7 from an earlier
call, fields holding 3, coarse fields present and holding 5. -/
def currentState0 : CurrentState ℚ where
  local_jx := ⟨cellBox, fun _ _ _ => 7⟩
  local_jy := ⟨cellBox, fun _ _ _ => 7⟩
  local_jz := ⟨cellBox, fun _ _ _ => 7⟩
  jx := uniformFab 3
  jy := uniformFab 3
  jz := uniformFab 3
  cjx := some (uniformFab 5)
  cjy := some (uniformFab 5)
  cjz := some (uniformFab 5)
  trace := []

/-- A state of the per-tile `DepositCharge`: scratch buffer holding 7, `rhomf`
holding 3, `crhomf` present and holding 5. -/
def chargeState0 : ChargeState ℚ where
  local_rho := ⟨cellBox, fun _ _ _ => 7⟩
  rhomf := some (uniformFab 3)
  crhomf := some (uniformFab 5)
  trace := []


/-! ## `DepositCharge` by level (lines 517-582)

* `rho` is the list of its levels; a level is one grid: the valid box, the
  ghost-cell count and the single component.
* The particles of a level are the list of its tiles, in iteration order.
* `WRPX_DEPOSIT_CIC`, `SumBoundary`, `WRPX_SUM_FINE_TO_CRSE_NODAL`, the
  geometry and box arrays of `m_gdb`, and what the parallel `copy` delivers to
  each destination cell are fields of `LevelEnv`; `FabArrayBase::ADD` is the
  addition of the delivered value.
* `rho[0]` on an empty `rho` ends the call with `none`.
-/

section ChargeByLevel

variable {R : Type} [LinearOrderedField R]

/-- One level of `rho` on one grid. -/
structure RhoLevel (R : Type) where
  box : Box
  nGrow : Int
  data : Array3 R

/-- The box of the `FArrayBox` of a level: the valid box grown by the
ghost-cell count. -/
def RhoLevel.fabBox (r : RhoLevel R) : Box :=
  r.box.grow r.nGrow

/-- Member `MultiFab::setVal(val, nghost)`: the value on the valid box grown by
`nghost`. -/
def RhoLevel.setVal (r : RhoLevel R) (val : R) (nghost : Int) : RhoLevel R :=
  { r with data := fun i j k => if (r.box.grow nghost).contains i j k then val
      else r.data i j k }

/-- What a callee given `dataPtr()` sees: the values on the cells of the
`FArrayBox`. -/
def RhoLevel.storage (r : RhoLevel R) : Array3 R :=
  fun i j k => if r.fabBox.contains i j k then r.data i j k else 0

end ChargeByLevel

/-! ## `PushX` (lines 804-880)

* A level of the container is the list of its tiles, in iteration order, and
  the cost field `WarpX::getCosts(lev)` of the level, `none` when null.
* `amrex::second()` is the sequence `second` of its successive readings;
  `clock` counts the readings made.
* `giv` is the temporary the loop resizes; the content `resize` leaves and the
  pusher are fields of `PushEnv`. The pusher returns the arrays it was given
  as it leaves them.
-/

section Push

variable {R : Type} [LinearOrderedField R]

/-- One tile: its box and its particles. -/
structure Tile (R : Type) where
  tilebox : Box
  particles : List (Particle R)

/-- One level of the container. -/
structure Level (R : Type) where
  tiles : List (Tile R)
  costs : Option (MultiFab R)

/-- What `PushX` reads and writes, and the ghost trace. -/
structure Container (R : Type) where
  levels : List (Level R)
  clock : Nat
  trace : List Event

/-- Everything `PushX` only reads and the functions defined outside the
file. -/
structure PushEnv (R : Type) where
  do_not_push : Int
  second : Nat → R
  resize : List R → Int → List R
  warpx_particle_pusher_positions :
    Int → List (Particle R) → List R → R → List (Particle R) × List R

/-- Member `amrex::Box::d_numPts()`: the number of cells as a real. -/
def Box.d_numPts (b : Box) : R :=
  (b.length.x : R) * (b.length.y : R) * (b.length.z : R)

/-- Member `FArrayBox::plus(r, b)`: `r` is added to component 0 on the cells
of `b`. -/
def plus (a : Array4 R) (r : R) (b : Box) : Array4 R :=
  fun i j k n => if b.contains i j k ∧ n = 0 then a i j k n + r else a i j k n

/-- What the pusher call leaves in the tile: the positions copied back by
`SetPosition` and the momenta it was given by pointer; weight and stored
inverse Lorentz factor are not passed. -/
def SetPosition (old new : List (Particle R)) : List (Particle R) :=
  List.zipWith (fun p q => { q with giv := p.giv, w := p.w }) old new

/-- State of the loop over the tiles of a level. -/
structure PushLoop (R : Type) where
  done : List (Tile R)
  giv : List R
  cost : Option (MultiFab R)
  clock : Nat
  trace : List Event

/-- Body of the loop over tiles (lines 829-878). -/
def PushX_tile (e : PushEnv R) (dt : R) (s : PushLoop R) (t : Tile R) : PushLoop R :=
  let wt := e.second s.clock
  let np : Int := (t.particles.length : Int)
  let giv := e.resize s.giv np
  let out := e.warpx_particle_pusher_positions np t.particles giv dt
  let t' : Tile R := { t with particles := SetPosition t.particles out.1 }
  match s.cost with
  | some cost =>
    let wt' := (e.second (s.clock + 1) - wt) / t.tilebox.d_numPts
    { done := s.done ++ [t']
      giv := out.2
      cost := some (cost.withFab (plus cost.fab wt' t.tilebox))
      clock := s.clock + 2
      trace := s.trace ++ [Event.pusher_positions np] }
  | none =>
    { done := s.done ++ [t']
      giv := out.2
      cost := none
      clock := s.clock + 1
      trace := s.trace ++ [Event.pusher_positions np] }

/-- `WarpXParticleContainer::PushX(int lev, Real dt)`; `none` when the
container has no level `lev`. -/
def PushX_lev (e : PushEnv R) (lev : Int) (dt : R) (c : Container R) : Option (Container R) :=
  if e.do_not_push ≠ 0 then some c
  else if lev < 0 then none
  else
    match c.levels[lev.toNat]? with
    | none => none
    | some L =>
      let r := L.tiles.foldl (PushX_tile e dt) ⟨[], [], L.costs, c.clock, c.trace⟩
      some { levels := c.levels.set lev.toNat ⟨r.done, r.cost⟩
             clock := r.clock
             trace := r.trace }

/-- `WarpXParticleContainer::PushX(Real dt)`: the levels `0 .. finestLevel()`
in turn. -/
def PushX (e : PushEnv R) (dt : R) (c : Container R) : Option (Container R) :=
  (List.range c.levels.length).foldl
    (fun acc (lev : Nat) => acc.bind (PushX_lev e (Int.ofNat lev) dt)) (some c)

/-- The increment a tile adds to each of its cells when its two readings of
the clock are the readings `n` and `n + 1`. -/
def costIncrement (e : PushEnv R) (n : Nat) (t : Tile R) : R :=
  (e.second (n + 1) - e.second n) / t.tilebox.d_numPts

/-- The sum, at the cell `(i, j, k)`, of the increments of the tiles whose box
contains the cell, when the first reading of the clock is the reading `n`. -/
def costAdded (e : PushEnv R) : Nat → List (Tile R) → Int → Int → Int → R
  | _, [], _, _, _ => 0
  | n, t :: ts, i, j, k =>
    (if t.tilebox.contains i j k then costIncrement e n t else 0)
      + costAdded e (n + 2) ts i j k

end Push

/-! ### Concrete inputs for the by-level deposition and for `PushX` -/

/-- A push environment over the rationals: the clock reads `0, 1, 2, ...`,
`resize` leaves ones, and the pusher adds `u * giv * dt` to the position. -/
def sampleEnv (do_not_push : Int) : PushEnv ℚ where
  do_not_push := do_not_push
  second := fun n => (n : ℚ)
  resize := fun _ np => List.replicate np.toNat 1
  warpx_particle_pusher_positions := fun _ P giv dt =>
    (List.zipWith (fun p g =>
      { p with
        x := p.x + p.ux * g * dt
        y := p.y + p.uy * g * dt
        z := p.z + p.uz * g * dt }) P giv, giv)

/-- The box of the cells `2 <= i <= 3`, `0 <= j, k <= 1`. -/
def shiftedBox : Box := ⟨⟨2, 0, 0⟩, ⟨3, 1, 1⟩⟩

/-- A container with one level of two tiles and a cost field holding 3. -/
def sampleContainer : Container ℚ where
  levels := [⟨[⟨unitBox, [particleA]⟩, ⟨shiftedBox, [particleB]⟩], some (uniformFab 3)⟩]
  clock := 0
  trace := []

/-! ## The per-cell M update: interpolator, divisors and printed output -/

section CellDetails

variable {R : Type} [LinearOrderedField R]

/-- Modelled from the spec: `MacroscopicProperties::face_avg_to_face`, which
is declared in `MacroscopicProperties.H` and is not among the source files.
The spec: the function is deterministic and branches only on the equality of
the two orientations; with identical source and target orientation it returns
the input value unchanged; with different orientations it returns an
arithmetic mean over a local stencil of two or four points. The spec does not
give the offsets of that stencil: they are the parameter `stencil`, four
offsets of which two pairs may coincide (a two-point mean). -/
def face_avg_to_face (stencil : IntVect → IntVect → IntVect × IntVect × IntVect × IntVect)
    (i j k : Int) (n : Nat) (source_orientation target_orientation : IntVect)
    (field : Array4 R) : R :=
  if source_orientation = target_orientation then field i j k n
  else
    let s := stencil source_orientation target_orientation
    (field (i + s.1.x) (j + s.1.y) (k + s.1.z) n
      + field (i + s.2.1.x) (j + s.2.1.y) (k + s.2.1.z) n
      + field (i + s.2.2.1.x) (j + s.2.2.1.y) (k + s.2.2.1.z) n
      + field (i + s.2.2.2.x) (j + s.2.2.2.y) (k + s.2.2.2.z) n) / 4

/-- The environment whose `face_avg_to_face` is the function modelled from the
spec. -/
def Env.withFaceAvg (e : Env R)
    (stencil : IntVect → IntVect → IntVect × IntVect × IntVect × IntVect) : Env R :=
  { e with face_avg_to_face := WarpX.face_avg_to_face stencil }

/-- The three arrays of `H_biasfield`. -/
def Env.H_biasfield (e : Env R) : Hfield R := ⟨e.Hx_bias, e.Hy_bias, e.Hz_bias⟩

/-- The component of a triple normal to a face: 0 on an x-face, 1 on a y-face,
2 on a z-face. -/
def Vec3.normal (v : Vec3 R) : Face → R
  | Face.x => v.c0
  | Face.y => v.c1
  | Face.z => v.c2

/-- Whether the validity policy reaches the three `/= M_magnitude_normalized`
(lines 187-189 in strict mode, lines 204-206 in non-strict mode, and the same
text on the other two faces). -/
def renormalizes (M_normalization : Int) (mag_normalized_error M_magnitude_normalized : R) :
    Prop :=
  if M_normalization > 0 then ¬ (abs (1 - M_magnitude_normalized) > mag_normalized_error)
  else if M_normalization = 0 then
    ¬ (M_magnitude_normalized > 1 + mag_normalized_error) ∧
      (M_magnitude_normalized > 1 ∧ M_magnitude_normalized ≤ 1 + mag_normalized_error)
  else False

instance (M_normalization : Int) (tol n : R) : Decidable (renormalizes M_normalization tol n) := by
  unfold renormalizes
  exact inferInstance

/-- The divisors of the divisions one call of a lambda of the first
`ParallelFor` performs, in program order: `M_magnitude` (line 144), the
interpolated Ms (line 161), and `M_magnitude_normalized` three times when the
policy renormalizes. -/
def LLG_divisors (e : Env R) (H : Hfield R) (M_old M : Mfield R) (w : Work) : List R :=
  let m := M_updated e H M_old M w
  let n := M_magnitude_normalized e w.face m w.i w.j w.k
  [M_magnitude e w.face (readCell (M.face w.face) w.i w.j w.k) w.i w.j w.k,
    mag_Ms_interp e w.face w.i w.j w.k]
    ++ (if renormalizes e.M_normalization e.mag_normalized_error n then [n, n, n] else [])

/-- One `printf` or `amrex::Abort` message of the first loop, with the values
it formats. -/
inductive Printed (R : Type) where
  | face_cell : Face → Int → Int → Int → Printed R
  | M_values : R → R → R → Printed R
  | H_eff_values : R → R → R → Printed R
  | H_values : R → R → R → Printed R
  | torque_damping : Nat → R → R → Printed R
  | cell : Int → Int → Int → Printed R
  | strict_error : R → R → Printed R
  | nonstrict_error : R → R → Printed R
  | abort_strict : Face → Printed R
  | abort_nonstrict : Face → Printed R

/-- The three torque values the debugging block prints (lines 170, 172,
174). -/
def printed_torque (dt mu0 mag_gamma_interp : R) (M_old H : Vec3 R) : Vec3 R :=
  ⟨dt * (mu0 * mag_gamma_interp) * (M_old.c1 * H.c2 - M_old.c2 * H.c1),
   dt * (mu0 * mag_gamma_interp) * (M_old.c2 * H.c0 - M_old.c0 * H.c2),
   dt * (mu0 * mag_gamma_interp) * (M_old.c0 * H.c1 - M_old.c1 * H.c0)⟩

/-- The three damping expressions of the debugging block of the x-face (lines
171, 173, 175). -/
def printed_damping (dt Gil_damp : R) (M_old H : Vec3 R) : Vec3 R :=
  ⟨dt * Gil_damp * (M_old.c1 * (M_old.c0 * H.c1 - M_old.c1 * H.c0)
      - M_old.c2 * (M_old.c2 * H.c0 - M_old.c0 * H.c2)),
   dt * Gil_damp * (M_old.c2 * (M_old.c1 * H.c2 - M_old.c2 * H.c1)
      - M_old.c0 * (M_old.c0 * H.c1 - M_old.c1 * H.c0)),
   dt * Gil_damp * (M_old.c0 * (M_old.c2 * H.c0 - M_old.c0 * H.c2)
      - M_old.c1 * (M_old.c1 * H.c2 - M_old.c2 * H.c1))⟩

/-- The debugging block (lines 163-176, 254-267, 344-357): seven `printf` at
the cell `i == 4 && j == 4 && k == 4`. On a z-face the line `damping y`
formats the expression of `damping z` (line 353). -/
def debug_printf (e : Env R) (H : Hfield R) (M_old M : Mfield R) (w : Work) :
    List (Printed R) :=
  if w.i = 4 ∧ w.j = 4 ∧ w.k = 4 then
    let m := M_updated e H M_old M w
    let Heff := H_eff e H w.face w.i w.j w.k
    let t := printed_torque e.dt e.mu0 (mag_gamma_interp e w.face w.i w.j w.k)
      (readCell (M_old.face w.face) w.i w.j w.k) Heff
    let g := printed_damping e.dt
      (Gil_damp e w.face (readCell (M.face w.face) w.i w.j w.k) w.i w.j w.k)
      (readCell (M_old.face w.face) w.i w.j w.k) Heff
    [Printed.face_cell w.face w.i w.j w.k,
     Printed.M_values m.c0 m.c1 m.c2,
     Printed.H_eff_values Heff.c0 Heff.c1 Heff.c2,
     Printed.H_values (H.Hx w.i w.j w.k 0) (H.Hy w.i w.j w.k 0) (H.Hz w.i w.j w.k 0),
     Printed.torque_damping 0 t.c0 g.c0,
     Printed.torque_damping 1 t.c1 (match w.face with
       | Face.z => g.c2
       | _ => g.c1),
     Printed.torque_damping 2 t.c2 g.c2]
  else []

/-- What the validity policy prints (lines 177-208): nothing unless it
aborts. -/
def validity_printf (M_normalization : Int) (mag_normalized_error M_magnitude_normalized Ms : R)
    (w : Work) : List (Printed R) :=
  if M_normalization > 0 then
    if abs (1 - M_magnitude_normalized) > mag_normalized_error then
      [Printed.cell w.i w.j w.k,
       Printed.strict_error M_magnitude_normalized mag_normalized_error,
       Printed.abort_strict w.face]
    else []
  else if M_normalization = 0 then
    if M_magnitude_normalized > 1 + mag_normalized_error then
      [Printed.cell w.i w.j w.k,
       Printed.nonstrict_error M_magnitude_normalized Ms,
       Printed.abort_nonstrict w.face]
    else []
  else []

/-- What one call of a lambda of the first `ParallelFor` prints, in order. -/
def LLG_output (e : Env R) (H : Hfield R) (M_old M : Mfield R) (w : Work) : List (Printed R) :=
  let m := M_updated e H M_old M w
  debug_printf e H M_old M w ++
    validity_printf e.M_normalization e.mag_normalized_error
      (M_magnitude_normalized e w.face m w.i w.j w.k) (mag_Ms_interp e w.face w.i w.j w.k) w

end CellDetails

/-! ## Level indices of the deposition, `AddNParticles`, `sumParticleCharge`,
`meanParticleVelocity` (`Source/WarpXParticleContainer.cpp`) -/

/-- The level index a call of `WarpX::LowerCorner`, `WarpX::CellSize` or
`WarpX::RefRatio` is passed. -/
def Event.level : Event → Option Int
  | Event.LowerCorner lev => some lev
  | Event.CellSize lev => some lev
  | Event.RefRatio lev => some lev
  | _ => none

/-- Lines 137-153 of `AddNParticles`: the pair `(ibegin, iend)`. `MyProc` and
`NProcs` are the values of `ParallelDescriptor::MyProc()` and
`ParallelDescriptor::NProcs()`; `/` on `int` truncates. -/
def AddNParticles_range (n uniqueparticles MyProc NProcs : Int) : Int × Int :=
  if uniqueparticles ≠ 0 then (0, n)
  else
    let myproc := MyProc
    let nprocs := NProcs
    let navg := n.tdiv nprocs
    let nleft := n - navg * nprocs
    if myproc < nleft then
      let ibegin := myproc * (navg + 1)
      (ibegin, ibegin + navg + 1)
    else
      let ibegin := myproc * navg + nleft
      (ibegin, ibegin + navg)

/-- The indices `i` of the loop `for (int i = ibegin; i < iend; ++i)` (line
160) that builds the particles. -/
def AddNParticles_indices (n uniqueparticles MyProc NProcs : Int) : List Int :=
  rangeI (AddNParticles_range n uniqueparticles MyProc NProcs).1
    ((AddNParticles_range n uniqueparticles MyProc NProcs).2 - 1)

section Sums

variable {R : Type} [LinearOrderedField R]

/-- Member `finestLevel()` of the container: the index of its last level. -/
def finestLevel (c : Container R) : Int := (c.levels.length : Int) - 1

/-- The loop over the tiles of a level and over the weights of a tile (lines
683-689). -/
def sumParticleCharge_level (total_charge : R) (L : Level R) : R :=
  L.tiles.foldl (fun total tile => tile.particles.foldl (fun t p => t + p.w) total)
    total_charge

/-- `WarpXParticleContainer::sumParticleCharge(local)` (lines 674-696). The
loop `for (int lev = 0; lev < finestLevel(); ++lev)` visits the levels of
index below `finestLevel()`. `ReduceRealSum` is
`ParallelDescriptor::ReduceRealSum`, `charge` the member of that name. -/
def sumParticleCharge (charge : R) (ReduceRealSum : R → R) (c : Container R) (local_ : Bool) :
    R :=
  let total_charge := (c.levels.take (finestLevel c).toNat).foldl sumParticleCharge_level 0
  let total_charge := if local_ then total_charge else ReduceRealSum total_charge
  total_charge * charge

/-- The accumulators of `meanParticleVelocity`. -/
structure MeanAcc (R : Type) where
  vx_total : R
  vy_total : R
  vz_total : R
  np_total : Int

/-- Body of the loop over tiles of `meanParticleVelocity` (lines 714-729). -/
def meanParticleVelocity_tile (sqrt : R → R) (inv_clight_sq : R) (acc : MeanAcc R)
    (tile : Tile R) : MeanAcc R :=
  let acc0 := { acc with np_total := acc.np_total + (tile.particles.length : Int) }
  tile.particles.foldl (fun a p =>
    let usq := (p.ux * p.ux + p.uy * p.uy + p.uz * p.uz) * inv_clight_sq
    let gaminv := 1 / sqrt (1 + usq)
    { a with
      vx_total := a.vx_total + p.ux * gaminv
      vy_total := a.vy_total + p.uy * gaminv
      vz_total := a.vz_total + p.uz * gaminv }) acc0

/-- `WarpXParticleContainer::meanParticleVelocity(local)` (lines 698-746).
The loop `for (int lev = 0; lev <= finestLevel(); ++lev)` visits the levels up
to `finestLevel()`. `clight` is `PhysConst::c`, `sqrt` is `std::sqrt`,
`reduce` the four `ParallelDescriptor` reductions, and `mean_v` what the
uninitialized array `mean_v` holds. -/
def meanParticleVelocity (sqrt : R → R) (clight : R) (reduce : MeanAcc R → MeanAcc R)
    (c : Container R) (local_ : Bool) (mean_v : Vec3 R) : Vec3 R :=
  let inv_clight_sq := 1 / clight / clight
  let acc := (c.levels.take (finestLevel c + 1).toNat).foldl
    (fun acc L => L.tiles.foldl (meanParticleVelocity_tile sqrt inv_clight_sq) acc) ⟨0, 0, 0, 0⟩
  let acc := if local_ then acc else reduce acc
  if acc.np_total > 0 then
    ⟨acc.vx_total / (acc.np_total : R), acc.vy_total / (acc.np_total : R),
      acc.vz_total / (acc.np_total : R)⟩
  else mean_v

/-- The particles of all the levels of a container. -/
def allParticles (c : Container R) : List (Particle R) :=
  c.levels.flatMap fun L => L.tiles.flatMap Tile.particles

/-- A function that is a square root on the nonnegative numbers. -/
def IsSqrt (sqrt : R → R) : Prop :=
  ∀ x : R, 0 ≤ x → 0 ≤ sqrt x ∧ sqrt x * sqrt x = x

/-- The velocity component `u / sqrt(1 + |u|^2 / c^2)` of a particle. -/
def velocity (sqrt : R → R) (clight : R) (p : Particle R) (u : R) : R :=
  u / sqrt (1 + (p.ux ^ 2 + p.uy ^ 2 + p.uz ^ 2) / clight ^ 2)

/-- A container with one level, one tile on `unitBox` and no cost field. -/
def singleLevel (P : List (Particle R)) : Container R :=
  ⟨[⟨[⟨unitBox, P⟩], none⟩], 0, []⟩

/-- A particle at the origin with momentum `(ux, uy, uz)` and weight `w`. -/
def particleOf (ux uy uz w : R) : Particle R := ⟨0, 0, 0, ux, uy, uz, 1, w⟩

end Sums

/-! ### Concrete inputs for the explicit step -/

section Dots

variable {R : Type} [LinearOrderedField R]

/-- Difference of two triples. -/
def Vec3.sub (a b : Vec3 R) : Vec3 R := ⟨a.c0 - b.c0, a.c1 - b.c1, a.c2 - b.c2⟩

/-- Scalar product of two triples. -/
def Vec3.dot (a b : Vec3 R) : R := a.c0 * b.c0 + a.c1 * b.c1 + a.c2 * b.c2

end Dots

/-- Strict mode, no coupling, `mu0 = gamma = alpha = Ms = 1`, `dt = 1/10`,
tolerance `1/10`, bias field `(0, 1, 0)`. -/
def slipEnv : Env ℚ := uniformEnv Rat.sqrt 1 (1 / 10) 0 1 (1 / 10) 1 1 1 ⟨0, 1, 0⟩ ⟨0, 0, 0⟩

/-- Magnetization of magnitude 1 on every face: `(0, 3/5, 4/5)` on x- and
z-faces and `(1, 0, 0)` on y-faces. -/
def slipM : Mfield ℚ :=
  ⟨uniform3 ⟨0, 3 / 5, 4 / 5⟩, uniform3 ⟨1, 0, 0⟩, uniform3 ⟨0, 3 / 5, 4 / 5⟩⟩

/-- Closed form of `ibegin` for rank `p` when `n = nprocs * a + l` with
`0 <= l < nprocs`: `p * a + min p l`. It is what `AddNParticles_range` is
compared with. -/
def splitStart (a l p : Int) : Int := p * a + min p l

section MeanLemmas

variable {R : Type} [LinearOrderedField R]

/-- The accumulators of `meanParticleVelocity` after the particles of the list
`P` are added: what the loops over levels, tiles and particles are compared
with. -/
def MeanAcc.plus (sqrt : R → R) (clight : R) (acc : MeanAcc R) (P : List (Particle R)) :
    MeanAcc R :=
  ⟨acc.vx_total + (P.map fun p => velocity sqrt clight p p.ux).sum,
   acc.vy_total + (P.map fun p => velocity sqrt clight p p.uy).sum,
   acc.vz_total + (P.map fun p => velocity sqrt clight p p.uz).sum,
   acc.np_total + (P.length : Int)⟩

end MeanLemmas

/-! ## General lemmas -/

section Lemmas

variable {R : Type} [LinearOrderedField R]

theorem M_xface_update_eq (dt mu0 g G : R) (o H : Vec3 R) :
    M_xface_update dt mu0 g G o H o = llgStep dt (mu0 * g) G o H := by
  simp only [M_xface_update, llgStep, Vec3.add, Vec3.smul, Vec3.cross, Vec3.mk.injEq]
  refine ⟨?_, ?_, ?_⟩ <;> ring

theorem M_yface_update_eq (dt mu0 g G : R) (o H : Vec3 R) :
    M_yface_update dt mu0 g G o H o = llgStep dt (mu0 * g) G o H := by
  simp only [M_yface_update, llgStep, Vec3.add, Vec3.smul, Vec3.cross, Vec3.mk.injEq]
  refine ⟨?_, ?_, ?_⟩ <;> ring

theorem M_zface_update_eq (dt mu0 g G y2 : R) (o H : Vec3 R) :
    (M_zface_update dt mu0 g G o H y2 o).c0 = (llgStep dt (mu0 * g) G o H).c0 ∧
    (M_zface_update dt mu0 g G o H y2 o).c1 = (llgStep dt (mu0 * g) G o H).c1 := by
  simp only [M_zface_update, llgStep, Vec3.add, Vec3.smul, Vec3.cross]
  refine ⟨?_, ?_⟩ <;> ring

/-! ### Reads and writes -/

omit [LinearOrderedField R] in
theorem Mfield_face_setFace (M : Mfield R) (f g : Face) (a : Array4 R) :
    (M.setFace f a).face g = if g = f then a else M.face g := by
  cases f <;> cases g <;> simp [Mfield.setFace, Mfield.face]

omit [LinearOrderedField R] in
theorem readCell_writeCell_same (a : Array4 R) (i j k : Int) (v : Vec3 R) :
    readCell (writeCell a i j k v) i j k = v := by
  simp [readCell, writeCell]

omit [LinearOrderedField R] in
theorem writeCell_other (a : Array4 R) (i j k i' j' k' : Int) (n : Nat) (v : Vec3 R)
    (h : ¬ (i' = i ∧ j' = j ∧ k' = k)) : writeCell a i j k v i' j' k' n = a i' j' k' n := by
  simp [writeCell, h]

theorem Work.ext_iff4 (a b : Work) :
    a = b ↔ a.face = b.face ∧ a.i = b.i ∧ a.j = b.j ∧ a.k = b.k := by
  cases a; cases b; simp

omit [LinearOrderedField R] in
theorem Mfield_cell_store_same (M : Mfield R) (w : Work) (v : Vec3 R) :
    (M.store w v).cell w = v := by
  simp [Mfield.cell, Mfield.store, Mfield_face_setFace, readCell_writeCell_same]

omit [LinearOrderedField R] in
theorem Mfield_face_store_other (M : Mfield R) (w : Work) (v : Vec3 R) (f : Face)
    (i j k : Int) (n : Nat) (h : Work.mk f i j k ≠ w) :
    (M.store w v).face f i j k n = M.face f i j k n := by
  simp only [Mfield.store, Mfield_face_setFace]
  by_cases hf : f = w.face
  · subst hf
    simp only [if_true]
    apply writeCell_other
    rintro ⟨h1, h2, h3⟩
    apply h
    rw [Work.ext_iff4]
    exact ⟨rfl, h1, h2, h3⟩
  · simp [hf]

omit [LinearOrderedField R] in
theorem Mfield_cell_store_other (M : Mfield R) (w w' : Work) (v : Vec3 R) (h : w' ≠ w) :
    (M.store w v).cell w' = M.cell w' := by
  have h' : Work.mk w'.face w'.i w'.j w'.k ≠ w := by cases w'; exact h
  simp only [Mfield.cell, readCell, Mfield_face_store_other M w v w'.face w'.i w'.j w'.k _ h']

omit [LinearOrderedField R] in
theorem Mfield_ext_face (M N : Mfield R) (h : ∀ f, M.face f = N.face f) : M = N := by
  cases M; cases N
  have hx := h Face.x
  have hy := h Face.y
  have hz := h Face.z
  simp only [Mfield.face] at hx hy hz
  simp [hx, hy, hz]

omit [LinearOrderedField R] in
theorem Mfield_face_store (M : Mfield R) (w : Work) (v : Vec3 R) (f : Face)
    (i j k : Int) (n : Nat) :
    (M.store w v).face f i j k n =
      if Work.mk f i j k = w then
        (if n = 0 then v.c0 else if n = 1 then v.c1 else if n = 2 then v.c2
          else M.face f i j k n)
      else M.face f i j k n := by
  by_cases h : Work.mk f i j k = w
  · subst h
    simp [Mfield.store, Mfield_face_setFace, writeCell]
  · rw [if_neg h]
    exact Mfield_face_store_other M w v f i j k n h

omit [LinearOrderedField R] in
theorem Mfield_store_comm (M : Mfield R) (a b : Work) (u v : Vec3 R) (h : a ≠ b) :
    (M.store a u).store b v = (M.store b v).store a u := by
  apply Mfield_ext_face
  intro f
  funext i j k n
  simp only [Mfield_face_store]
  by_cases ha : Work.mk f i j k = a
  · have hb : Work.mk f i j k ≠ b := fun hb => h (ha.symm.trans hb)
    simp only [if_pos ha, if_neg hb]
  · by_cases hb : Work.mk f i j k = b
    · simp only [if_neg ha, if_pos hb]
    · simp only [if_neg ha, if_neg hb]

/-! ### The first loop -/

theorem M_kernel_eq (e : Env R) (H : Hfield R) (o M : Mfield R) (w : Work) :
    M_kernel e H o M w = (LLG_cell e H o M w).map (M.store w) := rfl

theorem M_updated_congr (e : Env R) (H : Hfield R) (o M N : Mfield R) (w : Work)
    (h : M.cell w = N.cell w) : M_updated e H o M w = M_updated e H o N w := by
  simp only [Mfield.cell] at h
  simp only [M_updated, h]

theorem LLG_cell_congr (e : Env R) (H : Hfield R) (o M N : Mfield R) (w : Work)
    (h : M.cell w = N.cell w) : LLG_cell e H o M w = LLG_cell e H o N w := by
  simp only [LLG_cell, M_updated_congr e H o M N w h]

theorem M_loop_none (e : Env R) (H : Hfield R) (o : Mfield R) (ws : List Work) :
    ws.foldl (fun acc w => acc.bind fun M' => M_kernel e H o M' w) none = none := by
  induction ws with
  | nil => rfl
  | cons a ws ih => simpa using ih

theorem M_loop_nil (e : Env R) (H : Hfield R) (o M : Mfield R) :
    M_loop e H o [] M = some M := rfl

theorem M_loop_cons (e : Env R) (H : Hfield R) (o M : Mfield R) (a : Work) (ws : List Work) :
    M_loop e H o (a :: ws) M = (M_kernel e H o M a).bind (M_loop e H o ws) := by
  simp only [M_loop, List.foldl_cons, Option.some_bind]
  cases h : M_kernel e H o M a with
  | none => simpa using M_loop_none e H o ws
  | some M1 => rfl

theorem M_kernel_comm (e : Env R) (H : Hfield R) (o M : Mfield R) (a b : Work) :
    (M_kernel e H o M a).bind (fun M1 => M_kernel e H o M1 b) =
      (M_kernel e H o M b).bind (fun M1 => M_kernel e H o M1 a) := by
  by_cases hab : a = b
  · subst hab; rfl
  · have hba : b ≠ a := fun h => hab h.symm
    simp only [M_kernel_eq]
    cases ha : LLG_cell e H o M a with
    | none =>
      cases hb : LLG_cell e H o M b with
      | none => rfl
      | some v =>
        simp [LLG_cell_congr e H o (M.store b v) M a (Mfield_cell_store_other M b a v hab), ha]
    | some u =>
      cases hb : LLG_cell e H o M b with
      | none =>
        simp [LLG_cell_congr e H o (M.store a u) M b (Mfield_cell_store_other M a b u hba), hb]
      | some v =>
        simp [LLG_cell_congr e H o (M.store a u) M b (Mfield_cell_store_other M a b u hba),
          LLG_cell_congr e H o (M.store b v) M a (Mfield_cell_store_other M b a v hab), ha, hb,
          Mfield_store_comm M a b u v hab]

theorem M_loop_perm (e : Env R) (H : Hfield R) (o M : Mfield R) (ws ws' : List Work)
    (p : ws.Perm ws') : M_loop e H o ws M = M_loop e H o ws' M := by
  unfold M_loop
  apply List.Perm.foldl_eq' p
  intro a _ b _ acc
  cases acc with
  | none => rfl
  | some N => simpa using M_kernel_comm e H o N a b

/-- Cells outside the work list keep their content. -/
theorem M_loop_frame (e : Env R) (H : Hfield R) (o : Mfield R) (ws : List Work) :
    ∀ (M M' : Mfield R), M_loop e H o ws M = some M' →
      ∀ (f : Face) (i j k : Int) (n : Nat), Work.mk f i j k ∉ ws →
        M'.face f i j k n = M.face f i j k n := by
  induction ws with
  | nil =>
    intro M M' h f i j k n _
    simp only [M_loop_nil, Option.some.injEq] at h
    rw [h]
  | cons a ws ih =>
    intro M M' h f i j k n hn
    rw [M_loop_cons, M_kernel_eq] at h
    cases hc : LLG_cell e H o M a with
    | none => simp [hc] at h
    | some v =>
      simp only [hc, Option.map_some', Option.some_bind] at h
      have hn' : Work.mk f i j k ≠ a ∧ Work.mk f i j k ∉ ws := by
        simpa [List.mem_cons, not_or] using hn
      rw [ih _ _ h f i j k n hn'.2, Mfield_face_store_other M a v f i j k n hn'.1]

theorem M_loop_frame_cell (e : Env R) (H : Hfield R) (o : Mfield R) (ws : List Work)
    (M M' : Mfield R) (h : M_loop e H o ws M = some M') (w : Work) (hw : w ∉ ws) :
    M'.cell w = M.cell w := by
  have hw' : Work.mk w.face w.i w.j w.k ∉ ws := by cases w; exact hw
  simp only [Mfield.cell, readCell, M_loop_frame e H o ws M M' h w.face w.i w.j w.k _ hw']

/-- Each cell of a duplicate-free work list holds what its own call computes
from the content the field had before the loop. -/
theorem M_loop_cell (e : Env R) (H : Hfield R) (o : Mfield R) (ws : List Work) :
    ∀ (M M' : Mfield R), ws.Nodup → M_loop e H o ws M = some M' →
      ∀ w ∈ ws, LLG_cell e H o M w = some (M'.cell w) := by
  induction ws with
  | nil => intro M M' _ _ w hw; simp at hw
  | cons a ws ih =>
    intro M M' hnd h w hw
    rw [M_loop_cons, M_kernel_eq] at h
    have hnd' : a ∉ ws ∧ ws.Nodup := by simpa using hnd
    cases hc : LLG_cell e H o M a with
    | none => simp [hc] at h
    | some v =>
      simp only [hc, Option.map_some', Option.some_bind] at h
      rcases List.mem_cons.1 hw with rfl | hw'
      · rw [M_loop_frame_cell e H o ws _ _ h w hnd'.1, Mfield_cell_store_same, hc]
      · have hne : w ≠ a := fun hwa => hnd'.1 (hwa ▸ hw')
        rw [← ih _ _ hnd'.2 h w hw']
        exact (LLG_cell_congr e H o _ _ w (Mfield_cell_store_other M a w v hne)).symm

/-- The loop completes exactly when no call of the work list aborts. -/
theorem M_loop_isSome (e : Env R) (H : Hfield R) (o : Mfield R) (ws : List Work) :
    ∀ (M : Mfield R), ws.Nodup →
      ((M_loop e H o ws M).isSome ↔ ∀ w ∈ ws, (LLG_cell e H o M w).isSome) := by
  induction ws with
  | nil => intro M _; simp [M_loop_nil]
  | cons a ws ih =>
    intro M hnd
    have hnd' : a ∉ ws ∧ ws.Nodup := by simpa using hnd
    rw [M_loop_cons, M_kernel_eq]
    cases hc : LLG_cell e H o M a with
    | none =>
      simp only [Option.map_none', Option.none_bind, Option.isSome_none, Bool.false_eq_true,
        List.mem_cons, forall_eq_or_imp, hc, false_and]
    | some v =>
      simp only [Option.map_some', Option.some_bind, List.mem_cons, forall_eq_or_imp, hc,
        Option.isSome_some, true_and]
      rw [ih _ hnd'.2]
      constructor
      · intro h w hw
        have hne : w ≠ a := fun hwa => hnd'.1 (hwa ▸ hw)
        rw [← LLG_cell_congr e H o _ _ w (Mfield_cell_store_other M a w v hne)]
        exact h w hw
      · intro h w hw
        have hne : w ≠ a := fun hwa => hnd'.1 (hwa ▸ hw)
        rw [LLG_cell_congr e H o _ _ w (Mfield_cell_store_other M a w v hne)]
        exact h w hw

/-! ### The second loop -/

omit [LinearOrderedField R] in
theorem Hfield_ext_face (G H : Hfield R) (h : ∀ f, G.face f = H.face f) : G = H := by
  cases G; cases H
  have hx := h Face.x
  have hy := h Face.y
  have hz := h Face.z
  simp only [Hfield.face] at hx hy hz
  simp [hx, hy, hz]

omit [LinearOrderedField R] in
theorem Hfield_face_store (H : Hfield R) (w : Work) (v : R) (f : Face) (i j k : Int) (n : Nat) :
    (H.store w v).face f i j k n =
      if Work.mk f i j k = w ∧ n = 0 then v else H.face f i j k n := by
  rcases w with ⟨g, a, b, c⟩
  cases g <;> cases f <;> simp [Hfield.store, Hfield.face, writeComp0, and_assoc]

omit [LinearOrderedField R] in
theorem Hfield_cell_store_same (H : Hfield R) (w : Work) (v : R) : (H.store w v).cell w = v := by
  simp [Hfield.cell, Hfield_face_store]

omit [LinearOrderedField R] in
theorem Hfield_cell_store_other (H : Hfield R) (w w' : Work) (v : R) (h : w' ≠ w) :
    (H.store w v).cell w' = H.cell w' := by
  have h' : Work.mk w'.face w'.i w'.j w'.k ≠ w := by cases w'; exact h
  simp [Hfield.cell, Hfield_face_store, h']

omit [LinearOrderedField R] in
theorem Hfield_store_comm (H : Hfield R) (a b : Work) (u v : R) (h : a ≠ b) :
    (H.store a u).store b v = (H.store b v).store a u := by
  apply Hfield_ext_face
  intro f
  funext i j k n
  simp only [Hfield_face_store]
  by_cases ha : Work.mk f i j k = a ∧ n = 0
  · have hb : ¬ (Work.mk f i j k = b ∧ n = 0) := fun hb => h (ha.1.symm.trans hb.1)
    simp only [if_pos ha, if_neg hb]
  · by_cases hb : Work.mk f i j k = b ∧ n = 0
    · simp only [if_neg ha, if_pos hb]
    · simp only [if_neg ha, if_neg hb]

/-- Amount one call of the second loop adds to its cell. -/
theorem H_kernel_eq (e : Env R) (o M : Mfield R) (H : Hfield R) (w : Work) :
    H_kernel e o M H w =
      H.store w (H.cell w + (e.dt / e.mu0 * curlE e w - (M.normal w - o.normal w))) := by
  rcases w with ⟨f, i, j, k⟩
  cases f
  · have : H.Hx i j k 0 + (1 / e.mu0 * e.dt * e.UpwardDz e.Ey i j k
        - 1 / e.mu0 * e.dt * e.UpwardDy e.Ez i j k - M.M_xface i j k 0 + o.M_xface i j k 0)
        = H.Hx i j k 0 + (e.dt / e.mu0 * (e.UpwardDz e.Ey i j k - e.UpwardDy e.Ez i j k)
          - (M.M_xface i j k 0 - o.M_xface i j k 0)) := by ring
    simp only [H_kernel, Hfield.store, Hfield.cell, Hfield.face, curlE, Mfield.normal, this]
  · have : H.Hy i j k 0 + (1 / e.mu0 * e.dt * e.UpwardDx e.Ez i j k
        - 1 / e.mu0 * e.dt * e.UpwardDz e.Ex i j k - M.M_yface i j k 1 + o.M_yface i j k 1)
        = H.Hy i j k 0 + (e.dt / e.mu0 * (e.UpwardDx e.Ez i j k - e.UpwardDz e.Ex i j k)
          - (M.M_yface i j k 1 - o.M_yface i j k 1)) := by ring
    simp only [H_kernel, Hfield.store, Hfield.cell, Hfield.face, curlE, Mfield.normal, this]
  · have : H.Hz i j k 0 + (1 / e.mu0 * e.dt * e.UpwardDy e.Ex i j k
        - 1 / e.mu0 * e.dt * e.UpwardDx e.Ey i j k - M.M_zface i j k 2 + o.M_zface i j k 2)
        = H.Hz i j k 0 + (e.dt / e.mu0 * (e.UpwardDy e.Ex i j k - e.UpwardDx e.Ey i j k)
          - (M.M_zface i j k 2 - o.M_zface i j k 2)) := by ring
    simp only [H_kernel, Hfield.store, Hfield.cell, Hfield.face, curlE, Mfield.normal, this]

theorem H_kernel_comm (e : Env R) (o M : Mfield R) (H : Hfield R) (a b : Work) :
    H_kernel e o M (H_kernel e o M H a) b = H_kernel e o M (H_kernel e o M H b) a := by
  by_cases hab : a = b
  · subst hab; rfl
  · have hba : b ≠ a := fun h => hab h.symm
    simp only [H_kernel_eq, Hfield_cell_store_other _ _ _ _ hab,
      Hfield_cell_store_other _ _ _ _ hba]
    exact Hfield_store_comm H a b _ _ hab

theorem H_loop_perm (e : Env R) (o M : Mfield R) (H : Hfield R) (ws ws' : List Work)
    (p : ws.Perm ws') : H_loop e o M ws H = H_loop e o M ws' H := by
  unfold H_loop
  apply List.Perm.foldl_eq' p
  intro a _ b _ acc
  exact H_kernel_comm e o M acc a b

theorem H_loop_cons (e : Env R) (o M : Mfield R) (H : Hfield R) (a : Work) (ws : List Work) :
    H_loop e o M (a :: ws) H = H_loop e o M ws (H_kernel e o M H a) := rfl

/-- Cells outside the work list keep their content. -/
theorem H_loop_frame (e : Env R) (o M : Mfield R) (ws : List Work) :
    ∀ (H : Hfield R) (f : Face) (i j k : Int) (n : Nat), Work.mk f i j k ∉ ws →
      (H_loop e o M ws H).face f i j k n = H.face f i j k n := by
  induction ws with
  | nil => intro H f i j k n _; rfl
  | cons a ws ih =>
    intro H f i j k n hn
    have hn' : Work.mk f i j k ≠ a ∧ Work.mk f i j k ∉ ws := by
      simpa [List.mem_cons, not_or] using hn
    rw [H_loop_cons, ih _ f i j k n hn'.2, H_kernel_eq, Hfield_face_store]
    simp [hn'.1]

theorem H_loop_frame_cell (e : Env R) (o M : Mfield R) (ws : List Work) (H : Hfield R)
    (w : Work) (hw : w ∉ ws) : (H_loop e o M ws H).cell w = H.cell w := by
  have hw' : Work.mk w.face w.i w.j w.k ∉ ws := by cases w; exact hw
  simp only [Hfield.cell, H_loop_frame e o M ws H w.face w.i w.j w.k _ hw']

/-- Each cell of a duplicate-free work list receives one increment. -/
theorem H_loop_cell (e : Env R) (o M : Mfield R) (ws : List Work) :
    ∀ (H : Hfield R), ws.Nodup → ∀ w ∈ ws,
      (H_loop e o M ws H).cell w =
        H.cell w + (e.dt / e.mu0 * curlE e w - (M.normal w - o.normal w)) := by
  induction ws with
  | nil => intro H _ w hw; simp at hw
  | cons a ws ih =>
    intro H hnd w hw
    have hnd' : a ∉ ws ∧ ws.Nodup := by simpa using hnd
    rw [H_loop_cons]
    rcases List.mem_cons.1 hw with rfl | hw'
    · rw [H_loop_frame_cell e o M ws _ w hnd'.1, H_kernel_eq, Hfield_cell_store_same]
    · have hne : w ≠ a := fun hwa => hnd'.1 (hwa ▸ hw')
      rw [ih _ hnd'.2 w hw', H_kernel_eq, Hfield_cell_store_other _ _ _ _ hne]

/-! ### Loop boxes -/

theorem rangeI_nodup (lo hi : Int) : (rangeI lo hi).Nodup := by
  unfold rangeI
  apply List.Nodup.map _ (List.nodup_range _)
  intro a b h
  simpa using h

theorem mem_rangeI (lo hi t : Int) : t ∈ rangeI lo hi ↔ lo ≤ t ∧ t ≤ hi := by
  unfold rangeI
  simp only [List.mem_map, List.mem_range, Int.ofNat_eq_coe]
  constructor
  · rintro ⟨n, hn, rfl⟩
    omega
  · rintro ⟨h1, h2⟩
    exact ⟨(t - lo).toNat, by omega, by omega⟩

theorem Box.mem_work (b : Box) (f : Face) (w : Work) :
    w ∈ b.work f ↔ w.face = f ∧ (b.smallEnd.x ≤ w.i ∧ w.i ≤ b.bigEnd.x) ∧
      (b.smallEnd.y ≤ w.j ∧ w.j ≤ b.bigEnd.y) ∧ (b.smallEnd.z ≤ w.k ∧ w.k ≤ b.bigEnd.z) := by
  rcases w with ⟨g, i, j, k⟩
  simp only [Box.work, List.mem_flatMap, List.mem_map, mem_rangeI, Work.mk.injEq]
  constructor
  · rintro ⟨k', hk, j', hj, i', hi, rfl, rfl, rfl, rfl⟩
    exact ⟨rfl, hi, hj, hk⟩
  · rintro ⟨rfl, hi, hj, hk⟩
    exact ⟨k, hk, j, hj, i, hi, rfl, rfl, rfl, rfl⟩

theorem Box.work_nodup (b : Box) (f : Face) : (b.work f).Nodup := by
  unfold Box.work
  rw [List.nodup_flatMap]
  refine ⟨fun k _ => ?_, ?_⟩
  · rw [List.nodup_flatMap]
    refine ⟨fun j _ => ?_, ?_⟩
    · apply List.Nodup.map _ (rangeI_nodup _ _)
      intro a c h
      simpa using h
    · apply List.Pairwise.imp _ (rangeI_nodup _ _)
      intro j j' hjj w h1 h2
      simp only [List.mem_map] at h1 h2
      obtain ⟨_, _, rfl⟩ := h1
      obtain ⟨_, _, h⟩ := h2
      simp only [Work.mk.injEq] at h
      exact hjj h.2.2.1.symm
  · apply List.Pairwise.imp _ (rangeI_nodup _ _)
    intro k k' hkk w h1 h2
    simp only [List.mem_flatMap, List.mem_map] at h1 h2
    obtain ⟨_, _, _, _, rfl⟩ := h1
    obtain ⟨_, _, _, _, h⟩ := h2
    simp only [Work.mk.injEq] at h
    exact hkk h.2.2.2.symm

theorem mem_workOf (tbx tby tbz : Box) (w : Work) :
    w ∈ workOf tbx tby tbz ↔
      w ∈ tbx.work Face.x ∨ w ∈ tby.work Face.y ∨ w ∈ tbz.work Face.z := by
  simp [workOf, or_assoc]

theorem workOf_nodup (tbx tby tbz : Box) : (workOf tbx tby tbz).Nodup := by
  unfold workOf
  apply List.Nodup.append
  · apply List.Nodup.append (Box.work_nodup _ _) (Box.work_nodup _ _)
    intro w h1 h2
    rw [Box.mem_work] at h1 h2
    have := h1.1.symm.trans h2.1
    cases this
  · exact Box.work_nodup _ _
  · intro w h1 h2
    rw [List.mem_append, Box.mem_work, Box.mem_work] at h1
    rw [Box.mem_work] at h2
    rcases h1 with h1 | h1
    · have := h1.1.symm.trans h2.1
      cases this
    · have := h1.1.symm.trans h2.1
      cases this

/-! ### Square roots and renormalization -/

theorem sqrt_sq_of_nonneg (e : Env R) (hs : e.SqrtSpec) (x : R) (hx : 0 ≤ x) :
    e.sqrt (x ^ 2) = x := by
  obtain ⟨h0, h1⟩ := hs (x ^ 2) (sq_nonneg x)
  have h2 : e.sqrt (x ^ 2) ^ 2 = x ^ 2 := by rw [sq, h1]
  exact (pow_left_inj₀ h0 hx two_ne_zero).1 h2

theorem normSq_nonneg (m : Vec3 R) : 0 ≤ m.c0 ^ 2 + m.c1 ^ 2 + m.c2 ^ 2 := by positivity

theorem normSq_normalize (m : Vec3 R) (n : R) :
    (normalize m n).c0 ^ 2 + (normalize m n).c1 ^ 2 + (normalize m n).c2 ^ 2 =
      (m.c0 ^ 2 + m.c1 ^ 2 + m.c2 ^ 2) / n ^ 2 := by
  simp only [normalize, div_pow]
  ring

/-- Dividing by a positive normalized magnitude gives normalized magnitude 1. -/
theorem M_magnitude_normalized_normalize (e : Env R) (hs : e.SqrtSpec) (f : Face)
    (i j k : Int) (m : Vec3 R) (hpos : 0 < M_magnitude_normalized e f m i j k) :
    M_magnitude_normalized e f (normalize m (M_magnitude_normalized e f m i j k)) i j k = 1 := by
  unfold M_magnitude_normalized at hpos ⊢
  rw [normSq_normalize]
  obtain ⟨h0, h1⟩ := hs _ (normSq_nonneg m)
  set S := m.c0 ^ 2 + m.c1 ^ 2 + m.c2 ^ 2 with hS
  set r := e.sqrt S with hr
  set Ms := mag_Ms_interp e f i j k with hMs
  have hr0 : r ≠ 0 := by
    intro h
    rw [h, zero_div] at hpos
    exact lt_irrefl _ hpos
  have hrpos : 0 < r := lt_of_le_of_ne h0 (Ne.symm hr0)
  have hMspos : 0 < Ms := by
    rcases (div_pos_iff.1 hpos) with h | h
    · exact h.2
    · exact absurd h.1 (not_lt.2 h0)
  have hS' : S / (r / Ms) ^ 2 = Ms ^ 2 := by
    rw [← h1]
    field_simp
    ring
  rw [hS', sqrt_sq_of_nonneg e hs Ms hMspos.le]
  exact div_self hMspos.ne'

theorem normalize_one (m : Vec3 R) : normalize m 1 = m := by
  cases m
  simp [normalize]

/-- The real square root satisfies `SqrtSpec`. -/
theorem restEnv_real_sqrtSpec (n : Int) (tol : ℝ) : (restEnv Real.sqrt n tol).SqrtSpec :=
  fun x hx => ⟨Real.sqrt_nonneg x, Real.mul_self_sqrt hx⟩

/-! ### The step -/

theorem stepInOrder_eq_some (e : Env R) (wsM wsH : List Work) (s s' : State R)
    (h : stepInOrder e wsM wsH s = some s') :
    M_loop e s.H s.M wsM s.M = some s'.M ∧ s'.H = H_loop e s.M s'.M wsH s.H := by
  unfold stepInOrder at h
  cases hM : M_loop e s.H s.M wsM s.M with
  | none => simp [hM] at h
  | some M' =>
    simp only [hM, Option.some.injEq] at h
    subst h
    exact ⟨rfl, rfl⟩

theorem H_eff_uncoupled (e : Env R) (hc : e.coupling ≠ 1) (H H' : Hfield R) (f : Face)
    (i j k : Int) : H_eff e H f i j k = H_eff e H' f i j k := by
  simp only [H_eff, if_neg hc]

theorem M_kernel_uncoupled (e : Env R) (hc : e.coupling ≠ 1) (H H' : Hfield R)
    (o M : Mfield R) (w : Work) : M_kernel e H o M w = M_kernel e H' o M w := by
  simp only [M_kernel, LLG_cell, M_updated, H_eff_uncoupled e hc H H']

theorem M_loop_uncoupled (e : Env R) (hc : e.coupling ≠ 1) (H H' : Hfield R)
    (o M : Mfield R) (ws : List Work) : M_loop e H o ws M = M_loop e H' o ws M := by
  simp only [M_loop, M_kernel_uncoupled e hc H H']

theorem H_loop_congr_old (e : Env R) (o o' M : Mfield R) (ws : List Work) :
    ∀ (H : Hfield R), (∀ w ∈ ws, o.normal w = o'.normal w) →
      H_loop e o M ws H = H_loop e o' M ws H := by
  induction ws with
  | nil => intro H _; rfl
  | cons a ws ih =>
    intro H h
    rw [H_loop_cons, H_loop_cons, H_kernel_eq, H_kernel_eq, h a (List.mem_cons_self _ _)]
    exact ih _ (fun w hw => h w (List.mem_cons_of_mem _ hw))

omit [LinearOrderedField R] in
theorem Mfield_normal_eq_of_cell (M N : Mfield R) (w : Work) (h : M.cell w = N.cell w) :
    M.normal w = N.normal w := by
  rcases w with ⟨f, i, j, k⟩
  simp only [Mfield.cell, readCell, Vec3.mk.injEq] at h
  cases f
  · exact h.1
  · exact h.2.1
  · exact h.2.2

theorem mutated_eq_some (e : Env R) (tbx tby tbz : Box) (s s' : State R)
    (h : MacroscopicEvolveHMCartesian_mutated e tbx tby tbz s = some s') :
    M_loop e s.H s.M (workOf tbx tby tbz) s.M = some s'.M ∧
      s'.H = H_loop e s'.M s'.M (workOf tbx tby tbz) s.H := by
  unfold MacroscopicEvolveHMCartesian_mutated at h
  cases hM : M_loop e s.H s.M (workOf tbx tby tbz) s.M with
  | none => simp [hM] at h
  | some M' =>
    simp only [hM, Option.some.injEq] at h
    subst h
    exact ⟨rfl, rfl⟩

/-- At rest (`restEnv`, strict mode, tolerance `1/10`) every call on the
uniform magnetization `(1, 0, 0)` stores `(1, 0, 0)`. -/
theorem LLG_cell_rest (H : Hfield ℚ) (w : Work) :
    LLG_cell (restEnv Rat.sqrt 1 (1 / 10 : ℚ)) H (uniformM ⟨1, 0, 0⟩) (uniformM ⟨1, 0, 0⟩) w
      = some ⟨1, 0, 0⟩ := by
  rcases w with ⟨f, i, j, k⟩
  cases f <;>
  · simp [LLG_cell, validity, normalize, M_magnitude_normalized, mag_Ms_interp, M_updated,
      restEnv, uniformEnv, uniformM, Mfield.face, readCell, uniform3, uniform1, mag_gamma_interp,
      Gil_damp, M_magnitude, H_eff, Face.dir, M_xface_update, M_yface_update, M_zface_update]

/-- In strict mode with a tolerance below 1, a value the policy returns has
normalized magnitude 1. -/
theorem validity_strict_some (e : Env R) (hs : e.SqrtSpec) (hstrict : 0 < e.M_normalization)
    (htol : e.mag_normalized_error < 1) (f : Face) (i j k : Int) (m v : Vec3 R)
    (h : validity e.M_normalization e.mag_normalized_error
      (M_magnitude_normalized e f m i j k) m = some v) :
    M_magnitude_normalized e f v i j k = 1 := by
  simp only [validity, if_pos hstrict] at h
  by_cases hab : abs (1 - M_magnitude_normalized e f m i j k) > e.mag_normalized_error
  · rw [if_pos hab] at h
    cases h
  · rw [if_neg hab, Option.some.injEq] at h
    subst h
    apply M_magnitude_normalized_normalize e hs
    have h' := abs_le.1 (not_lt.1 hab)
    linarith [h'.2]

/-- In strict mode with a nonnegative tolerance, the policy returns a value of
normalized magnitude 1 unchanged. -/
theorem validity_strict_of_norm_one (e : Env R) (hstrict : 0 < e.M_normalization)
    (htol : 0 ≤ e.mag_normalized_error) (m : Vec3 R) :
    validity e.M_normalization e.mag_normalized_error 1 m = some m := by
  have : ¬ abs ((1 : R) - 1) > e.mag_normalized_error := by
    rw [sub_self, abs_zero]
    exact not_lt.2 htol
  simp only [validity, if_pos hstrict, if_neg this, normalize_one]

/-! ### The uniform state at rest -/

omit [LinearOrderedField R] in
theorem Mfield_store_cell_self (M : Mfield R) (w : Work) : M.store w (M.cell w) = M := by
  apply Mfield_ext_face
  intro f
  funext i j k n
  rw [Mfield_face_store]
  by_cases h : Work.mk f i j k = w
  · subst h
    simp only [if_true, Mfield.cell, readCell]
    split_ifs with h0 h1 h2
    · rw [h0]
    · rw [h1]
    · rw [h2]
    · rfl
  · rw [if_neg h]

omit [LinearOrderedField R] in
theorem Hfield_store_cell_self (H : Hfield R) (w : Work) : H.store w (H.cell w) = H := by
  apply Hfield_ext_face
  intro f
  funext i j k n
  rw [Hfield_face_store]
  by_cases h : Work.mk f i j k = w ∧ n = 0
  · obtain ⟨h1, h2⟩ := h
    subst h1
    subst h2
    simp [Hfield.cell]
  · rw [if_neg h]

omit [LinearOrderedField R] in
theorem uniformM_cell (v : Vec3 R) (w : Work) : (uniformM v).cell w = v := by
  rcases w with ⟨f, i, j, k⟩
  cases f <;> simp [Mfield.cell, uniformM, Mfield.face, readCell, uniform3]

/-- At rest the first loop returns the field it received, for every work list. -/
theorem rest_M_loop (H : Hfield ℚ) (ws : List Work) :
    M_loop (restEnv Rat.sqrt 1 (1 / 10 : ℚ)) H (uniformM ⟨1, 0, 0⟩) ws (uniformM ⟨1, 0, 0⟩)
      = some (uniformM ⟨1, 0, 0⟩) := by
  induction ws with
  | nil => rfl
  | cons a ws ih =>
    rw [M_loop_cons, M_kernel_eq, LLG_cell_rest]
    have h := Mfield_store_cell_self (uniformM (⟨1, 0, 0⟩ : Vec3 ℚ)) a
    rw [uniformM_cell] at h
    simp only [Option.map_some', Option.some_bind, h]
    exact ih

/-- With unchanged M and a uniform electric field the second loop returns the
field it received, for every work list. -/
theorem rest_H_loop (M : Mfield ℚ) (H : Hfield ℚ) (ws : List Work) :
    H_loop (restEnv Rat.sqrt 1 (1 / 10 : ℚ)) M M ws H = H := by
  induction ws generalizing H with
  | nil => rfl
  | cons a ws ih =>
    rw [H_loop_cons, H_kernel_eq]
    have hc : curlE (restEnv Rat.sqrt 1 (1 / 10 : ℚ)) a = 0 := by
      rcases a with ⟨f, i, j, k⟩
      cases f <;> simp [curlE, restEnv, uniformEnv, uniform1]
    rw [hc, mul_zero, sub_self, sub_zero, add_zero, Hfield_store_cell_self]
    exact ih H

/-- At rest the step returns the state it received, for all loop boxes. -/
theorem rest_step (tbx tby tbz : Box) (H : Hfield ℚ) :
    MacroscopicEvolveHMCartesian (restEnv Rat.sqrt 1 (1 / 10 : ℚ)) tbx tby tbz
      ⟨uniformM ⟨1, 0, 0⟩, H⟩ = some ⟨uniformM ⟨1, 0, 0⟩, H⟩ := by
  simp only [MacroscopicEvolveHMCartesian, stepInOrder, rest_M_loop, rest_H_loop]

/-- At rest the mutated step returns the state it received, for all loop
boxes. -/
theorem rest_step_mutated (tbx tby tbz : Box) (H : Hfield ℚ) :
    MacroscopicEvolveHMCartesian_mutated (restEnv Rat.sqrt 1 (1 / 10 : ℚ)) tbx tby tbz
      ⟨uniformM ⟨1, 0, 0⟩, H⟩ = some ⟨uniformM ⟨1, 0, 0⟩, H⟩ := by
  simp only [MacroscopicEvolveHMCartesian_mutated, H_loop_mutated, rest_M_loop]
  have := rest_H_loop (uniformM ⟨1, 0, 0⟩) H (workOf tbx tby tbz)
  unfold H_loop at this
  rw [this]

/-! ### A step that turns M -/

theorem workOf_cellBox : workOf cellBox cellBox cellBox =
    [⟨Face.x, 0, 0, 0⟩, ⟨Face.y, 0, 0, 0⟩, ⟨Face.z, 0, 0, 0⟩] := by
  decide

theorem rat_sqrt_25_16 : Rat.sqrt (25 / 16) = 5 / 4 := by
  rw [show (25 / 16 : ℚ) = 5 / 4 * (5 / 4) by norm_num, Rat.sqrt_eq]
  norm_num [abs_of_pos]

theorem torqueM_cell (w : Work) : torqueM.cell w = ⟨0, 1, 0⟩ := uniformM_cell _ _

/-- On `kickEnv` every call whose cell holds `(0, 1, 0)` stores
`(3/5, 4/5, 0)`; the only square root taken is that of `25/16`. -/
theorem LLG_cell_kick (H : Hfield ℚ) (M : Mfield ℚ) (w : Work) (h : M.cell w = ⟨0, 1, 0⟩) :
    LLG_cell kickEnv H torqueM M w = some ⟨3 / 5, 4 / 5, 0⟩ := by
  rw [LLG_cell_congr kickEnv H torqueM M torqueM w (h.trans (torqueM_cell w).symm)]
  rcases w with ⟨f, i, j, k⟩
  cases f <;>
  · simp [LLG_cell, validity, normalize, M_magnitude_normalized, mag_Ms_interp, M_updated,
      kickEnv, torqueM, uniformEnv, uniformM, Mfield.face, readCell, uniform3, uniform1,
      mag_gamma_interp, Gil_damp, M_magnitude, H_eff, Face.dir, M_xface_update, M_yface_update,
      M_zface_update]
    norm_num [rat_sqrt_25_16]
    rw [abs_of_pos (by norm_num)]
    norm_num

theorem kick_M_loop (H : Hfield ℚ) :
    M_loop kickEnv H torqueM [⟨Face.x, 0, 0, 0⟩, ⟨Face.y, 0, 0, 0⟩, ⟨Face.z, 0, 0, 0⟩] torqueM
      = some kickM_new := by
  rw [M_loop_cons, M_kernel_eq, LLG_cell_kick H torqueM _ (torqueM_cell _)]
  simp only [Option.map_some', Option.some_bind]
  rw [M_loop_cons, M_kernel_eq, LLG_cell_kick H _ _
    ((Mfield_cell_store_other torqueM _ _ _ (by decide)).trans (torqueM_cell _))]
  simp only [Option.map_some', Option.some_bind]
  rw [M_loop_cons, M_kernel_eq, LLG_cell_kick H _ _
    ((Mfield_cell_store_other _ _ _ _ (by decide)).trans
      ((Mfield_cell_store_other torqueM _ _ _ (by decide)).trans (torqueM_cell _)))]
  rfl

/-- The step on `kickEnv`, `torqueM`, `H = 0`, one cell: M turns to
`(3/5, 4/5, 0)` on the three faces, `Hx = -3/5`, `Hy = 1/5`, `Hz = 0`. -/
theorem kick_step :
    MacroscopicEvolveHMCartesian kickEnv cellBox cellBox cellBox ⟨torqueM, uniformH 0⟩
      = some ⟨kickM_new, kickH_new⟩ := by
  simp only [MacroscopicEvolveHMCartesian, stepInOrder, workOf_cellBox, kick_M_loop]
  simp only [H_loop, List.foldl_cons, List.foldl_nil, H_kernel_eq]
  simp [kickH_new, kickM_new, torqueM, kickEnv, uniformEnv, uniformM, uniformH, Hfield.cell,
    Hfield_face_store, Hfield.face, curlE, uniform1, uniform3, Mfield.normal, Mfield.store,
    Mfield.setFace, Mfield.face, writeCell, Hfield.store, writeComp0]
  norm_num

/-- The mutated step on the same input: the same M, and H left at 0. -/
theorem kick_step_mutated :
    MacroscopicEvolveHMCartesian_mutated kickEnv cellBox cellBox cellBox ⟨torqueM, uniformH 0⟩
      = some ⟨kickM_new, kickH_mutated⟩ := by
  simp only [MacroscopicEvolveHMCartesian_mutated, H_loop_mutated, workOf_cellBox, kick_M_loop]
  simp only [List.foldl_cons, List.foldl_nil, H_kernel_eq]
  simp [kickH_mutated, kickM_new, torqueM, kickEnv, uniformEnv, uniformM, uniformH, Hfield.cell,
    Hfield_face_store, Hfield.face, curlE, uniform1, uniform3, Mfield.normal, Mfield.store,
    Mfield.setFace, Mfield.face, writeCell, Hfield.store, writeComp0]

end Lemmas

/-! ## C1: the explicit step before the validity policy -/

section Claims

variable {R : Type} [LinearOrderedField R]

/-- C1, as stated, fails: on an x-face with `M_old = (0, 1, 0)`,
`H_eff = (0, 0, 1)` and `mu0 = gamma = dt = 1`, zero damping, the code stores
`(1, 1, 0)` before the policy, while `M_old + dt * (-mu0*gamma*(M_old x H_eff)
+ Gil_damp*(M_old x (M_old x H_eff)))` is `(-1, 1, 0)`. -/
theorem C1_counterexample :
    M_updated torqueEnv (uniformH 0) torqueM torqueM ⟨Face.x, 0, 0, 0⟩ = ⟨1, 1, 0⟩ ∧
    llgStep torqueEnv.dt (-(torqueEnv.mu0 * mag_gamma_interp torqueEnv Face.x 0 0 0))
      (Gil_damp torqueEnv Face.x (torqueM.cell ⟨Face.x, 0, 0, 0⟩) 0 0 0)
      (torqueM.cell ⟨Face.x, 0, 0, 0⟩) (H_eff torqueEnv (uniformH 0) Face.x 0 0 0) = ⟨-1, 1, 0⟩ ∧
    M_updated torqueEnv (uniformH 0) torqueM torqueM ⟨Face.x, 0, 0, 0⟩ ≠
      llgStep torqueEnv.dt (-(torqueEnv.mu0 * mag_gamma_interp torqueEnv Face.x 0 0 0))
        (Gil_damp torqueEnv Face.x (torqueM.cell ⟨Face.x, 0, 0, 0⟩) 0 0 0)
        (torqueM.cell ⟨Face.x, 0, 0, 0⟩) (H_eff torqueEnv (uniformH 0) Face.x 0 0 0) := by
  have h1 : M_updated torqueEnv (uniformH 0) torqueM torqueM ⟨Face.x, 0, 0, 0⟩ = ⟨1, 1, 0⟩ := by
    simp [M_updated, torqueEnv, torqueM, uniformEnv, uniformM, uniformH, Mfield.face, readCell,
      uniform3, uniform1, mag_gamma_interp, Gil_damp, M_magnitude, H_eff, Face.dir,
      M_xface_update]
  have h2 : llgStep torqueEnv.dt (-(torqueEnv.mu0 * mag_gamma_interp torqueEnv Face.x 0 0 0))
      (Gil_damp torqueEnv Face.x (torqueM.cell ⟨Face.x, 0, 0, 0⟩) 0 0 0)
      (torqueM.cell ⟨Face.x, 0, 0, 0⟩) (H_eff torqueEnv (uniformH 0) Face.x 0 0 0)
      = ⟨-1, 1, 0⟩ := by
    simp [llgStep, Vec3.add, Vec3.smul, Vec3.cross, Mfield.cell, torqueEnv, torqueM, uniformEnv,
      uniformM, uniformH, Mfield.face, readCell, uniform3, uniform1, mag_gamma_interp, Gil_damp,
      M_magnitude, H_eff, Face.dir]
  refine ⟨h1, h2, ?_⟩
  rw [h1, h2]
  norm_num

/-- C1, amended: within the first loop, the value of M at a cell before the
validity policy is `M_old + dt * (mu0*gamma_interp*(M_old x H_eff) +
Gil_damp*(M_old x (M_old x H_eff)))` (torque term with the sign `+`), for the
three components on x- and y-faces and for the x and y components on z-faces.
The calls `ws` that ran before the cell's own call are arbitrary. -/
theorem C1_M_updated_eq_llgStep (e : Env R) (H : Hfield R) (M_old M : Mfield R)
    (ws : List Work) (w : Work) (hw : w ∉ ws) (hrun : M_loop e H M_old ws M_old = some M) :
    (w.face ≠ Face.z →
      M_updated e H M_old M w =
        llgStep e.dt (e.mu0 * mag_gamma_interp e w.face w.i w.j w.k)
          (Gil_damp e w.face (M_old.cell w) w.i w.j w.k) (M_old.cell w)
          (H_eff e H w.face w.i w.j w.k)) ∧
    (w.face = Face.z →
      (M_updated e H M_old M w).c0 =
        (llgStep e.dt (e.mu0 * mag_gamma_interp e w.face w.i w.j w.k)
          (Gil_damp e w.face (M_old.cell w) w.i w.j w.k) (M_old.cell w)
          (H_eff e H w.face w.i w.j w.k)).c0 ∧
      (M_updated e H M_old M w).c1 =
        (llgStep e.dt (e.mu0 * mag_gamma_interp e w.face w.i w.j w.k)
          (Gil_damp e w.face (M_old.cell w) w.i w.j w.k) (M_old.cell w)
          (H_eff e H w.face w.i w.j w.k)).c1) := by
  have hc : M.cell w = M_old.cell w := M_loop_frame_cell e H M_old ws M_old M hrun w hw
  rw [M_updated_congr e H M_old M M_old w hc]
  rcases w with ⟨f, i, j, k⟩
  cases f
  · refine ⟨fun _ => ?_, fun h => by cases h⟩
    exact M_xface_update_eq _ _ _ _ _ _
  · refine ⟨fun _ => ?_, fun h => by cases h⟩
    exact M_yface_update_eq _ _ _ _ _ _
  · refine ⟨fun h => absurd rfl h, fun _ => ?_⟩
    exact M_zface_update_eq _ _ _ _ _ _ _

/-- Witness of `C1_M_updated_eq_llgStep`: the x-face cell `(0,0,0)` after the
y-face cell `(0,0,0)` has been processed. -/
theorem C1_M_updated_eq_llgStep_witness :
    (⟨Face.x, 0, 0, 0⟩ : Work) ∉ [(⟨Face.y, 0, 0, 0⟩ : Work)] ∧
    M_loop torqueEnv (uniformH 0) alignedM [⟨Face.y, 0, 0, 0⟩] alignedM =
      some (alignedM.store ⟨Face.y, 0, 0, 0⟩ ⟨0, 0, 1⟩) ∧
    M_updated torqueEnv (uniformH 0) alignedM
        (alignedM.store ⟨Face.y, 0, 0, 0⟩ ⟨0, 0, 1⟩) ⟨Face.x, 0, 0, 0⟩ =
      llgStep torqueEnv.dt (torqueEnv.mu0 * mag_gamma_interp torqueEnv Face.x 0 0 0)
        (Gil_damp torqueEnv Face.x (alignedM.cell ⟨Face.x, 0, 0, 0⟩) 0 0 0)
        (alignedM.cell ⟨Face.x, 0, 0, 0⟩) (H_eff torqueEnv (uniformH 0) Face.x 0 0 0) := by
  have hw : (⟨Face.x, 0, 0, 0⟩ : Work) ∉ [(⟨Face.y, 0, 0, 0⟩ : Work)] := by decide
  have hrun : M_loop torqueEnv (uniformH 0) alignedM [⟨Face.y, 0, 0, 0⟩] alignedM =
      some (alignedM.store ⟨Face.y, 0, 0, 0⟩ ⟨0, 0, 1⟩) := by
    simp [M_loop, M_kernel, LLG_cell, validity, normalize, M_magnitude_normalized, mag_Ms_interp,
      M_updated, torqueEnv, alignedM, uniformEnv, uniformM, uniformH, Mfield.face, readCell,
      uniform3, uniform1, mag_gamma_interp, Gil_damp, M_magnitude, H_eff, Face.dir,
      M_yface_update, Mfield.store]
  exact ⟨hw, hrun,
    (C1_M_updated_eq_llgStep torqueEnv (uniformH 0) alignedM _ _ _ hw hrun).1 (by decide)⟩

/-! ## C2: the strict validity policy -/

/-- C2, as stated, fails: in strict mode with tolerance 1 (`Ms_interp = 1`), a
cell whose updated M is `(0, 0, 0)` has `M_norm = 0`, passes the check
`|1 - M_norm| > tol`, is divided by `M_norm`, and the stored M does not have
`|M| / Ms_interp = 1`. `Rat.sqrt` is evaluated at `0` only, where it is exact. -/
theorem C2_counterexample :
    0 < (restEnv Rat.sqrt 1 (1 : ℚ)).M_normalization ∧
    M_updated (restEnv Rat.sqrt 1 (1 : ℚ)) (uniformH 0) (uniformM ⟨0, 0, 0⟩)
      (uniformM ⟨0, 0, 0⟩) ⟨Face.x, 0, 0, 0⟩ = ⟨0, 0, 0⟩ ∧
    M_magnitude_normalized (restEnv Rat.sqrt 1 (1 : ℚ)) Face.x ⟨0, 0, 0⟩ 0 0 0 = 0 ∧
    LLG_cell (restEnv Rat.sqrt 1 (1 : ℚ)) (uniformH 0) (uniformM ⟨0, 0, 0⟩)
      (uniformM ⟨0, 0, 0⟩) ⟨Face.x, 0, 0, 0⟩ = some ⟨0, 0, 0⟩ ∧
    M_magnitude_normalized (restEnv Rat.sqrt 1 (1 : ℚ)) Face.x ⟨0, 0, 0⟩ 0 0 0 ≠ 1 := by
  have hu : M_updated (restEnv Rat.sqrt 1 (1 : ℚ)) (uniformH 0) (uniformM ⟨0, 0, 0⟩)
      (uniformM ⟨0, 0, 0⟩) ⟨Face.x, 0, 0, 0⟩ = ⟨0, 0, 0⟩ := by
    simp [M_updated, restEnv, uniformEnv, uniformM, uniformH, Mfield.face, readCell, uniform3,
      uniform1, mag_gamma_interp, Gil_damp, M_magnitude, H_eff, Face.dir, M_xface_update]
  have hn : M_magnitude_normalized (restEnv Rat.sqrt 1 (1 : ℚ)) Face.x ⟨0, 0, 0⟩ 0 0 0 = 0 := by
    simp [M_magnitude_normalized, mag_Ms_interp, restEnv, uniformEnv, uniform1, Face.dir]
  refine ⟨by decide, hu, hn, ?_, ?_⟩
  · simp only [LLG_cell, hu, hn]
    simp [validity, normalize, restEnv, uniformEnv]
  · rw [hn]
    norm_num

/-- C2, amended: in strict mode the per-cell update aborts if and only if
`|1 - M_norm| > tol`; when it does not abort, the three components are divided
by `M_norm`, and if `tol < 1` and the interpolated Ms is not 0 then no divisor
of the call is 0 and the stored M satisfies `|M| / Ms_interp = 1`. For
`tol > 0`, `M_norm = 1 + 2*tol` aborts, and `M_norm = 1 + tol/2` does not
abort and is renormalized to 1. -/
theorem C2_strict_policy (e : Env R) (hs : e.SqrtSpec) (hstrict : 0 < e.M_normalization)
    (H : Hfield R) (M_old M : Mfield R) (w : Work) :
    (LLG_cell e H M_old M w = none ↔
      abs (1 - M_magnitude_normalized e w.face (M_updated e H M_old M w) w.i w.j w.k)
        > e.mag_normalized_error) ∧
    (¬ abs (1 - M_magnitude_normalized e w.face (M_updated e H M_old M w) w.i w.j w.k)
        > e.mag_normalized_error →
      LLG_cell e H M_old M w = some (normalize (M_updated e H M_old M w)
        (M_magnitude_normalized e w.face (M_updated e H M_old M w) w.i w.j w.k))) ∧
    (e.mag_normalized_error < 1 → mag_Ms_interp e w.face w.i w.j w.k ≠ 0 →
      (∀ d ∈ LLG_divisors e H M_old M w, d ≠ 0) ∧
      ∀ v, LLG_cell e H M_old M w = some v → M_magnitude_normalized e w.face v w.i w.j w.k = 1) ∧
    (0 < e.mag_normalized_error →
      M_magnitude_normalized e w.face (M_updated e H M_old M w) w.i w.j w.k
        = 1 + 2 * e.mag_normalized_error →
      LLG_cell e H M_old M w = none) ∧
    (0 < e.mag_normalized_error →
      M_magnitude_normalized e w.face (M_updated e H M_old M w) w.i w.j w.k
        = 1 + e.mag_normalized_error / 2 →
      ∃ v, LLG_cell e H M_old M w = some v ∧
        M_magnitude_normalized e w.face v w.i w.j w.k = 1) := by
  have key : LLG_cell e H M_old M w =
      if abs (1 - M_magnitude_normalized e w.face (M_updated e H M_old M w) w.i w.j w.k)
          > e.mag_normalized_error then none
      else some (normalize (M_updated e H M_old M w)
        (M_magnitude_normalized e w.face (M_updated e H M_old M w) w.i w.j w.k)) := by
    simp only [LLG_cell, validity, if_pos hstrict]
  have hdiv : e.mag_normalized_error < 1 → mag_Ms_interp e w.face w.i w.j w.k ≠ 0 →
      ∀ d ∈ LLG_divisors e H M_old M w, d ≠ 0 := by
    intro htol hMs d hd
    have hne : ¬ e.M_normalization = 0 := by omega
    unfold LLG_divisors at hd
    simp only [List.mem_append, List.mem_cons, List.mem_singleton, List.not_mem_nil,
      or_false] at hd
    rcases hd with (hd | hd) | hd
    · rw [hd]
      unfold M_magnitude
      rw [if_neg hne]
      exact hMs
    · rw [hd]
      exact hMs
    · by_cases hr : renormalizes e.M_normalization e.mag_normalized_error
          (M_magnitude_normalized e w.face (M_updated e H M_old M w) w.i w.j w.k)
      · rw [if_pos hr] at hd
        simp only [List.mem_cons, List.mem_singleton, List.not_mem_nil, or_false, or_self]
          at hd
        unfold renormalizes at hr
        rw [if_pos hstrict] at hr
        have h' := (abs_le.1 (not_lt.1 hr)).2
        rw [hd]
        intro h0
        rw [h0] at h'
        linarith
      · rw [if_neg hr] at hd
        exact absurd hd (List.not_mem_nil _)
  generalize M_updated e H M_old M w = m at key
  have hnorm := M_magnitude_normalized_normalize e hs w.face w.i w.j w.k m
  generalize hn : M_magnitude_normalized e w.face m w.i w.j w.k = n at key hnorm
  refine ⟨?_, ?_, ?_, ?_, ?_⟩
  · rw [key]
    by_cases h : abs (1 - n) > e.mag_normalized_error <;> simp [h]
  · intro h
    rw [key, if_neg h]
  · intro htol hMs
    refine ⟨hdiv htol hMs, ?_⟩
    intro v hv
    by_cases h : abs (1 - n) > e.mag_normalized_error
    · rw [key, if_pos h] at hv
      cases hv
    · rw [key, if_neg h, Option.some.injEq] at hv
      subst hv
      apply hnorm
      have h' := abs_le.1 (not_lt.1 h)
      linarith [h'.2]
  · intro htol h
    rw [key, if_pos]
    rw [h]
    have : (1 : R) - (1 + 2 * e.mag_normalized_error) = -(2 * e.mag_normalized_error) := by ring
    rw [this, abs_neg, abs_of_pos (by linarith)]
    linarith
  · intro htol h
    have hlt : ¬ abs (1 - n) > e.mag_normalized_error := by
      rw [h]
      have : (1 : R) - (1 + e.mag_normalized_error / 2) = -(e.mag_normalized_error / 2) := by
        ring
      rw [this, abs_neg, abs_of_pos (by linarith)]
      linarith
    refine ⟨_, by rw [key, if_neg hlt], hnorm ?_⟩
    rw [h]
    linarith

/-- Witness of `C2_strict_policy`: strict mode over the reals with
tolerance `1/10`, x-face cell `(0,0,0)`, `M = (1, 0, 0)`. -/
theorem C2_strict_policy_witness :
    (restEnv Real.sqrt 1 (1 / 10 : ℝ)).SqrtSpec ∧
    0 < (restEnv Real.sqrt 1 (1 / 10 : ℝ)).M_normalization ∧
    (restEnv Real.sqrt 1 (1 / 10 : ℝ)).mag_normalized_error < 1 ∧
    mag_Ms_interp (restEnv Real.sqrt 1 (1 / 10 : ℝ)) Face.x 0 0 0 ≠ 0 ∧
    (∀ v, LLG_cell (restEnv Real.sqrt 1 (1 / 10 : ℝ)) (uniformH 0) (uniformM ⟨1, 0, 0⟩)
          (uniformM ⟨1, 0, 0⟩) ⟨Face.x, 0, 0, 0⟩ = some v →
        M_magnitude_normalized (restEnv Real.sqrt 1 (1 / 10 : ℝ)) Face.x v 0 0 0 = 1) :=
  ⟨restEnv_real_sqrtSpec 1 (1 / 10), by decide, by norm_num [restEnv, uniformEnv],
    by norm_num [mag_Ms_interp, restEnv, uniformEnv, uniform1],
    ((C2_strict_policy (restEnv Real.sqrt 1 (1 / 10 : ℝ)) (restEnv_real_sqrtSpec 1 (1 / 10))
      (by decide) (uniformH 0) (uniformM ⟨1, 0, 0⟩) (uniformM ⟨1, 0, 0⟩)
      ⟨Face.x, 0, 0, 0⟩).2.2.1 (by norm_num [restEnv, uniformEnv])
      (by norm_num [mag_Ms_interp, restEnv, uniformEnv, uniform1])).2⟩

/-! ## C3: the non-strict validity policy -/

/-- C3, as stated, fails: in non-strict mode with tolerance `-1/2`
(`Ms_interp = 1`), a cell whose updated M is `(1, 0, 0)` has `M_norm = 1 <= 1`,
and the update aborts instead of storing M unchanged. `Rat.sqrt` is evaluated
at `1` only, where it is exact. -/
theorem C3_counterexample :
    (restEnv Rat.sqrt 0 (-1 / 2 : ℚ)).M_normalization = 0 ∧
    M_magnitude_normalized (restEnv Rat.sqrt 0 (-1 / 2 : ℚ)) Face.x
      (M_updated (restEnv Rat.sqrt 0 (-1 / 2 : ℚ)) (uniformH 0) (uniformM ⟨1, 0, 0⟩)
        (uniformM ⟨1, 0, 0⟩) ⟨Face.x, 0, 0, 0⟩) 0 0 0 ≤ 1 ∧
    LLG_cell (restEnv Rat.sqrt 0 (-1 / 2 : ℚ)) (uniformH 0) (uniformM ⟨1, 0, 0⟩)
      (uniformM ⟨1, 0, 0⟩) ⟨Face.x, 0, 0, 0⟩ = none := by
  have hu : M_updated (restEnv Rat.sqrt 0 (-1 / 2 : ℚ)) (uniformH 0) (uniformM ⟨1, 0, 0⟩)
      (uniformM ⟨1, 0, 0⟩) ⟨Face.x, 0, 0, 0⟩ = ⟨1, 0, 0⟩ := by
    simp [M_updated, restEnv, uniformEnv, uniformM, uniformH, Mfield.face, readCell, uniform3,
      uniform1, mag_gamma_interp, Gil_damp, M_magnitude, H_eff, Face.dir, M_xface_update]
  have hn : M_magnitude_normalized (restEnv Rat.sqrt 0 (-1 / 2 : ℚ)) Face.x ⟨1, 0, 0⟩ 0 0 0
      = 1 := by
    simp [M_magnitude_normalized, mag_Ms_interp, restEnv, uniformEnv, uniform1, Face.dir]
  refine ⟨rfl, ?_, ?_⟩
  · rw [hu, hn]
  · simp only [LLG_cell, hu, hn]
    simp [validity, restEnv, uniformEnv]
    norm_num

/-- C3, amended: in non-strict mode with a tolerance `tol >= 0`: if
`M_norm <= 1` the updated M is stored unchanged; if `1 < M_norm <= 1 + tol`
the three components are divided by `M_norm` and the stored M has
`|M| / Ms_interp = 1`; if `M_norm > 1 + tol` the update aborts. The three cases are
exhaustive and mutually exclusive. -/
theorem C3_nonstrict_policy (e : Env R) (hs : e.SqrtSpec) (hmode : e.M_normalization = 0)
    (htol : 0 ≤ e.mag_normalized_error) (H : Hfield R) (M_old M : Mfield R) (w : Work) :
    (M_magnitude_normalized e w.face (M_updated e H M_old M w) w.i w.j w.k ≤ 1 →
      LLG_cell e H M_old M w = some (M_updated e H M_old M w)) ∧
    (1 < M_magnitude_normalized e w.face (M_updated e H M_old M w) w.i w.j w.k ∧
      M_magnitude_normalized e w.face (M_updated e H M_old M w) w.i w.j w.k
        ≤ 1 + e.mag_normalized_error →
      LLG_cell e H M_old M w = some (normalize (M_updated e H M_old M w)
        (M_magnitude_normalized e w.face (M_updated e H M_old M w) w.i w.j w.k)) ∧
      M_magnitude_normalized e w.face (normalize (M_updated e H M_old M w)
        (M_magnitude_normalized e w.face (M_updated e H M_old M w) w.i w.j w.k))
        w.i w.j w.k = 1) ∧
    (M_magnitude_normalized e w.face (M_updated e H M_old M w) w.i w.j w.k
        > 1 + e.mag_normalized_error →
      LLG_cell e H M_old M w = none) ∧
    ((M_magnitude_normalized e w.face (M_updated e H M_old M w) w.i w.j w.k ≤ 1 ∨
      (1 < M_magnitude_normalized e w.face (M_updated e H M_old M w) w.i w.j w.k ∧
        M_magnitude_normalized e w.face (M_updated e H M_old M w) w.i w.j w.k
          ≤ 1 + e.mag_normalized_error) ∨
      M_magnitude_normalized e w.face (M_updated e H M_old M w) w.i w.j w.k
          > 1 + e.mag_normalized_error) ∧
     ¬ (M_magnitude_normalized e w.face (M_updated e H M_old M w) w.i w.j w.k ≤ 1 ∧
        1 < M_magnitude_normalized e w.face (M_updated e H M_old M w) w.i w.j w.k) ∧
     ¬ (M_magnitude_normalized e w.face (M_updated e H M_old M w) w.i w.j w.k ≤ 1 ∧
        M_magnitude_normalized e w.face (M_updated e H M_old M w) w.i w.j w.k
          > 1 + e.mag_normalized_error) ∧
     ¬ (M_magnitude_normalized e w.face (M_updated e H M_old M w) w.i w.j w.k
          ≤ 1 + e.mag_normalized_error ∧
        M_magnitude_normalized e w.face (M_updated e H M_old M w) w.i w.j w.k
          > 1 + e.mag_normalized_error)) := by
  have hns : ¬ e.M_normalization > 0 := by rw [hmode]; decide
  have key : LLG_cell e H M_old M w =
      validity 0 e.mag_normalized_error
        (M_magnitude_normalized e w.face (M_updated e H M_old M w) w.i w.j w.k)
        (M_updated e H M_old M w) := by
    simp only [LLG_cell, hmode]
  generalize M_updated e H M_old M w = m at key
  have hnorm := M_magnitude_normalized_normalize e hs w.face w.i w.j w.k m
  generalize hn : M_magnitude_normalized e w.face m w.i w.j w.k = n at key hnorm
  refine ⟨?_, ?_, ?_, ?_⟩
  · intro h
    have h1 : ¬ n > 1 + e.mag_normalized_error := by
      intro h'
      have : n > 1 := lt_of_le_of_lt (by linarith) h'
      exact absurd h (not_le.2 this)
    have h2 : ¬ (n > 1 ∧ n ≤ 1 + e.mag_normalized_error) := fun h' => absurd h (not_le.2 h'.1)
    rw [key]
    simp [validity, h1, h2]
  · rintro ⟨h1, h2⟩
    have h3 : ¬ n > 1 + e.mag_normalized_error := not_lt.2 h2
    refine ⟨?_, hnorm (by linarith)⟩
    rw [key]
    simp [validity, h1, h2, h3]
  · intro h
    rw [key]
    simp [validity, h]
  · refine ⟨?_, fun h => absurd h.1 (not_le.2 h.2), fun h => ?_, fun h => absurd h.1 (not_le.2 h.2)⟩
    · rcases le_or_lt n 1 with h | h
      · exact Or.inl h
      · rcases le_or_lt n (1 + e.mag_normalized_error) with h' | h'
        · exact Or.inr (Or.inl ⟨h, h'⟩)
        · exact Or.inr (Or.inr h')
    · have : n > 1 := lt_of_le_of_lt (by linarith) h.2
      exact absurd h.1 (not_le.2 this)

/-- Witness of `C3_nonstrict_policy`: non-strict mode over the reals with
tolerance `1/10`, x-face cell `(0,0,0)`, `M = (1, 0, 0)`. -/
theorem C3_nonstrict_policy_witness :
    (restEnv Real.sqrt 0 (1 / 10 : ℝ)).SqrtSpec ∧
    (restEnv Real.sqrt 0 (1 / 10 : ℝ)).M_normalization = 0 ∧
    0 ≤ (restEnv Real.sqrt 0 (1 / 10 : ℝ)).mag_normalized_error ∧
    (M_magnitude_normalized (restEnv Real.sqrt 0 (1 / 10 : ℝ)) Face.x
        (M_updated (restEnv Real.sqrt 0 (1 / 10 : ℝ)) (uniformH 0) (uniformM ⟨1, 0, 0⟩)
          (uniformM ⟨1, 0, 0⟩) ⟨Face.x, 0, 0, 0⟩) 0 0 0 ≤ 1 →
      LLG_cell (restEnv Real.sqrt 0 (1 / 10 : ℝ)) (uniformH 0) (uniformM ⟨1, 0, 0⟩)
          (uniformM ⟨1, 0, 0⟩) ⟨Face.x, 0, 0, 0⟩ =
        some (M_updated (restEnv Real.sqrt 0 (1 / 10 : ℝ)) (uniformH 0) (uniformM ⟨1, 0, 0⟩)
          (uniformM ⟨1, 0, 0⟩) ⟨Face.x, 0, 0, 0⟩)) :=
  ⟨restEnv_real_sqrtSpec 0 (1 / 10), rfl, by norm_num [restEnv, uniformEnv],
    (C3_nonstrict_policy (restEnv Real.sqrt 0 (1 / 10 : ℝ)) (restEnv_real_sqrtSpec 0 (1 / 10))
      rfl (by norm_num [restEnv, uniformEnv]) (uniformH 0) (uniformM ⟨1, 0, 0⟩)
      (uniformM ⟨1, 0, 0⟩) ⟨Face.x, 0, 0, 0⟩).1⟩

/-! ## C4: the H update -/

/-- C4: after a completed step, on every cell of the x-face box
`Hx_new = Hx_old + (dt/mu0)*(UpwardDz(Ey) - UpwardDy(Ez)) - (Mx_new - Mx_old)`,
on every cell of the y-face box
`Hy_new = Hy_old + (dt/mu0)*(UpwardDx(Ez) - UpwardDz(Ex)) - (My_new - My_old)`,
on every cell of the z-face box
`Hz_new = Hz_old + (dt/mu0)*(UpwardDy(Ex) - UpwardDx(Ey)) - (Mz_new - Mz_old)`,
where `M_new` is the M the step returns, which at every cell of the boxes is
the output of the validity policy, and `M_old` is the M the step received. -/
theorem C4_H_update (e : Env R) (tbx tby tbz : Box) (s s' : State R)
    (h : MacroscopicEvolveHMCartesian e tbx tby tbz s = some s') :
    (∀ i j k, Work.mk Face.x i j k ∈ tbx.work Face.x →
      s'.H.Hx i j k 0 = s.H.Hx i j k 0
        + e.dt / e.mu0 * (e.UpwardDz e.Ey i j k - e.UpwardDy e.Ez i j k)
        - (s'.M.M_xface i j k 0 - s.M.M_xface i j k 0)) ∧
    (∀ i j k, Work.mk Face.y i j k ∈ tby.work Face.y →
      s'.H.Hy i j k 0 = s.H.Hy i j k 0
        + e.dt / e.mu0 * (e.UpwardDx e.Ez i j k - e.UpwardDz e.Ex i j k)
        - (s'.M.M_yface i j k 1 - s.M.M_yface i j k 1)) ∧
    (∀ i j k, Work.mk Face.z i j k ∈ tbz.work Face.z →
      s'.H.Hz i j k 0 = s.H.Hz i j k 0
        + e.dt / e.mu0 * (e.UpwardDy e.Ex i j k - e.UpwardDx e.Ey i j k)
        - (s'.M.M_zface i j k 2 - s.M.M_zface i j k 2)) ∧
    (∀ w ∈ workOf tbx tby tbz, LLG_cell e s.H s.M s.M w = some (s'.M.cell w)) := by
  obtain ⟨hM, hH⟩ := stepInOrder_eq_some e _ _ s s' h
  have hcell := H_loop_cell e s.M s'.M (workOf tbx tby tbz) s.H (workOf_nodup tbx tby tbz)
  refine ⟨?_, ?_, ?_, ?_⟩
  · intro i j k hw
    have := hcell ⟨Face.x, i, j, k⟩ ((mem_workOf _ _ _ _).2 (Or.inl hw))
    rw [← hH] at this
    simp only [Hfield.cell, Hfield.face, curlE, Mfield.normal] at this
    rw [this, add_sub_assoc]
  · intro i j k hw
    have := hcell ⟨Face.y, i, j, k⟩ ((mem_workOf _ _ _ _).2 (Or.inr (Or.inl hw)))
    rw [← hH] at this
    simp only [Hfield.cell, Hfield.face, curlE, Mfield.normal] at this
    rw [this, add_sub_assoc]
  · intro i j k hw
    have := hcell ⟨Face.z, i, j, k⟩ ((mem_workOf _ _ _ _).2 (Or.inr (Or.inr hw)))
    rw [← hH] at this
    simp only [Hfield.cell, Hfield.face, curlE, Mfield.normal] at this
    rw [this, add_sub_assoc]
  · exact M_loop_cell e s.H s.M (workOf tbx tby tbz) s.M s'.M (workOf_nodup tbx tby tbz) hM

/-- Witness of `C4_H_update`: the step on `kickEnv`, `torqueM`, `H = 0` and
the single cell `(0,0,0)`: M turns from `(0, 1, 0)` to `(3/5, 4/5, 0)` and
`Hx` goes from `0` to `-3/5`. -/
theorem C4_H_update_witness :
    MacroscopicEvolveHMCartesian kickEnv cellBox cellBox cellBox ⟨torqueM, uniformH 0⟩
      = some ⟨kickM_new, kickH_new⟩ ∧
    (Work.mk Face.x 0 0 0 ∈ cellBox.work Face.x →
      kickH_new.Hx 0 0 0 0 = (uniformH (0 : ℚ)).Hx 0 0 0 0
        + kickEnv.dt / kickEnv.mu0
          * (kickEnv.UpwardDz kickEnv.Ey 0 0 0 - kickEnv.UpwardDy kickEnv.Ez 0 0 0)
        - (kickM_new.M_xface 0 0 0 0 - torqueM.M_xface 0 0 0 0)) :=
  ⟨kick_step, (C4_H_update kickEnv cellBox cellBox cellBox ⟨torqueM, uniformH 0⟩
    ⟨kickM_new, kickH_new⟩ kick_step).1 0 0 0⟩

/-! ## C5: the z-face update and `M_yface_old` -/

/-- C5 fails on the code: on a z-face with `M_zface_old = (0, 1, 0)` parallel
to `H_eff = (0, 1, 0)` and `mu0 = gamma = Gil_damp = dt = 1`, the updated M is
`(0, 1, 1)` when `M_yface_old(i,j,k,2) = 1` and `(0, 1, 0)` when it is `0`,
while the x-face update of the same data is `(0, 1, 0)`. -/
theorem C5_zface_reads_M_yface_old :
    M_updated dampedEnv (uniformH 0) (dampedM 1) (dampedM 1) ⟨Face.z, 0, 0, 0⟩ = ⟨0, 1, 1⟩ ∧
    M_updated dampedEnv (uniformH 0) (dampedM 0) (dampedM 0) ⟨Face.z, 0, 0, 0⟩ = ⟨0, 1, 0⟩ ∧
    (dampedM 1).M_zface = (dampedM 0).M_zface ∧
    M_updated dampedEnv (uniformH 0) (dampedM 1) (dampedM 1) ⟨Face.x, 0, 0, 0⟩ = ⟨0, 1, 0⟩ ∧
    (dampedM 1).M_xface = (dampedM 1).M_zface := by
  refine ⟨?_, ?_, rfl, ?_, rfl⟩ <;>
  simp [M_updated, dampedEnv, dampedM, uniformEnv, uniformH, Mfield.face, readCell, uniform3,
    uniform1, mag_gamma_interp, Gil_damp, M_magnitude, H_eff, Face.dir, M_zface_update,
    M_xface_update]

/-! ## C6: the damping coefficient -/

/-- C6: within the first loop, the damping coefficient a cell's call uses is
`mu0 * gamma_interp * alpha_interp / M_magnitude`, with the node-to-face
averages of gamma and alpha, and with `M_magnitude` the node-to-face average
of Ms when `M_normalization != 0` and the Euclidean magnitude of `M_old` at
the cell when `M_normalization == 0`. The calls `ws` that ran before the
cell's own call are arbitrary; `M` is the field the call reads. -/
theorem C6_Gil_damp (e : Env R) (H : Hfield R) (M_old M : Mfield R) (ws : List Work)
    (w : Work) (hw : w ∉ ws) (hrun : M_loop e H M_old ws M_old = some M) :
    Gil_damp e w.face (readCell (M.face w.face) w.i w.j w.k) w.i w.j w.k =
      e.mu0 * e.macro_avg_to_face w.i w.j w.k w.face.dir e.mag_gamma_arr
        * e.macro_avg_to_face w.i w.j w.k w.face.dir e.mag_alpha_arr
        / (if e.M_normalization ≠ 0 then
            e.macro_avg_to_face w.i w.j w.k w.face.dir e.mag_Ms_arr
          else e.sqrt ((M_old.face w.face w.i w.j w.k 0) ^ 2
            + (M_old.face w.face w.i w.j w.k 1) ^ 2 + (M_old.face w.face w.i w.j w.k 2) ^ 2)) := by
  have hc : M.cell w = M_old.cell w := M_loop_frame_cell e H M_old ws M_old M hrun w hw
  simp only [Mfield.cell] at hc
  rw [hc]
  simp only [Gil_damp, M_magnitude, mag_gamma_interp, readCell]
  by_cases h0 : e.M_normalization = 0
  · simp [h0]
  · simp [h0]

/-- Witness of `C6_Gil_damp`: the x-face cell `(0,0,0)` after the y-face cell
`(0,0,0)` has been processed. -/
theorem C6_Gil_damp_witness :
    (⟨Face.x, 0, 0, 0⟩ : Work) ∉ [(⟨Face.y, 0, 0, 0⟩ : Work)] ∧
    M_loop (restEnv Rat.sqrt 1 (1 / 10 : ℚ)) (uniformH 0) (uniformM ⟨1, 0, 0⟩)
      [⟨Face.y, 0, 0, 0⟩] (uniformM ⟨1, 0, 0⟩) = some (uniformM ⟨1, 0, 0⟩) ∧
    Gil_damp (restEnv Rat.sqrt 1 (1 / 10 : ℚ)) Face.x
        (readCell ((uniformM (⟨1, 0, 0⟩ : Vec3 ℚ)).face Face.x) 0 0 0) 0 0 0 =
      (restEnv Rat.sqrt 1 (1 / 10 : ℚ)).mu0
        * (restEnv Rat.sqrt 1 (1 / 10 : ℚ)).macro_avg_to_face 0 0 0 Face.x.dir
            (restEnv Rat.sqrt 1 (1 / 10 : ℚ)).mag_gamma_arr
        * (restEnv Rat.sqrt 1 (1 / 10 : ℚ)).macro_avg_to_face 0 0 0 Face.x.dir
            (restEnv Rat.sqrt 1 (1 / 10 : ℚ)).mag_alpha_arr
        / (if (restEnv Rat.sqrt 1 (1 / 10 : ℚ)).M_normalization ≠ 0 then
            (restEnv Rat.sqrt 1 (1 / 10 : ℚ)).macro_avg_to_face 0 0 0 Face.x.dir
              (restEnv Rat.sqrt 1 (1 / 10 : ℚ)).mag_Ms_arr
          else (restEnv Rat.sqrt 1 (1 / 10 : ℚ)).sqrt
            (((uniformM (⟨1, 0, 0⟩ : Vec3 ℚ)).face Face.x 0 0 0 0) ^ 2
              + ((uniformM (⟨1, 0, 0⟩ : Vec3 ℚ)).face Face.x 0 0 0 1) ^ 2
              + ((uniformM (⟨1, 0, 0⟩ : Vec3 ℚ)).face Face.x 0 0 0 2) ^ 2)) :=
  ⟨by decide, rest_M_loop (uniformH 0) _,
    C6_Gil_damp (restEnv Rat.sqrt 1 (1 / 10 : ℚ)) (uniformH 0) (uniformM ⟨1, 0, 0⟩)
      (uniformM ⟨1, 0, 0⟩) [⟨Face.y, 0, 0, 0⟩] ⟨Face.x, 0, 0, 0⟩ (by decide)
      (rest_M_loop (uniformH 0) _)⟩

/-! ## C7: independence of the processing order -/

/-- C7: a call of the first loop reads, of the field being written, only its
own cell (the rest of its input is the snapshot and the H field the step
received), and writes only its own cell; the step runs the first loop on the
snapshot and the received H, and the second loop on the M the first loop
returns; with each cell processed once, every cell of the first loop holds
what its call computes from the snapshot alone; so the result of the step,
abort included, is the same for every processing order of the two loops. -/
theorem C7_order_independence (e : Env R) (s : State R) (wsM wsM' wsH wsH' : List Work)
    (hM : wsM.Perm wsM') (hH : wsH.Perm wsH') :
    stepInOrder e wsM wsH s = stepInOrder e wsM' wsH' s ∧
    (∀ (H : Hfield R) (M_old M N : Mfield R) (w : Work), M.cell w = N.cell w →
      LLG_cell e H M_old M w = LLG_cell e H M_old N w) ∧
    (∀ (H : Hfield R) (M_old M M' : Mfield R) (w : Work), M_kernel e H M_old M w = some M' →
      ∀ (f : Face) (i j k : Int) (n : Nat), Work.mk f i j k ≠ w →
        M'.face f i j k n = M.face f i j k n) ∧
    (∀ s', stepInOrder e wsM wsH s = some s' →
      M_loop e s.H s.M wsM s.M = some s'.M ∧ s'.H = H_loop e s.M s'.M wsH s.H) ∧
    (wsM.Nodup → ∀ s', stepInOrder e wsM wsH s = some s' →
      ∀ w ∈ wsM, LLG_cell e s.H s.M s.M w = some (s'.M.cell w)) := by
  refine ⟨?_, fun H o M N w h => LLG_cell_congr e H o M N w h, ?_,
    fun s' h => stepInOrder_eq_some e wsM wsH s s' h,
    fun hnd s' h => M_loop_cell e s.H s.M wsM s.M s'.M hnd
      (stepInOrder_eq_some e wsM wsH s s' h).1⟩
  · simp only [stepInOrder, M_loop_perm e s.H s.M s.M wsM wsM' hM]
    cases M_loop e s.H s.M wsM' s.M with
    | none => rfl
    | some M' => simp only [H_loop_perm e s.M M' s.H wsH wsH' hH]
  · intro H o M M' w h f i j k n hne
    rw [M_kernel_eq] at h
    cases hc : LLG_cell e H o M w with
    | none => simp [hc] at h
    | some v =>
      simp only [hc, Option.map_some', Option.some.injEq] at h
      rw [← h]
      exact Mfield_face_store_other M w v f i j k n hne

/-- Witness of `C7_order_independence`: the z-, y- and x-face calls at cell
`(0,0,0)` in place of the order x, y, z of the code. -/
theorem C7_order_independence_witness :
    [(⟨Face.x, 0, 0, 0⟩ : Work), ⟨Face.y, 0, 0, 0⟩, ⟨Face.z, 0, 0, 0⟩].Perm
      [⟨Face.z, 0, 0, 0⟩, ⟨Face.y, 0, 0, 0⟩, ⟨Face.x, 0, 0, 0⟩] ∧
    stepInOrder torqueEnv [⟨Face.x, 0, 0, 0⟩, ⟨Face.y, 0, 0, 0⟩, ⟨Face.z, 0, 0, 0⟩]
        [⟨Face.x, 0, 0, 0⟩, ⟨Face.y, 0, 0, 0⟩, ⟨Face.z, 0, 0, 0⟩] ⟨alignedM, uniformH 0⟩ =
      stepInOrder torqueEnv [⟨Face.z, 0, 0, 0⟩, ⟨Face.y, 0, 0, 0⟩, ⟨Face.x, 0, 0, 0⟩]
        [⟨Face.z, 0, 0, 0⟩, ⟨Face.y, 0, 0, 0⟩, ⟨Face.x, 0, 0, 0⟩] ⟨alignedM, uniformH 0⟩ := by
  have hp : [(⟨Face.x, 0, 0, 0⟩ : Work), ⟨Face.y, 0, 0, 0⟩, ⟨Face.z, 0, 0, 0⟩].Perm
      [⟨Face.z, 0, 0, 0⟩, ⟨Face.y, 0, 0, 0⟩, ⟨Face.x, 0, 0, 0⟩] := by decide
  exact ⟨hp, (C7_order_independence torqueEnv ⟨alignedM, uniformH 0⟩ _ _ _ _ hp hp).1⟩

/-! ## C8: the effective field and the coupling flag -/

/-- C8: the effective field is the interpolated bias field, plus the
interpolated Maxwell field exactly when `coupling == 1`; with coupling
disabled, two runs of the step that differ only in the input H field abort
together or produce the same M. -/
theorem C8_uncoupled_M_independent_of_H (e : Env R) :
    (∀ (H : Hfield R) (f : Face) (i j k : Int),
      H_eff e H f i j k =
        if e.coupling = 1 then
          ⟨e.face_avg_to_face i j k 0 ⟨1, 0, 0⟩ f.dir e.Hx_bias
              + e.face_avg_to_face i j k 0 ⟨1, 0, 0⟩ f.dir H.Hx,
            e.face_avg_to_face i j k 0 ⟨0, 1, 0⟩ f.dir e.Hy_bias
              + e.face_avg_to_face i j k 0 ⟨0, 1, 0⟩ f.dir H.Hy,
            e.face_avg_to_face i j k 0 ⟨0, 0, 1⟩ f.dir e.Hz_bias
              + e.face_avg_to_face i j k 0 ⟨0, 0, 1⟩ f.dir H.Hz⟩
        else
          ⟨e.face_avg_to_face i j k 0 ⟨1, 0, 0⟩ f.dir e.Hx_bias,
            e.face_avg_to_face i j k 0 ⟨0, 1, 0⟩ f.dir e.Hy_bias,
            e.face_avg_to_face i j k 0 ⟨0, 0, 1⟩ f.dir e.Hz_bias⟩) ∧
    (e.coupling ≠ 1 → ∀ (tbx tby tbz : Box) (M : Mfield R) (H H' : Hfield R),
      (MacroscopicEvolveHMCartesian e tbx tby tbz ⟨M, H⟩).map (fun s' => s'.M) =
        (MacroscopicEvolveHMCartesian e tbx tby tbz ⟨M, H'⟩).map (fun s' => s'.M)) := by
  refine ⟨fun H f i j k => rfl, ?_⟩
  intro hc tbx tby tbz M H H'
  simp only [MacroscopicEvolveHMCartesian, stepInOrder, M_loop_uncoupled e hc H H']
  cases M_loop e H' M (workOf tbx tby tbz) M <;> rfl

/-- Witness of `C8_uncoupled_M_independent_of_H`: coupling flag 0, input H
fields uniformly 0 and uniformly 7. -/
theorem C8_uncoupled_M_independent_of_H_witness :
    torqueEnv.coupling ≠ 1 ∧
    (MacroscopicEvolveHMCartesian torqueEnv unitBox unitBox unitBox
        ⟨alignedM, uniformH 0⟩).map (fun s' => s'.M) =
      (MacroscopicEvolveHMCartesian torqueEnv unitBox unitBox unitBox
        ⟨alignedM, uniformH 7⟩).map (fun s' => s'.M) :=
  ⟨by decide, (C8_uncoupled_M_independent_of_H torqueEnv).2 (by decide) unitBox unitBox unitBox
    alignedM (uniformH 0) (uniformH 7)⟩

/-! ## C9: renormalization in strict mode -/

/-- C9, as stated, fails: in strict mode with tolerance `-1/2`
(`Ms_interp = 1`), a cell whose updated M is `(1, 0, 0)` already has
`|M| / Ms_interp = 1`, and the policy aborts instead of leaving M unchanged.
`Rat.sqrt` is evaluated at `1` only, where it is exact. -/
theorem C9_counterexample :
    0 < (restEnv Rat.sqrt 1 (-1 / 2 : ℚ)).M_normalization ∧
    M_magnitude_normalized (restEnv Rat.sqrt 1 (-1 / 2 : ℚ)) Face.x
      (M_updated (restEnv Rat.sqrt 1 (-1 / 2 : ℚ)) (uniformH 0) (uniformM ⟨1, 0, 0⟩)
        (uniformM ⟨1, 0, 0⟩) ⟨Face.x, 0, 0, 0⟩) 0 0 0 = 1 ∧
    LLG_cell (restEnv Rat.sqrt 1 (-1 / 2 : ℚ)) (uniformH 0) (uniformM ⟨1, 0, 0⟩)
      (uniformM ⟨1, 0, 0⟩) ⟨Face.x, 0, 0, 0⟩ = none := by
  have hu : M_updated (restEnv Rat.sqrt 1 (-1 / 2 : ℚ)) (uniformH 0) (uniformM ⟨1, 0, 0⟩)
      (uniformM ⟨1, 0, 0⟩) ⟨Face.x, 0, 0, 0⟩ = ⟨1, 0, 0⟩ := by
    simp [M_updated, restEnv, uniformEnv, uniformM, uniformH, Mfield.face, readCell, uniform3,
      uniform1, mag_gamma_interp, Gil_damp, M_magnitude, H_eff, Face.dir, M_xface_update]
  have hn : M_magnitude_normalized (restEnv Rat.sqrt 1 (-1 / 2 : ℚ)) Face.x ⟨1, 0, 0⟩ 0 0 0
      = 1 := by
    simp [M_magnitude_normalized, mag_Ms_interp, restEnv, uniformEnv, uniform1, Face.dir]
  refine ⟨by decide, ?_, ?_⟩
  · rw [hu, hn]
  · simp only [LLG_cell, hu, hn]
    simp [validity, restEnv, uniformEnv]
    norm_num

/-- C9, amended: in strict mode with a tolerance `0 <= tol < 1`: a cell whose
updated M has `|M| / Ms_interp = 1` is stored unchanged by the policy;
applying the policy to a value the policy returned returns that value; and
where the interpolated Ms is not 0 at any cell of the loop boxes, after a
completed step every cell of the loop boxes has `|M| / Ms_interp = 1`
(whatever the magnitude of the input M). -/
theorem C9_strict_renormalization (e : Env R) (hs : e.SqrtSpec)
    (hstrict : 0 < e.M_normalization) (htol0 : 0 ≤ e.mag_normalized_error)
    (htol1 : e.mag_normalized_error < 1) :
    (∀ (H : Hfield R) (M_old M : Mfield R) (w : Work),
      M_magnitude_normalized e w.face (M_updated e H M_old M w) w.i w.j w.k = 1 →
      LLG_cell e H M_old M w = some (M_updated e H M_old M w)) ∧
    (∀ (f : Face) (i j k : Int) (m v : Vec3 R),
      validity e.M_normalization e.mag_normalized_error
        (M_magnitude_normalized e f m i j k) m = some v →
      validity e.M_normalization e.mag_normalized_error
        (M_magnitude_normalized e f v i j k) v = some v) ∧
    (∀ (tbx tby tbz : Box) (s s' : State R),
      (∀ w ∈ workOf tbx tby tbz, mag_Ms_interp e w.face w.i w.j w.k ≠ 0) →
      MacroscopicEvolveHMCartesian e tbx tby tbz s = some s' →
      ∀ w ∈ workOf tbx tby tbz,
        M_magnitude_normalized e w.face (s'.M.cell w) w.i w.j w.k = 1) := by
  refine ⟨?_, ?_, ?_⟩
  · intro H M_old M w h
    simp only [LLG_cell, h]
    exact validity_strict_of_norm_one e hstrict htol0 _
  · intro f i j k m v h
    rw [validity_strict_some e hs hstrict htol1 f i j k m v h]
    exact validity_strict_of_norm_one e hstrict htol0 _
  · intro tbx tby tbz s s' _ h w hw
    obtain ⟨hM, _⟩ := stepInOrder_eq_some e _ _ s s' h
    have hc := M_loop_cell e s.H s.M (workOf tbx tby tbz) s.M s'.M (workOf_nodup tbx tby tbz)
      hM w hw
    exact validity_strict_some e hs hstrict htol1 w.face w.i w.j w.k _ _ hc

/-- Witness of `C9_strict_renormalization`: strict mode over the reals with
tolerance `1/10`. -/
theorem C9_strict_renormalization_witness :
    (restEnv Real.sqrt 1 (1 / 10 : ℝ)).SqrtSpec ∧
    0 < (restEnv Real.sqrt 1 (1 / 10 : ℝ)).M_normalization ∧
    0 ≤ (restEnv Real.sqrt 1 (1 / 10 : ℝ)).mag_normalized_error ∧
    (restEnv Real.sqrt 1 (1 / 10 : ℝ)).mag_normalized_error < 1 ∧
    (∀ (tbx tby tbz : Box) (w : Work), w ∈ workOf tbx tby tbz →
      mag_Ms_interp (restEnv Real.sqrt 1 (1 / 10 : ℝ)) w.face w.i w.j w.k ≠ 0) ∧
    (∀ (tbx tby tbz : Box) (s s' : State ℝ),
      MacroscopicEvolveHMCartesian (restEnv Real.sqrt 1 (1 / 10 : ℝ)) tbx tby tbz s = some s' →
      ∀ w ∈ workOf tbx tby tbz,
        M_magnitude_normalized (restEnv Real.sqrt 1 (1 / 10 : ℝ)) w.face (s'.M.cell w)
          w.i w.j w.k = 1) :=
  ⟨restEnv_real_sqrtSpec 1 (1 / 10), by decide, by norm_num [restEnv, uniformEnv],
    by norm_num [restEnv, uniformEnv],
    fun _ _ _ w _ => by norm_num [mag_Ms_interp, restEnv, uniformEnv, uniform1],
    fun tbx tby tbz s s' => (C9_strict_renormalization (restEnv Real.sqrt 1 (1 / 10 : ℝ))
      (restEnv_real_sqrtSpec 1 (1 / 10)) (by decide) (by norm_num [restEnv, uniformEnv])
      (by norm_num [restEnv, uniformEnv])).2.2 tbx tby tbz s s'
      (fun w _ => by norm_num [mag_Ms_interp, restEnv, uniformEnv, uniform1])⟩

/-! ## C10: the mutated H update -/

/-- C10, as stated, fails: with `dt = 1`, M uniformly `(1, 0, 0)` and no
effective field, the step completes, leaves M as it was, and the H field it
produces is the H field the mutated step produces. -/
theorem C10_counterexample :
    (restEnv Rat.sqrt 1 (1 / 10 : ℚ)).dt ≠ 0 ∧
    (⟨1, 0, 0⟩ : Vec3 ℚ) ≠ ⟨0, 0, 0⟩ ∧
    (MacroscopicEvolveHMCartesian (restEnv Rat.sqrt 1 (1 / 10 : ℚ)) unitBox unitBox unitBox
      ⟨uniformM ⟨1, 0, 0⟩, uniformH 0⟩).isSome = true ∧
    MacroscopicEvolveHMCartesian (restEnv Rat.sqrt 1 (1 / 10 : ℚ)) unitBox unitBox unitBox
        ⟨uniformM ⟨1, 0, 0⟩, uniformH 0⟩ =
      MacroscopicEvolveHMCartesian_mutated (restEnv Rat.sqrt 1 (1 / 10 : ℚ)) unitBox unitBox
        unitBox ⟨uniformM ⟨1, 0, 0⟩, uniformH 0⟩ := by
  have hsome : (M_loop (restEnv Rat.sqrt 1 (1 / 10 : ℚ)) (uniformH 0) (uniformM ⟨1, 0, 0⟩)
      (workOf unitBox unitBox unitBox) (uniformM ⟨1, 0, 0⟩)).isSome = true := by
    rw [M_loop_isSome _ _ _ _ _ (workOf_nodup _ _ _)]
    intro w _
    rw [LLG_cell_rest]
    rfl
  refine ⟨by norm_num [restEnv, uniformEnv], by simp, ?_, ?_⟩
  · simp only [MacroscopicEvolveHMCartesian, stepInOrder]
    cases hM : M_loop (restEnv Rat.sqrt 1 (1 / 10 : ℚ)) (uniformH 0) (uniformM ⟨1, 0, 0⟩)
        (workOf unitBox unitBox unitBox) (uniformM ⟨1, 0, 0⟩) with
    | none => rw [hM] at hsome; cases hsome
    | some M' => rfl
  · simp only [MacroscopicEvolveHMCartesian, MacroscopicEvolveHMCartesian_mutated, stepInOrder]
    cases hM : M_loop (restEnv Rat.sqrt 1 (1 / 10 : ℚ)) (uniformH 0) (uniformM ⟨1, 0, 0⟩)
        (workOf unitBox unitBox unitBox) (uniformM ⟨1, 0, 0⟩) with
    | none => rfl
    | some M' =>
      have hcell : ∀ w ∈ workOf unitBox unitBox unitBox,
          (uniformM (⟨1, 0, 0⟩ : Vec3 ℚ)).normal w = M'.normal w := by
        intro w hw
        apply Mfield_normal_eq_of_cell
        have h1 := M_loop_cell _ _ _ _ _ _ (workOf_nodup _ _ _) hM w hw
        rw [LLG_cell_rest, Option.some.injEq] at h1
        rw [← h1]
        rcases w with ⟨f, i, j, k⟩
        cases f <;> simp [Mfield.cell, uniformM, Mfield.face, readCell, uniform3]
      simp only [H_loop_mutated]
      rw [H_loop_congr_old _ _ _ _ _ _ hcell]
      rfl

/-- C10, amended: when the step and the mutated step complete they return the
same M, and at every cell of the loop boxes the H of the step is the H of the
mutated step minus `M_new - M_old` (face-normal component); so the two H
values differ at a cell exactly when the face-normal component of M changed
there, whatever `dt`. -/
theorem C10_mutated_H_differs_iff (e : Env R) (tbx tby tbz : Box) (s s' s'' : State R)
    (h : MacroscopicEvolveHMCartesian e tbx tby tbz s = some s')
    (hmut : MacroscopicEvolveHMCartesian_mutated e tbx tby tbz s = some s'') :
    s''.M = s'.M ∧
    ∀ w ∈ workOf tbx tby tbz,
      s'.H.cell w = s''.H.cell w - (s'.M.normal w - s.M.normal w) ∧
      (s'.H.cell w ≠ s''.H.cell w ↔ s'.M.normal w ≠ s.M.normal w) := by
  obtain ⟨hM, hH⟩ := stepInOrder_eq_some e _ _ s s' h
  obtain ⟨hM', hH'⟩ := mutated_eq_some e tbx tby tbz s s'' hmut
  have hMM : s''.M = s'.M := by
    rw [hM] at hM'
    exact (Option.some.inj hM').symm
  refine ⟨hMM, ?_⟩
  intro w hw
  have h1 := H_loop_cell e s.M s'.M (workOf tbx tby tbz) s.H (workOf_nodup tbx tby tbz) w hw
  have h2 := H_loop_cell e s''.M s''.M (workOf tbx tby tbz) s.H (workOf_nodup tbx tby tbz) w hw
  rw [← hH] at h1
  rw [← hH', hMM] at h2
  have heq : s'.H.cell w = s''.H.cell w - (s'.M.normal w - s.M.normal w) := by
    rw [h1, h2]
    ring
  refine ⟨heq, ?_⟩
  rw [heq]
  constructor
  · intro hne hn
    apply hne
    rw [hn, sub_self, sub_zero]
  · intro hne hn
    apply hne
    have : s'.M.normal w - s.M.normal w = 0 := by linarith
    exact sub_eq_zero.1 this

/-- Witness of `C10_mutated_H_differs_iff`: the step and the mutated step on
`kickEnv`, `torqueM`, `H = 0` and the single cell `(0,0,0)`; M turns from
`(0, 1, 0)` to `(3/5, 4/5, 0)`, the step returns `Hx = -3/5`, `Hy = 1/5`, the
mutated step `Hx = Hy = 0`. -/
theorem C10_mutated_H_differs_iff_witness :
    MacroscopicEvolveHMCartesian kickEnv cellBox cellBox cellBox ⟨torqueM, uniformH 0⟩
      = some ⟨kickM_new, kickH_new⟩ ∧
    MacroscopicEvolveHMCartesian_mutated kickEnv cellBox cellBox cellBox ⟨torqueM, uniformH 0⟩
      = some ⟨kickM_new, kickH_mutated⟩ ∧
    ∀ w ∈ workOf cellBox cellBox cellBox,
      kickH_new.cell w = kickH_mutated.cell w - (kickM_new.normal w - torqueM.normal w) ∧
      (kickH_new.cell w ≠ kickH_mutated.cell w ↔ kickM_new.normal w ≠ torqueM.normal w) :=
  ⟨kick_step, kick_step_mutated,
    (C10_mutated_H_differs_iff kickEnv cellBox cellBox cellBox ⟨torqueM, uniformH 0⟩
      ⟨kickM_new, kickH_new⟩ ⟨kickM_new, kickH_mutated⟩ kick_step kick_step_mutated).2⟩

/-! ## C11: the state at rest -/

/-- With zero effective field the three `+=` leave the cell as it is. -/
theorem M_updated_of_H_eff_zero (e : Env R) (H : Hfield R) (M_old M : Mfield R) (w : Work)
    (h : H_eff e H w.face w.i w.j w.k = ⟨0, 0, 0⟩) :
    M_updated e H M_old M w = M.cell w := by
  rcases w with ⟨f, i, j, k⟩
  cases f <;>
  · simp only at h
    simp [M_updated, h, M_xface_update, M_yface_update, M_zface_update, Mfield.cell,
      Mfield.face, readCell]

/-- The policy returns a value of normalized magnitude 1 unchanged when the
tolerance is nonnegative, in every normalization mode. -/
theorem validity_of_norm_one (M_normalization : Int) (tol : R) (htol : 0 ≤ tol) (m : Vec3 R) :
    validity M_normalization tol 1 m = some m := by
  have h1 : ¬ abs ((1 : R) - 1) > tol := by
    rw [sub_self, abs_zero]
    exact not_lt.2 htol
  have h2 : ¬ (1 : R) > 1 + tol := by
    intro h
    linarith
  have h3 : ¬ ((1 : R) > 1 ∧ (1 : R) ≤ 1 + tol) := fun h => lt_irrefl _ h.1
  unfold validity
  split_ifs <;> simp [normalize_one]

/-- A call on a cell at rest stores the cell unchanged. -/
theorem LLG_cell_at_rest (e : Env R) (H : Hfield R) (M : Mfield R) (w : Work)
    (htol : 0 ≤ e.mag_normalized_error)
    (hH : H_eff e H w.face w.i w.j w.k = ⟨0, 0, 0⟩)
    (hmag : e.sqrt ((M.cell w).c0 ^ 2 + (M.cell w).c1 ^ 2 + (M.cell w).c2 ^ 2)
      = mag_Ms_interp e w.face w.i w.j w.k)
    (hMs : mag_Ms_interp e w.face w.i w.j w.k ≠ 0) :
    LLG_cell e H M M w = some (M.cell w) := by
  have hn : M_magnitude_normalized e w.face (M.cell w) w.i w.j w.k = 1 := by
    unfold M_magnitude_normalized
    rw [hmag]
    exact div_self hMs
  simp only [LLG_cell, M_updated_of_H_eff_zero e H M M w hH, hn]
  exact validity_of_norm_one _ _ htol _

/-- When every call stores its cell unchanged, the first loop returns the
field it received. -/
theorem M_loop_fixed (e : Env R) (H : Hfield R) (M : Mfield R) (ws : List Work)
    (h : ∀ w ∈ ws, LLG_cell e H M M w = some (M.cell w)) :
    M_loop e H M ws M = some M := by
  induction ws with
  | nil => rfl
  | cons a ws ih =>
    rw [M_loop_cons, M_kernel_eq, h a (List.mem_cons_self _ _)]
    simp only [Option.map_some', Option.some_bind, Mfield_store_cell_self]
    exact ih (fun w hw => h w (List.mem_cons_of_mem _ hw))

/-- At tolerance `-1/2` every call on the uniform magnetization `(1, 0, 0)` at
rest aborts, in strict mode. -/
theorem LLG_cell_negative_tolerance (H : Hfield ℚ) (w : Work) :
    LLG_cell (restEnv Rat.sqrt 1 (-1 / 2 : ℚ)) H (uniformM ⟨1, 0, 0⟩) (uniformM ⟨1, 0, 0⟩) w
      = none := by
  rcases w with ⟨f, i, j, k⟩
  cases f <;>
  · simp [LLG_cell, validity, normalize, M_magnitude_normalized, mag_Ms_interp, M_updated,
      restEnv, uniformEnv, uniformM, Mfield.face, readCell, uniform3, uniform1, mag_gamma_interp,
      Gil_damp, M_magnitude, H_eff, Face.dir, M_xface_update, M_yface_update, M_zface_update]
    norm_num

/-- C11, as stated, fails: strict mode, tolerance `-1/2`, no bias field, no
coupling, `Ms_interp = 1`, M uniformly `(1, 0, 0)`, one cell. The effective
field is zero and M has magnitude `Ms_interp` on the three faces, and the
step aborts. `Rat.sqrt` is evaluated at `1` only, where it is exact. -/
theorem C11_counterexample :
    (∀ w ∈ workOf cellBox cellBox cellBox,
      H_eff (restEnv Rat.sqrt 1 (-1 / 2 : ℚ)) (uniformH 0) w.face w.i w.j w.k = ⟨0, 0, 0⟩ ∧
      Rat.sqrt (((uniformM (⟨1, 0, 0⟩ : Vec3 ℚ)).cell w).c0 ^ 2
          + ((uniformM (⟨1, 0, 0⟩ : Vec3 ℚ)).cell w).c1 ^ 2
          + ((uniformM (⟨1, 0, 0⟩ : Vec3 ℚ)).cell w).c2 ^ 2)
        = mag_Ms_interp (restEnv Rat.sqrt 1 (-1 / 2 : ℚ)) w.face w.i w.j w.k) ∧
    MacroscopicEvolveHMCartesian (restEnv Rat.sqrt 1 (-1 / 2 : ℚ)) cellBox cellBox cellBox
      ⟨uniformM ⟨1, 0, 0⟩, uniformH 0⟩ = none := by
  refine ⟨?_, ?_⟩
  · intro w _
    rw [uniformM_cell]
    rcases w with ⟨f, i, j, k⟩
    cases f <;>
      simp [H_eff, mag_Ms_interp, restEnv, uniformEnv, uniform1, uniformH, Face.dir]
  · simp only [MacroscopicEvolveHMCartesian, stepInOrder, workOf_cellBox, M_loop_cons,
      M_kernel_eq, LLG_cell_negative_tolerance]
    rfl

/-- C11, amended: if the tolerance is nonnegative and, at every cell of the
loop boxes, the effective field is the zero vector, M has magnitude
`Ms_interp` and `Ms_interp` is not zero, then the step does not abort, it
returns the M it received, and at every cell of the loop boxes H changes by
`(dt/mu0)` times the stencil difference of E. -/
theorem C11_step_at_rest (e : Env R) (tbx tby tbz : Box) (s : State R)
    (htol : 0 ≤ e.mag_normalized_error)
    (hH : ∀ w ∈ workOf tbx tby tbz, H_eff e s.H w.face w.i w.j w.k = ⟨0, 0, 0⟩)
    (hmag : ∀ w ∈ workOf tbx tby tbz,
      e.sqrt ((s.M.cell w).c0 ^ 2 + (s.M.cell w).c1 ^ 2 + (s.M.cell w).c2 ^ 2)
        = mag_Ms_interp e w.face w.i w.j w.k)
    (hMs : ∀ w ∈ workOf tbx tby tbz, mag_Ms_interp e w.face w.i w.j w.k ≠ 0) :
    ∃ s', MacroscopicEvolveHMCartesian e tbx tby tbz s = some s' ∧ s'.M = s.M ∧
      ∀ w ∈ workOf tbx tby tbz, s'.H.cell w = s.H.cell w + e.dt / e.mu0 * curlE e w := by
  have hM : M_loop e s.H s.M (workOf tbx tby tbz) s.M = some s.M :=
    M_loop_fixed e s.H s.M _
      (fun w hw => LLG_cell_at_rest e s.H s.M w htol (hH w hw) (hmag w hw) (hMs w hw))
  refine ⟨⟨s.M, H_loop e s.M s.M (workOf tbx tby tbz) s.H⟩, ?_, rfl, ?_⟩
  · simp only [MacroscopicEvolveHMCartesian, stepInOrder, hM]
  · intro w hw
    rw [H_loop_cell e s.M s.M _ s.H (workOf_nodup tbx tby tbz) w hw, sub_self, sub_zero]

/-- Witness of `C11_step_at_rest`: tolerance `1/10`, strict mode, M uniformly
`(1, 0, 0)`, `Ms_interp = 1`, the eight cells `0 <= i, j, k <= 1`. -/
theorem C11_step_at_rest_witness :
    0 ≤ (restEnv Rat.sqrt 1 (1 / 10 : ℚ)).mag_normalized_error ∧
    ∃ s', MacroscopicEvolveHMCartesian (restEnv Rat.sqrt 1 (1 / 10 : ℚ)) unitBox unitBox unitBox
        ⟨uniformM ⟨1, 0, 0⟩, uniformH 0⟩ = some s' ∧ s'.M = uniformM ⟨1, 0, 0⟩ ∧
      ∀ w ∈ workOf unitBox unitBox unitBox,
        s'.H.cell w = (uniformH (0 : ℚ)).cell w
          + (restEnv Rat.sqrt 1 (1 / 10 : ℚ)).dt / (restEnv Rat.sqrt 1 (1 / 10 : ℚ)).mu0
            * curlE (restEnv Rat.sqrt 1 (1 / 10 : ℚ)) w := by
  have htol : 0 ≤ (restEnv Rat.sqrt 1 (1 / 10 : ℚ)).mag_normalized_error := by
    norm_num [restEnv, uniformEnv]
  refine ⟨htol, C11_step_at_rest (restEnv Rat.sqrt 1 (1 / 10 : ℚ)) unitBox unitBox unitBox
    ⟨uniformM ⟨1, 0, 0⟩, uniformH 0⟩ htol ?_ ?_ ?_⟩
  · intro w _
    rcases w with ⟨f, i, j, k⟩
    cases f <;> simp [H_eff, restEnv, uniformEnv, uniform1, uniformH, Face.dir]
  · intro w _
    rw [uniformM_cell]
    rcases w with ⟨f, i, j, k⟩
    cases f <;> simp [mag_Ms_interp, restEnv, uniformEnv, uniform1, Face.dir]
  · intro w _
    rcases w with ⟨f, i, j, k⟩
    cases f <;> simp [mag_Ms_interp, restEnv, uniformEnv, uniform1, Face.dir]

/-! ## C12: the dispatcher -/

/-- C12: `MacroscopicEvolveHM` stops in the abort "Only yee algorithm is
compatible for H and M updates." if and only if `m_fdtd_algo` is not `Yee`;
at that abort the fields are in the state the call received; and when
`m_fdtd_algo` is `Yee` the call ends as the Cartesian update on the same
input ends. -/
theorem C12_dispatch (Yee m_fdtd_algo : Int) (e : Env R) (tbx tby tbz : Box) (s : State R) :
    ((∃ s', MacroscopicEvolveHM Yee m_fdtd_algo e tbx tby tbz s = Outcome.abortOnlyYee s')
      ↔ m_fdtd_algo ≠ Yee) ∧
    (∀ s', MacroscopicEvolveHM Yee m_fdtd_algo e tbx tby tbz s = Outcome.abortOnlyYee s' →
      s' = s) ∧
    (m_fdtd_algo = Yee →
      MacroscopicEvolveHM Yee m_fdtd_algo e tbx tby tbz s =
        match MacroscopicEvolveHMCartesian e tbx tby tbz s with
        | some s' => Outcome.returned s'
        | none => Outcome.abortInvalidM) := by
  by_cases h : m_fdtd_algo = Yee
  · refine ⟨?_, ?_, ?_⟩
    · constructor
      · rintro ⟨s', hs'⟩
        simp only [MacroscopicEvolveHM, if_pos h] at hs'
        cases hc : MacroscopicEvolveHMCartesian e tbx tby tbz s <;> simp [hc] at hs'
      · intro hne
        exact absurd h hne
    · intro s' hs'
      simp only [MacroscopicEvolveHM, if_pos h] at hs'
      cases hc : MacroscopicEvolveHMCartesian e tbx tby tbz s <;> simp [hc] at hs'
    · intro _
      simp only [MacroscopicEvolveHM, if_pos h]
  · refine ⟨?_, ?_, fun h' => absurd h' h⟩
    · constructor
      · intro _
        exact h
      · intro _
        exact ⟨s, by simp only [MacroscopicEvolveHM, if_neg h]⟩
    · intro s' hs'
      simp only [MacroscopicEvolveHM, if_neg h, Outcome.abortOnlyYee.injEq] at hs'
      exact hs'.symm

/-! ## C13: the partition of a tile between the two kernel calls -/

/-- The buffer a kernel receives is zero wherever it is read. -/
theorem zeroedScratch_storage (d : DepositEnv R) (f : FArrayBox R) (b : Box) :
    (zeroedScratch d f b).storage = fun _ _ _ => 0 := by
  funext i j k
  by_cases h : b.contains i j k <;>
    simp [zeroedScratch, FArrayBox.setVal, FArrayBox.resize, FArrayBox.storage, h]

/-- The fine call of the current kernel runs on zeroed buffers. -/
theorem currentScratchFine_eq (d : DepositEnv R) (tilebox : Box) (P : List (Particle R))
    (np_current lev : Int) (dt : R) (st : CurrentState R) :
    currentScratchFine d tilebox P np_current lev dt st =
      d.warpx_current_deposition (currentArgsFine d tilebox P st.jx.nGrow np_current lev dt)
        (fun _ _ _ => 0) (fun _ _ _ => 0) (fun _ _ _ => 0) := by
  simp only [currentScratchFine, zeroedScratch_storage]

/-- The coarse call of the current kernel runs on zeroed buffers. -/
theorem currentScratchCoarse_eq (d : DepositEnv R) (tilebox : Box) (P : List (Particle R))
    (ngJ np_current np lev : Int) (dt : R) (st : CurrentState R) :
    currentScratchCoarse d tilebox P ngJ np_current np lev dt st =
      d.warpx_current_deposition (currentArgsCoarse d tilebox P ngJ np_current np lev dt)
        (fun _ _ _ => 0) (fun _ _ _ => 0) (fun _ _ _ => 0) := by
  simp only [currentScratchCoarse, zeroedScratch_storage]

/-- The fine call of the charge kernel runs on a zeroed buffer. -/
theorem chargeScratchFine_eq (d : DepositEnv R) (tilebox : Box) (P : List (Particle R))
    (ngRho np_current lev : Int) (f : FArrayBox R) :
    chargeScratchFine d tilebox P ngRho np_current lev f =
      d.warpx_charge_deposition (chargeArgsFine d tilebox P ngRho np_current lev)
        (fun _ _ _ => 0) := by
  simp only [chargeScratchFine, zeroedScratch_storage]

/-- The coarse call of the charge kernel runs on a zeroed buffer. -/
theorem chargeScratchCoarse_eq (d : DepositEnv R) (tilebox : Box) (P : List (Particle R))
    (ngRho np_current np lev : Int) (f : FArrayBox R) :
    chargeScratchCoarse d tilebox P ngRho np_current np lev f =
      d.warpx_charge_deposition (chargeArgsCoarse d tilebox P ngRho np_current np lev)
        (fun _ _ _ => 0) := by
  simp only [chargeScratchCoarse, zeroedScratch_storage]

omit [LinearOrderedField R] in
/-- The two slices of the particle arrays the kernels are passed make up the
tile. -/
theorem take_append_drop_take (P : List (Particle R)) (np_current np : Int)
    (h0 : 0 ≤ np_current) (h1 : np_current ≤ np) (hP : (P.length : Int) = np) :
    P.take np_current.toNat ++ (P.drop np_current.toNat).take (np - np_current).toNat = P := by
  have hlen : (P.drop np_current.toNat).length ≤ (np - np_current).toNat := by
    rw [List.length_drop]
    omega
  rw [List.take_of_length_le hlen, List.take_append_drop]

/-- Among the events of a `DepositCurrent` call, the one that is passed the
particle of index `i`. -/
theorem current_events_filter (i np_current np lev : Int) (hi0 : 0 ≤ i) (hi1 : i < np)
    (h0 : 0 ≤ np_current) (h1 : np_current ≤ np) :
    (([Event.LowerCorner lev, Event.CellSize lev, Event.CellSize (max (lev - 1) 0)]
      ++ (if 0 < np_current then [Event.current_deposition 0 np_current,
          Event.atomicAdd Dest.jx, Event.atomicAdd Dest.jy, Event.atomicAdd Dest.jz] else [])
      ++ (if np_current < np then [Event.RefRatio (lev - 1), Event.LowerCorner (lev - 1),
          Event.current_deposition np_current (np - np_current), Event.atomicAdd Dest.cjx,
          Event.atomicAdd Dest.cjy, Event.atomicAdd Dest.cjz] else [])).filter
        (Event.passes i))
      = [if i < np_current then Event.current_deposition 0 np_current
          else Event.current_deposition np_current (np - np_current)] := by
  by_cases hi : i < np_current
  · have hle : ¬ np_current ≤ i := not_le.2 hi
    by_cases hf : 0 < np_current <;> by_cases hc : np_current < np <;>
      simp [List.filter, Event.passes, hf, hc, hi, hi0, hi1, hle] <;> omega
  · have hle : np_current ≤ i := le_of_not_lt hi
    by_cases hf : 0 < np_current <;> by_cases hc : np_current < np <;>
      simp [List.filter, Event.passes, hf, hc, hi, hi0, hi1, hle] <;> omega

/-- Among the events of a `DepositCharge` call, the one that is passed the
particle of index `i`. -/
theorem charge_events_filter (i np_current np lev : Int) (hi0 : 0 ≤ i) (hi1 : i < np)
    (h0 : 0 ≤ np_current) (h1 : np_current ≤ np) :
    (([Event.LowerCorner lev, Event.CellSize lev, Event.CellSize (max (lev - 1) 0)]
      ++ (if 0 < np_current then [Event.charge_deposition 0 np_current,
          Event.atomicAdd Dest.rhomf] else [])
      ++ (if np_current < np then [Event.RefRatio (lev - 1), Event.LowerCorner (lev - 1),
          Event.charge_deposition np_current (np - np_current),
          Event.atomicAdd Dest.crhomf] else [])).filter (Event.passes i))
      = [if i < np_current then Event.charge_deposition 0 np_current
          else Event.charge_deposition np_current (np - np_current)] := by
  by_cases hi : i < np_current
  · have hle : ¬ np_current ≤ i := not_le.2 hi
    by_cases hf : 0 < np_current <;> by_cases hc : np_current < np <;>
      simp [List.filter, Event.passes, hf, hc, hi, hi0, hi1, hle] <;> omega
  · have hle : np_current ≤ i := le_of_not_lt hi
    by_cases hf : 0 < np_current <;> by_cases hc : np_current < np <;>
      simp [List.filter, Event.passes, hf, hc, hi, hi0, hi1, hle] <;> omega

/-- The trace of a `DepositCurrent` call that returns. -/
theorem DepositCurrent_trace (d : DepositEnv R) (tilebox : Box) (P : List (Particle R))
    (np_current np lev : Int) (dt : R) (st st' : CurrentState R)
    (h : DepositCurrent d tilebox P np_current np lev dt st = some st') :
    st'.trace = st.trace
      ++ ([Event.LowerCorner lev, Event.CellSize lev, Event.CellSize (max (lev - 1) 0)]
      ++ (if 0 < np_current then [Event.current_deposition 0 np_current,
          Event.atomicAdd Dest.jx, Event.atomicAdd Dest.jy, Event.atomicAdd Dest.jz] else [])
      ++ (if np_current < np then [Event.RefRatio (lev - 1), Event.LowerCorner (lev - 1),
          Event.current_deposition np_current (np - np_current), Event.atomicAdd Dest.cjx,
          Event.atomicAdd Dest.cjy, Event.atomicAdd Dest.cjz] else [])) := by
  unfold DepositCurrent at h
  by_cases hf : 0 < np_current <;> by_cases hc : np_current < np
  · simp only [gt_iff_lt, hf, hc, if_true, DepositCurrent_coarse, DepositCurrent_fine] at h
    split at h
    · cases h
      simp [hf, hc]
    · cases h
  · simp only [gt_iff_lt, hf, hc, if_true, if_false, DepositCurrent_fine] at h
    cases h
    simp [hf, hc]
  · simp only [gt_iff_lt, hf, hc, if_true, if_false, DepositCurrent_coarse] at h
    split at h
    · cases h
      simp [hf, hc]
    · cases h
  · simp only [gt_iff_lt, hf, hc, if_false] at h
    cases h
    simp [hf, hc]

/-- A `DepositCurrent` call returns when the coarse fields it dereferences
are present. -/
theorem DepositCurrent_isSome (d : DepositEnv R) (tilebox : Box) (P : List (Particle R))
    (np_current np lev : Int) (dt : R) (st : CurrentState R)
    (hc : np_current < np → st.cjx.isSome ∧ st.cjy.isSome ∧ st.cjz.isSome) :
    ∃ st', DepositCurrent d tilebox P np_current np lev dt st = some st' := by
  unfold DepositCurrent
  by_cases hlt : np_current < np
  · obtain ⟨hx, hy, hz⟩ := hc hlt
    obtain ⟨cx, hcx⟩ := Option.isSome_iff_exists.1 hx
    obtain ⟨cy, hcy⟩ := Option.isSome_iff_exists.1 hy
    obtain ⟨cz, hcz⟩ := Option.isSome_iff_exists.1 hz
    by_cases hf : 0 < np_current
    · simp [hlt, hf, DepositCurrent_coarse, DepositCurrent_fine, hcx, hcy, hcz]
    · simp [hlt, hf, DepositCurrent_coarse, hcx, hcy, hcz]
  · simp [hlt]

/-- The trace of a per-tile `DepositCharge` call that returns. -/
theorem DepositCharge_trace (d : DepositEnv R) (tilebox : Box) (P : List (Particle R))
    (icomp : Nat) (np_current np lev : Int) (st st' : ChargeState R)
    (h : DepositCharge d tilebox P icomp np_current np lev st = some st') :
    st'.trace = st.trace
      ++ ([Event.LowerCorner lev, Event.CellSize lev, Event.CellSize (max (lev - 1) 0)]
      ++ (if 0 < np_current then [Event.charge_deposition 0 np_current,
          Event.atomicAdd Dest.rhomf] else [])
      ++ (if np_current < np then [Event.RefRatio (lev - 1), Event.LowerCorner (lev - 1),
          Event.charge_deposition np_current (np - np_current),
          Event.atomicAdd Dest.crhomf] else [])) := by
  unfold DepositCharge at h
  cases hr : st.rhomf with
  | none => simp [hr] at h
  | some rhomf =>
    simp only [hr] at h
    by_cases hf : 0 < np_current <;> by_cases hc : np_current < np
    · simp only [gt_iff_lt, hf, hc, if_true, DepositCharge_coarse, DepositCharge_fine] at h
      split at h
      · cases h
        simp [hf, hc]
      · cases h
    · simp only [gt_iff_lt, hf, hc, if_true, if_false, DepositCharge_fine] at h
      cases h
      simp [hf, hc]
    · simp only [gt_iff_lt, hf, hc, if_true, if_false, DepositCharge_coarse] at h
      split at h
      · cases h
        simp [hf, hc]
      · cases h
    · simp only [gt_iff_lt, hf, hc, if_false] at h
      cases h
      simp [hf, hc]

/-- A per-tile `DepositCharge` call returns when the fields it dereferences
are present. -/
theorem DepositCharge_isSome (d : DepositEnv R) (tilebox : Box) (P : List (Particle R))
    (icomp : Nat) (np_current np lev : Int) (st : ChargeState R)
    (hr : st.rhomf.isSome) (hc : np_current < np → st.crhomf.isSome) :
    ∃ st', DepositCharge d tilebox P icomp np_current np lev st = some st' := by
  obtain ⟨rhomf, hrm⟩ := Option.isSome_iff_exists.1 hr
  unfold DepositCharge
  by_cases hlt : np_current < np
  · obtain ⟨c, hcr⟩ := Option.isSome_iff_exists.1 (hc hlt)
    by_cases hf : 0 < np_current
    · simp [hrm, hlt, hf, DepositCharge_coarse, DepositCharge_fine, hcr]
    · simp [hrm, hlt, hf, DepositCharge_coarse, hcr]
  · simp [hrm, hlt]

/-- The fields after a `DepositCurrent` call that returns: `jx`, `jy`, `jz` get
the output of the fine kernel call (if it is made) and nothing else, and
`cjx`, `cjy`, `cjz` the output of the coarse kernel call (if it is made) and
nothing else, each kernel run on zeroed buffers. -/
theorem DepositCurrent_fields (d : DepositEnv R) (tilebox : Box) (P : List (Particle R))
    (np_current np lev : Int) (dt : R) (st st' : CurrentState R)
    (h : DepositCurrent d tilebox P np_current np lev dt st = some st') :
    st'.jx = (if 0 < np_current then st.jx.withFab (atomicAdd st.jx.fab
        (d.warpx_current_deposition (currentArgsFine d tilebox P st.jx.nGrow np_current lev dt)
          (fun _ _ _ => 0) (fun _ _ _ => 0) (fun _ _ _ => 0)).1
        (currentBoxes d tilebox st.jx.nGrow).1 0) else st.jx) ∧
    st'.jy = (if 0 < np_current then st.jy.withFab (atomicAdd st.jy.fab
        (d.warpx_current_deposition (currentArgsFine d tilebox P st.jx.nGrow np_current lev dt)
          (fun _ _ _ => 0) (fun _ _ _ => 0) (fun _ _ _ => 0)).2.1
        (currentBoxes d tilebox st.jx.nGrow).2.1 0) else st.jy) ∧
    st'.jz = (if 0 < np_current then st.jz.withFab (atomicAdd st.jz.fab
        (d.warpx_current_deposition (currentArgsFine d tilebox P st.jx.nGrow np_current lev dt)
          (fun _ _ _ => 0) (fun _ _ _ => 0) (fun _ _ _ => 0)).2.2
        (currentBoxes d tilebox st.jx.nGrow).2.2 0) else st.jz) ∧
    st'.cjx = (if np_current < np then st.cjx.map (fun c => c.withFab (atomicAdd c.fab
        (d.warpx_current_deposition
          (currentArgsCoarse d tilebox P st.jx.nGrow np_current np lev dt)
          (fun _ _ _ => 0) (fun _ _ _ => 0) (fun _ _ _ => 0)).1
        (currentBoxes d (d.coarsen tilebox (d.RefRatio (lev - 1))) st.jx.nGrow).1 0))
      else st.cjx) ∧
    st'.cjy = (if np_current < np then st.cjy.map (fun c => c.withFab (atomicAdd c.fab
        (d.warpx_current_deposition
          (currentArgsCoarse d tilebox P st.jx.nGrow np_current np lev dt)
          (fun _ _ _ => 0) (fun _ _ _ => 0) (fun _ _ _ => 0)).2.1
        (currentBoxes d (d.coarsen tilebox (d.RefRatio (lev - 1))) st.jx.nGrow).2.1 0))
      else st.cjy) ∧
    st'.cjz = (if np_current < np then st.cjz.map (fun c => c.withFab (atomicAdd c.fab
        (d.warpx_current_deposition
          (currentArgsCoarse d tilebox P st.jx.nGrow np_current np lev dt)
          (fun _ _ _ => 0) (fun _ _ _ => 0) (fun _ _ _ => 0)).2.2
        (currentBoxes d (d.coarsen tilebox (d.RefRatio (lev - 1))) st.jx.nGrow).2.2 0))
      else st.cjz) := by
  unfold DepositCurrent at h
  by_cases hf : 0 < np_current <;> by_cases hc : np_current < np
  · simp only [gt_iff_lt, hf, hc, if_true, DepositCurrent_coarse, DepositCurrent_fine] at h
    split at h
    · rename_i cx cy cz hx hy hz
      cases h
      simp only [hf, hc, if_true, hx, hy, hz, Option.map_some', currentScratchFine_eq,
        currentScratchCoarse_eq, MultiFab.withFab, and_self]
    · cases h
  · simp only [gt_iff_lt, hf, hc, if_true, if_false, DepositCurrent_fine] at h
    cases h
    simp only [hf, hc, if_true, if_false, currentScratchFine_eq, and_self]
  · simp only [gt_iff_lt, hf, hc, if_true, if_false, DepositCurrent_coarse] at h
    split at h
    · rename_i cx cy cz hx hy hz
      cases h
      simp only [hf, hc, if_true, if_false, hx, hy, hz, Option.map_some',
        currentScratchCoarse_eq, and_self]
    · cases h
  · simp only [gt_iff_lt, hf, hc, if_false] at h
    cases h
    simp only [hf, hc, if_false, and_self]

/-- The fields after a per-tile `DepositCharge` call that returns: `rhomf` gets
the output of the fine kernel call (if it is made) and nothing else, and
`crhomf` the output of the coarse kernel call (if it is made) and nothing
else, each kernel run on a zeroed buffer. -/
theorem DepositCharge_fields (d : DepositEnv R) (tilebox : Box) (P : List (Particle R))
    (icomp : Nat) (np_current np lev : Int) (ct ct' : ChargeState R) (rhomf : MultiFab R)
    (hr : ct.rhomf = some rhomf)
    (h : DepositCharge d tilebox P icomp np_current np lev ct = some ct') :
    ct'.rhomf = (if 0 < np_current then some (rhomf.withFab (atomicAdd rhomf.fab
        (d.warpx_charge_deposition (chargeArgsFine d tilebox P rhomf.nGrow np_current lev)
          (fun _ _ _ => 0))
        (chargeBox d tilebox rhomf.nGrow) icomp)) else some rhomf) ∧
    ct'.crhomf = (if np_current < np then ct.crhomf.map (fun c => c.withFab (atomicAdd c.fab
        (d.warpx_charge_deposition
          (chargeArgsCoarse d tilebox P rhomf.nGrow np_current np lev) (fun _ _ _ => 0))
        (chargeBox d (d.coarsen tilebox (d.RefRatio (lev - 1))) rhomf.nGrow) icomp))
      else ct.crhomf) := by
  unfold DepositCharge at h
  simp only [hr] at h
  by_cases hf : 0 < np_current <;> by_cases hc : np_current < np
  · simp only [gt_iff_lt, hf, hc, if_true, DepositCharge_coarse, DepositCharge_fine] at h
    split at h
    · rename_i c hx
      cases h
      simp only [hf, hc, if_true, hx, Option.map_some', chargeScratchFine_eq,
        chargeScratchCoarse_eq, MultiFab.withFab, and_self]
    · cases h
  · simp only [gt_iff_lt, hf, hc, if_true, if_false, DepositCharge_fine] at h
    cases h
    simp only [hf, hc, if_true, if_false, chargeScratchFine_eq, and_self]
  · simp only [gt_iff_lt, hf, hc, if_true, if_false, DepositCharge_coarse] at h
    split at h
    · rename_i c hx
      cases h
      simp only [hf, hc, if_true, if_false, hx, hr, Option.map_some', chargeScratchCoarse_eq,
        and_self]
    · cases h
  · simp only [gt_iff_lt, hf, hc, if_false] at h
    cases h
    simp only [hf, hc, if_false, hr, and_self]

/-- C13: for `0 <= np_current <= np` on a tile of `np` particles, with the
coarse fields present when `np_current < np` (and `rhomf` present),
`DepositCurrent` and the per-tile `DepositCharge` return; the calls they make
are the three level look-ups, then, if `np_current > 0`, the kernel on the
indices from 0 with count `np_current` followed by the `atomicAdd` into `jx`,
`jy`, `jz` (or `rhomf`), then, if `np_current < np`, the kernel on the indices
from `np_current` with count `np - np_current` followed by the `atomicAdd`
into `cjx`, `cjy`, `cjz` (or `crhomf`); every index `0 <= i < np` is passed to
exactly one kernel call, the first one if `i < np_current` and the second one
otherwise. In the state the call returns, `jx`, `jy`, `jz` (`rhomf`) are the
fields it received with the output of the kernel on the first `np_current`
particles added (unchanged if `np_current = 0`), and `cjx`, `cjy`, `cjz`
(`crhomf`) the fields it received with the output of the kernel on the
remaining `np - np_current` particles added (unchanged if `np_current = np`);
the arguments of the first kernel call do not depend on the particles from
`np_current` on, nor those of the second on the first `np_current`, and the
two slices make up the tile. -/
theorem C13_partition (d : DepositEnv R) (tilebox : Box) (P : List (Particle R)) (icomp : Nat)
    (np_current np lev : Int) (dt : R) (st : CurrentState R) (ct : ChargeState R)
    (h0 : 0 ≤ np_current) (h1 : np_current ≤ np) (hP : (P.length : Int) = np)
    (hc : np_current < np → st.cjx.isSome ∧ st.cjy.isSome ∧ st.cjz.isSome)
    (hr : ct.rhomf.isSome) (hcr : np_current < np → ct.crhomf.isSome) :
    (∃ st' events, DepositCurrent d tilebox P np_current np lev dt st = some st' ∧
      st'.trace = st.trace ++ events ∧
      events = [Event.LowerCorner lev, Event.CellSize lev, Event.CellSize (max (lev - 1) 0)]
        ++ (if 0 < np_current then [Event.current_deposition 0 np_current,
            Event.atomicAdd Dest.jx, Event.atomicAdd Dest.jy, Event.atomicAdd Dest.jz] else [])
        ++ (if np_current < np then [Event.RefRatio (lev - 1), Event.LowerCorner (lev - 1),
            Event.current_deposition np_current (np - np_current), Event.atomicAdd Dest.cjx,
            Event.atomicAdd Dest.cjy, Event.atomicAdd Dest.cjz] else []) ∧
      (∀ i, 0 ≤ i → i < np → events.filter (Event.passes i)
        = [if i < np_current then Event.current_deposition 0 np_current
            else Event.current_deposition np_current (np - np_current)]) ∧
      st'.jx = (if 0 < np_current then st.jx.withFab (atomicAdd st.jx.fab
          (d.warpx_current_deposition
            (currentArgsFine d tilebox P st.jx.nGrow np_current lev dt)
            (fun _ _ _ => 0) (fun _ _ _ => 0) (fun _ _ _ => 0)).1
          (currentBoxes d tilebox st.jx.nGrow).1 0) else st.jx) ∧
      st'.jy = (if 0 < np_current then st.jy.withFab (atomicAdd st.jy.fab
          (d.warpx_current_deposition
            (currentArgsFine d tilebox P st.jx.nGrow np_current lev dt)
            (fun _ _ _ => 0) (fun _ _ _ => 0) (fun _ _ _ => 0)).2.1
          (currentBoxes d tilebox st.jx.nGrow).2.1 0) else st.jy) ∧
      st'.jz = (if 0 < np_current then st.jz.withFab (atomicAdd st.jz.fab
          (d.warpx_current_deposition
            (currentArgsFine d tilebox P st.jx.nGrow np_current lev dt)
            (fun _ _ _ => 0) (fun _ _ _ => 0) (fun _ _ _ => 0)).2.2
          (currentBoxes d tilebox st.jx.nGrow).2.2 0) else st.jz) ∧
      st'.cjx = (if np_current < np then st.cjx.map (fun c => c.withFab (atomicAdd c.fab
          (d.warpx_current_deposition
            (currentArgsCoarse d tilebox P st.jx.nGrow np_current np lev dt)
            (fun _ _ _ => 0) (fun _ _ _ => 0) (fun _ _ _ => 0)).1
          (currentBoxes d (d.coarsen tilebox (d.RefRatio (lev - 1))) st.jx.nGrow).1 0))
        else st.cjx) ∧
      st'.cjy = (if np_current < np then st.cjy.map (fun c => c.withFab (atomicAdd c.fab
          (d.warpx_current_deposition
            (currentArgsCoarse d tilebox P st.jx.nGrow np_current np lev dt)
            (fun _ _ _ => 0) (fun _ _ _ => 0) (fun _ _ _ => 0)).2.1
          (currentBoxes d (d.coarsen tilebox (d.RefRatio (lev - 1))) st.jx.nGrow).2.1 0))
        else st.cjy) ∧
      st'.cjz = (if np_current < np then st.cjz.map (fun c => c.withFab (atomicAdd c.fab
          (d.warpx_current_deposition
            (currentArgsCoarse d tilebox P st.jx.nGrow np_current np lev dt)
            (fun _ _ _ => 0) (fun _ _ _ => 0) (fun _ _ _ => 0)).2.2
          (currentBoxes d (d.coarsen tilebox (d.RefRatio (lev - 1))) st.jx.nGrow).2.2 0))
        else st.cjz)) ∧
    (∃ ct' events, DepositCharge d tilebox P icomp np_current np lev ct = some ct' ∧
      ct'.trace = ct.trace ++ events ∧
      events = [Event.LowerCorner lev, Event.CellSize lev, Event.CellSize (max (lev - 1) 0)]
        ++ (if 0 < np_current then [Event.charge_deposition 0 np_current,
            Event.atomicAdd Dest.rhomf] else [])
        ++ (if np_current < np then [Event.RefRatio (lev - 1), Event.LowerCorner (lev - 1),
            Event.charge_deposition np_current (np - np_current),
            Event.atomicAdd Dest.crhomf] else []) ∧
      (∀ i, 0 ≤ i → i < np → events.filter (Event.passes i)
        = [if i < np_current then Event.charge_deposition 0 np_current
            else Event.charge_deposition np_current (np - np_current)]) ∧
      ∀ rhomf, ct.rhomf = some rhomf →
        ct'.rhomf = (if 0 < np_current then some (rhomf.withFab (atomicAdd rhomf.fab
            (d.warpx_charge_deposition
              (chargeArgsFine d tilebox P rhomf.nGrow np_current lev) (fun _ _ _ => 0))
            (chargeBox d tilebox rhomf.nGrow) icomp)) else some rhomf) ∧
        ct'.crhomf = (if np_current < np then ct.crhomf.map (fun c => c.withFab
            (atomicAdd c.fab
              (d.warpx_charge_deposition
                (chargeArgsCoarse d tilebox P rhomf.nGrow np_current np lev) (fun _ _ _ => 0))
              (chargeBox d (d.coarsen tilebox (d.RefRatio (lev - 1))) rhomf.nGrow) icomp))
          else ct.crhomf)) ∧
    (∀ ng, (currentArgsFine d tilebox P ng np_current lev dt).particles
        = P.take np_current.toNat ∧
      (currentArgsFine d tilebox P ng np_current lev dt).np = np_current ∧
      (currentArgsCoarse d tilebox P ng np_current np lev dt).particles
        = P.drop np_current.toNat ∧
      (currentArgsCoarse d tilebox P ng np_current np lev dt).np = np - np_current ∧
      (chargeArgsFine d tilebox P ng np_current lev).particles = P.take np_current.toNat ∧
      (chargeArgsFine d tilebox P ng np_current lev).np = np_current ∧
      (chargeArgsCoarse d tilebox P ng np_current np lev).particles
        = P.drop np_current.toNat ∧
      (chargeArgsCoarse d tilebox P ng np_current np lev).np = np - np_current) ∧
    (∀ (ng : Int) (Q : List (Particle R)),
      (Q.take np_current.toNat = P.take np_current.toNat →
        currentArgsFine d tilebox Q ng np_current lev dt
          = currentArgsFine d tilebox P ng np_current lev dt ∧
        chargeArgsFine d tilebox Q ng np_current lev
          = chargeArgsFine d tilebox P ng np_current lev) ∧
      (Q.drop np_current.toNat = P.drop np_current.toNat →
        currentArgsCoarse d tilebox Q ng np_current np lev dt
          = currentArgsCoarse d tilebox P ng np_current np lev dt ∧
        chargeArgsCoarse d tilebox Q ng np_current np lev
          = chargeArgsCoarse d tilebox P ng np_current np lev)) ∧
    P.take np_current.toNat ++ P.drop np_current.toNat = P ∧
    ((P.take np_current.toNat).length : Int) = np_current ∧
    ((P.drop np_current.toNat).length : Int) = np - np_current := by
  have hlen : (P.drop np_current.toNat).length ≤ (np - np_current).toNat := by
    rw [List.length_drop]
    omega
  refine ⟨?_, ?_, ?_, ?_, List.take_append_drop _ _, ?_, ?_⟩
  · obtain ⟨st', hst'⟩ := DepositCurrent_isSome d tilebox P np_current np lev dt st hc
    exact ⟨st', _, hst', DepositCurrent_trace d tilebox P np_current np lev dt st st' hst', rfl,
      fun i hi0 hi1 => current_events_filter i np_current np lev hi0 hi1 h0 h1,
      DepositCurrent_fields d tilebox P np_current np lev dt st st' hst'⟩
  · obtain ⟨ct', hct'⟩ := DepositCharge_isSome d tilebox P icomp np_current np lev ct hr hcr
    exact ⟨ct', _, hct', DepositCharge_trace d tilebox P icomp np_current np lev ct ct' hct', rfl,
      fun i hi0 hi1 => charge_events_filter i np_current np lev hi0 hi1 h0 h1,
      fun rhomf hrm =>
        DepositCharge_fields d tilebox P icomp np_current np lev ct ct' rhomf hrm hct'⟩
  · intro ng
    refine ⟨rfl, rfl, ?_, rfl, rfl, rfl, ?_, rfl⟩
    · exact List.take_of_length_le hlen
    · exact List.take_of_length_le hlen
  · intro ng Q
    refine ⟨fun hQ => ?_, fun hQ => ?_⟩
    · simp only [currentArgsFine, chargeArgsFine, hQ, and_self]
    · simp only [currentArgsCoarse, chargeArgsCoarse, hQ, and_self]
  · rw [List.length_take]
    omega
  · rw [List.length_drop]
    omega

/-- Witness of `C13_partition`: the two particles `particleA`, `particleB` on
the tile `unitBox` at level 1, the first one outside the buffer and the second
one inside, coarse fields present. -/
theorem C13_partition_witness :
    (0 : Int) ≤ 1 ∧ (1 : Int) ≤ 2 ∧ (([particleA, particleB].length : Nat) : Int) = 2 ∧
    (∃ st' events, DepositCurrent originEnv unitBox [particleA, particleB] 1 2 1 (1 / 2 : ℚ)
        currentState0 = some st' ∧
      st'.trace = currentState0.trace ++ events ∧
      events = [Event.LowerCorner 1, Event.CellSize 1, Event.CellSize (max (1 - 1) 0)]
        ++ (if (0 : Int) < 1 then [Event.current_deposition 0 1,
            Event.atomicAdd Dest.jx, Event.atomicAdd Dest.jy, Event.atomicAdd Dest.jz] else [])
        ++ (if (1 : Int) < 2 then [Event.RefRatio (1 - 1), Event.LowerCorner (1 - 1),
            Event.current_deposition 1 (2 - 1), Event.atomicAdd Dest.cjx,
            Event.atomicAdd Dest.cjy, Event.atomicAdd Dest.cjz] else []) ∧
      (∀ i, 0 ≤ i → i < 2 → events.filter (Event.passes i)
        = [if i < 1 then Event.current_deposition 0 1
            else Event.current_deposition 1 (2 - 1)]) ∧
      st'.jx = (if (0 : Int) < 1 then currentState0.jx.withFab (atomicAdd currentState0.jx.fab
          (originEnv.warpx_current_deposition
            (currentArgsFine originEnv unitBox [particleA, particleB] currentState0.jx.nGrow 1 1
              (1 / 2 : ℚ))
            (fun _ _ _ => 0) (fun _ _ _ => 0) (fun _ _ _ => 0)).1
          (currentBoxes originEnv unitBox currentState0.jx.nGrow).1 0) else currentState0.jx) ∧
      st'.cjx = (if (1 : Int) < 2 then currentState0.cjx.map (fun c => c.withFab
          (atomicAdd c.fab
            (originEnv.warpx_current_deposition
              (currentArgsCoarse originEnv unitBox [particleA, particleB]
                currentState0.jx.nGrow 1 2 1 (1 / 2 : ℚ))
              (fun _ _ _ => 0) (fun _ _ _ => 0) (fun _ _ _ => 0)).1
            (currentBoxes originEnv (originEnv.coarsen unitBox (originEnv.RefRatio (1 - 1)))
              currentState0.jx.nGrow).1 0))
        else currentState0.cjx)) := by
  have h := C13_partition originEnv unitBox [particleA, particleB] 0 1 2 1 (1 / 2 : ℚ)
    currentState0 chargeState0 (by decide) (by decide) (by simp)
    (fun _ => ⟨rfl, rfl, rfl⟩) rfl (fun _ => rfl)
  obtain ⟨st', ev, h1, h2, h3, h4, h5, _, _, h8, _⟩ := h.1
  exact ⟨by decide, by decide, by simp, st', ev, h1, h2, h3, h4, h5, h8⟩

/-! ## C14: a tile without buffer particles -/

/-- C14: on a tile with `np_current = np`, whatever the coarse fields are
(present or absent), `DepositCurrent` returns, leaves `cjx`, `cjy`, `cjz` as
they were, makes after the three level look-ups only the fine kernel call and
the `atomicAdd` into `jx`, `jy`, `jz` (and these only if `np > 0`), and run
with any other coarse fields it returns the same state with those coarse
fields; likewise the per-tile `DepositCharge` with `rhomf` present and
`crhomf`. -/
theorem C14_coarse_path_no_op (d : DepositEnv R) (tilebox : Box) (P : List (Particle R))
    (icomp : Nat) (np lev : Int) (dt : R) (st : CurrentState R) (ct : ChargeState R)
    (rhomf : MultiFab R) (c1 c2 c3 c4 : Option (MultiFab R)) :
    (∃ st', DepositCurrent d tilebox P np np lev dt st = some st' ∧
      st'.cjx = st.cjx ∧ st'.cjy = st.cjy ∧ st'.cjz = st.cjz ∧
      st'.trace = st.trace
        ++ [Event.LowerCorner lev, Event.CellSize lev, Event.CellSize (max (lev - 1) 0)]
        ++ (if 0 < np then [Event.current_deposition 0 np, Event.atomicAdd Dest.jx,
            Event.atomicAdd Dest.jy, Event.atomicAdd Dest.jz] else []) ∧
      DepositCurrent d tilebox P np np lev dt { st with cjx := c1, cjy := c2, cjz := c3 }
        = some { st' with cjx := c1, cjy := c2, cjz := c3 }) ∧
    (∃ ct', DepositCharge d tilebox P icomp np np lev { ct with rhomf := some rhomf }
        = some ct' ∧
      ct'.crhomf = ct.crhomf ∧
      ct'.trace = ct.trace
        ++ [Event.LowerCorner lev, Event.CellSize lev, Event.CellSize (max (lev - 1) 0)]
        ++ (if 0 < np then [Event.charge_deposition 0 np, Event.atomicAdd Dest.rhomf]
            else []) ∧
      DepositCharge d tilebox P icomp np np lev { ct with rhomf := some rhomf, crhomf := c4 }
        = some { ct' with crhomf := c4 }) := by
  constructor
  · by_cases hf : 0 < np
    · refine ⟨DepositCurrent_fine d tilebox P np lev dt { st with trace := st.trace ++
        [Event.LowerCorner lev, Event.CellSize lev, Event.CellSize (max (lev - 1) 0)] },
        ?_, rfl, rfl, rfl, ?_, ?_⟩
      · simp only [DepositCurrent, gt_iff_lt, hf, lt_irrefl, if_true, if_false]
      · simp [DepositCurrent_fine, hf]
      · simp only [DepositCurrent, gt_iff_lt, hf, lt_irrefl, if_true, if_false]
        rfl
    · refine ⟨{ st with trace := st.trace ++
        [Event.LowerCorner lev, Event.CellSize lev, Event.CellSize (max (lev - 1) 0)] },
        ?_, rfl, rfl, rfl, ?_, ?_⟩
      · simp only [DepositCurrent, gt_iff_lt, hf, lt_irrefl, if_false]
      · simp [hf]
      · simp only [DepositCurrent, gt_iff_lt, hf, lt_irrefl, if_false]
  · by_cases hf : 0 < np
    · refine ⟨DepositCharge_fine d tilebox P icomp np lev rhomf
        { ct with rhomf := some rhomf, trace := ct.trace ++
          [Event.LowerCorner lev, Event.CellSize lev, Event.CellSize (max (lev - 1) 0)] },
        ?_, rfl, ?_, ?_⟩
      · simp only [DepositCharge, gt_iff_lt, hf, lt_irrefl, if_true, if_false]
      · simp [DepositCharge_fine, hf]
      · simp only [DepositCharge, gt_iff_lt, hf, lt_irrefl, if_true, if_false]
        rfl
    · refine ⟨{ ct with rhomf := some rhomf, trace := ct.trace ++
          [Event.LowerCorner lev, Event.CellSize lev, Event.CellSize (max (lev - 1) 0)] },
        ?_, rfl, ?_, ?_⟩
      · simp only [DepositCharge, gt_iff_lt, hf, lt_irrefl, if_false]
      · simp [hf]
      · simp only [DepositCharge, gt_iff_lt, hf, lt_irrefl, if_false]

/-! ## C15: the merge into the fields of the current level -/

/-- The fields of the current level after a `DepositCurrent` call with
`np_current > 0` that returns. -/
theorem DepositCurrent_fine_fields (d : DepositEnv R) (tilebox : Box) (P : List (Particle R))
    (np_current np lev : Int) (dt : R) (st st' : CurrentState R) (hf : 0 < np_current)
    (h : DepositCurrent d tilebox P np_current np lev dt st = some st') :
    st'.jx = st.jx.withFab (atomicAdd st.jx.fab
        (currentScratchFine d tilebox P np_current lev dt st).1
        ((d.convert tilebox d.jx_nodal_flag).grow st.jx.nGrow) 0) ∧
    st'.jy = st.jy.withFab (atomicAdd st.jy.fab
        (currentScratchFine d tilebox P np_current lev dt st).2.1
        ((d.convert tilebox d.jy_nodal_flag).grow st.jx.nGrow) 0) ∧
    st'.jz = st.jz.withFab (atomicAdd st.jz.fab
        (currentScratchFine d tilebox P np_current lev dt st).2.2
        ((d.convert tilebox d.jz_nodal_flag).grow st.jx.nGrow) 0) := by
  unfold DepositCurrent at h
  by_cases hc : np_current < np
  · simp only [gt_iff_lt, hf, hc, if_true, DepositCurrent_coarse, DepositCurrent_fine] at h
    split at h
    · cases h
      exact ⟨rfl, rfl, rfl⟩
    · cases h
  · simp only [gt_iff_lt, hf, hc, if_true, if_false, DepositCurrent_fine] at h
    cases h
    exact ⟨rfl, rfl, rfl⟩

/-- C15: after `DepositCurrent` with `np_current > 0`, under the assumption
the code states at line 218 (`jx`, `jy`, `jz` have the same number of guard
cells) and with the coarse fields present when `np_current < np`, the call
returns and each of `jx`, `jy`, `jz` holds, on component 0 at every cell of the
tile box converted to its staggering and grown by its ghost-cell count, its
previous value plus the value the fine kernel call left in the scratch buffer
at that cell, and its previous value everywhere else; ghost-cell count and
valid box are unchanged. -/
theorem C15_merge_additive_local (d : DepositEnv R) (tilebox : Box) (P : List (Particle R))
    (np_current np lev : Int) (dt : R) (st : CurrentState R) (hf : 0 < np_current)
    (hg : st.jy.nGrow = st.jx.nGrow ∧ st.jz.nGrow = st.jx.nGrow)
    (hc : np_current < np → st.cjx.isSome ∧ st.cjy.isSome ∧ st.cjz.isSome) :
    ∃ st', DepositCurrent d tilebox P np_current np lev dt st = some st' ∧
      (∀ i j k n, st'.jx.fab i j k n =
        if ((d.convert tilebox d.jx_nodal_flag).grow st.jx.nGrow).contains i j k ∧ n = 0
        then st.jx.fab i j k n + (currentScratchFine d tilebox P np_current lev dt st).1 i j k
        else st.jx.fab i j k n) ∧
      (∀ i j k n, st'.jy.fab i j k n =
        if ((d.convert tilebox d.jy_nodal_flag).grow st.jy.nGrow).contains i j k ∧ n = 0
        then st.jy.fab i j k n + (currentScratchFine d tilebox P np_current lev dt st).2.1 i j k
        else st.jy.fab i j k n) ∧
      (∀ i j k n, st'.jz.fab i j k n =
        if ((d.convert tilebox d.jz_nodal_flag).grow st.jz.nGrow).contains i j k ∧ n = 0
        then st.jz.fab i j k n + (currentScratchFine d tilebox P np_current lev dt st).2.2 i j k
        else st.jz.fab i j k n) ∧
      (st'.jx.nGrow = st.jx.nGrow ∧ st'.jy.nGrow = st.jy.nGrow ∧ st'.jz.nGrow = st.jz.nGrow) ∧
      (st'.jx.validbox = st.jx.validbox ∧ st'.jy.validbox = st.jy.validbox ∧
        st'.jz.validbox = st.jz.validbox) ∧
      (np_current = np →
        st'.local_jx = ⟨(d.convert tilebox d.jx_nodal_flag).grow st.jx.nGrow,
          (currentScratchFine d tilebox P np_current lev dt st).1⟩ ∧
        st'.local_jy = ⟨(d.convert tilebox d.jy_nodal_flag).grow st.jy.nGrow,
          (currentScratchFine d tilebox P np_current lev dt st).2.1⟩ ∧
        st'.local_jz = ⟨(d.convert tilebox d.jz_nodal_flag).grow st.jz.nGrow,
          (currentScratchFine d tilebox P np_current lev dt st).2.2⟩) := by
  obtain ⟨st', hst'⟩ := DepositCurrent_isSome d tilebox P np_current np lev dt st hc
  obtain ⟨hx, hy, hz⟩ := DepositCurrent_fine_fields d tilebox P np_current np lev dt st st' hf hst'
  refine ⟨st', hst', ?_, ?_, ?_, ?_, ?_, ?_⟩
  · intro i j k n
    rw [hx]
    rfl
  · intro i j k n
    rw [hy, hg.1]
    rfl
  · intro i j k n
    rw [hz, hg.2]
    rfl
  · rw [hx, hy, hz]
    exact ⟨rfl, rfl, rfl⟩
  · rw [hx, hy, hz]
    exact ⟨rfl, rfl, rfl⟩
  · intro hnp
    have hlt : ¬ np_current < np := by omega
    simp only [DepositCurrent, gt_iff_lt, hf, hlt, if_true, if_false, DepositCurrent_fine,
      Option.some.injEq] at hst'
    subst hst'
    rw [hg.1, hg.2]
    exact ⟨rfl, rfl, rfl⟩

/-- Witness of `C15_merge_additive_local`: the particle `particleA` alone on
the tile `unitBox`, outside the buffer. -/
theorem C15_merge_additive_local_witness :
    ∃ st', DepositCurrent originEnv unitBox [particleA] 1 1 0 (1 / 2 : ℚ) currentState0
        = some st' ∧
      (∀ i j k n, st'.jx.fab i j k n =
        if ((originEnv.convert unitBox originEnv.jx_nodal_flag).grow
            currentState0.jx.nGrow).contains i j k ∧ n = 0
        then currentState0.jx.fab i j k n
          + (currentScratchFine originEnv unitBox [particleA] 1 0 (1 / 2 : ℚ) currentState0).1 i j k
        else currentState0.jx.fab i j k n) :=
  let ⟨st', h, hx, _⟩ := C15_merge_additive_local originEnv unitBox [particleA] 1 1 0
    (1 / 2 : ℚ) currentState0 (by decide) ⟨rfl, rfl⟩ (fun h => absurd h (by decide))
  ⟨st', h, hx⟩

/-! ## C16: the scratch buffers are zeroed -/

/-- C16: the buffer a kernel call receives has the resized box and is zero at
every cell of it; so each of the four kernel calls is the kernel on zeroed
buffers, and `DepositCurrent` and the per-tile `DepositCharge`, and their
coarse blocks alone, started with any other content of the scratch buffers,
end the same way and leave the same fields. -/
theorem C16_scratch_zeroed (d : DepositEnv R) (tilebox : Box) (P : List (Particle R))
    (icomp : Nat) (np_current np lev : Int) (dt : R) (st : CurrentState R) (ct : ChargeState R)
    (f a1 a2 a3 a4 : FArrayBox R) (b : Box) :
    ((zeroedScratch d f b).box = b ∧
      ∀ i j k, b.contains i j k → (zeroedScratch d f b).data i j k = 0) ∧
    (currentScratchFine d tilebox P np_current lev dt st =
        d.warpx_current_deposition (currentArgsFine d tilebox P st.jx.nGrow np_current lev dt)
          (fun _ _ _ => 0) (fun _ _ _ => 0) (fun _ _ _ => 0) ∧
      currentScratchCoarse d tilebox P st.jx.nGrow np_current np lev dt st =
        d.warpx_current_deposition
          (currentArgsCoarse d tilebox P st.jx.nGrow np_current np lev dt)
          (fun _ _ _ => 0) (fun _ _ _ => 0) (fun _ _ _ => 0) ∧
      (∀ ngRho, chargeScratchFine d tilebox P ngRho np_current lev ct.local_rho =
        d.warpx_charge_deposition (chargeArgsFine d tilebox P ngRho np_current lev)
          (fun _ _ _ => 0)) ∧
      (∀ ngRho, chargeScratchCoarse d tilebox P ngRho np_current np lev ct.local_rho =
        d.warpx_charge_deposition (chargeArgsCoarse d tilebox P ngRho np_current np lev)
          (fun _ _ _ => 0))) ∧
    ((DepositCurrent d tilebox P np_current np lev dt
        { st with local_jx := a1, local_jy := a2, local_jz := a3 }).map CurrentState.dest
      = (DepositCurrent d tilebox P np_current np lev dt st).map CurrentState.dest ∧
      (DepositCurrent_coarse d tilebox P np_current np lev dt
        { st with local_jx := a1, local_jy := a2, local_jz := a3 }).map CurrentState.dest
      = (DepositCurrent_coarse d tilebox P np_current np lev dt st).map CurrentState.dest) ∧
    ((DepositCharge d tilebox P icomp np_current np lev { ct with local_rho := a4 }).map
        ChargeState.dest
      = (DepositCharge d tilebox P icomp np_current np lev ct).map ChargeState.dest ∧
      ∀ ngRho, (DepositCharge_coarse d tilebox P icomp ngRho np_current np lev
        { ct with local_rho := a4 }).map ChargeState.dest
      = (DepositCharge_coarse d tilebox P icomp ngRho np_current np lev ct).map
        ChargeState.dest) := by
  have hcoarse : ∀ (s : CurrentState R) (b1 b2 b3 : FArrayBox R),
      (DepositCurrent_coarse d tilebox P np_current np lev dt
        { s with local_jx := b1, local_jy := b2, local_jz := b3 }).map CurrentState.dest
      = (DepositCurrent_coarse d tilebox P np_current np lev dt s).map CurrentState.dest := by
    intro s b1 b2 b3
    simp only [DepositCurrent_coarse, currentScratchCoarse_eq]
  have hccoarse : ∀ (s : ChargeState R) (b1 : FArrayBox R) (ngRho : Int),
      (DepositCharge_coarse d tilebox P icomp ngRho np_current np lev
        { s with local_rho := b1 }).map ChargeState.dest
      = (DepositCharge_coarse d tilebox P icomp ngRho np_current np lev s).map
        ChargeState.dest := by
    intro s b1 ngRho
    simp only [DepositCharge_coarse, chargeScratchCoarse_eq]
  refine ⟨⟨rfl, ?_⟩, ⟨currentScratchFine_eq _ _ _ _ _ _ _, currentScratchCoarse_eq _ _ _ _ _ _ _ _ _,
    fun ngRho => chargeScratchFine_eq _ _ _ _ _ _ _,
    fun ngRho => chargeScratchCoarse_eq _ _ _ _ _ _ _ _⟩, ⟨?_, hcoarse st a1 a2 a3⟩,
    ⟨?_, fun ngRho => hccoarse ct a4 ngRho⟩⟩
  · intro i j k h
    simp [zeroedScratch, FArrayBox.setVal, h]
  · unfold DepositCurrent
    by_cases hf : 0 < np_current <;> by_cases hc : np_current < np
    · simp only [gt_iff_lt, hf, hc, if_true]
      simp only [DepositCurrent_coarse, DepositCurrent_fine, currentScratchCoarse_eq,
        currentScratchFine_eq]
    · simp only [gt_iff_lt, hf, hc, if_true, if_false, DepositCurrent_fine,
        currentScratchFine_eq]
    · simp only [gt_iff_lt, hf, hc, if_true, if_false]
      exact hcoarse { st with trace := st.trace ++
        [Event.LowerCorner lev, Event.CellSize lev, Event.CellSize (max (lev - 1) 0)] } a1 a2 a3
    · simp only [gt_iff_lt, hf, hc, if_false]
      simp [CurrentState.dest]
  · unfold DepositCharge
    rcases hr : ct.rhomf with _ | rhomf
    · simp
    · by_cases hf : 0 < np_current <;> by_cases hc : np_current < np
      · simp only [gt_iff_lt, hf, hc, if_true]
        simp only [DepositCharge_coarse, DepositCharge_fine, chargeScratchCoarse_eq,
          chargeScratchFine_eq]
      · simp only [gt_iff_lt, hf, hc, if_true, if_false, DepositCharge_fine,
          chargeScratchFine_eq]
      · simp only [gt_iff_lt, hf, hc, if_true, if_false]
        exact hccoarse { ct with rhomf := some rhomf, trace := ct.trace ++
          [Event.LowerCorner lev, Event.CellSize lev, Event.CellSize (max (lev - 1) 0)] } a4 _
      · simp only [gt_iff_lt, hf, hc, if_false]
        simp [ChargeState.dest]

/-! ## C17: additivity over particles -/

/-- Two merges on the same box are the merge of the sum. -/
theorem atomicAdd_atomicAdd (a : Array4 R) (o1 o2 o12 : Array3 R) (b : Box) (n : Nat)
    (h : ∀ i j k, o12 i j k = o1 i j k + o2 i j k) :
    atomicAdd (atomicAdd a o1 b n) o2 b n = atomicAdd a o12 b n := by
  funext i j k m
  simp only [atomicAdd]
  split_ifs
  · rw [h, add_assoc]
  · rfl

omit [LinearOrderedField R] in
/-- The arguments of a fine current call on a whole tile, as an update of the
arguments for the empty tile. -/
theorem currentArgsFine_length (d : DepositEnv R) (tilebox : Box) (P : List (Particle R))
    (ngJ lev : Int) (dt : R) :
    currentArgsFine d tilebox P ngJ (P.length : Int) lev dt =
      { currentArgsFine d tilebox [] ngJ 0 lev dt with
        np := (P.length : Int), particles := P } := by
  simp [currentArgsFine]

omit [LinearOrderedField R] in
/-- The arguments of a coarse current call on a whole tile, as an update of
the arguments for the empty tile. -/
theorem currentArgsCoarse_length (d : DepositEnv R) (tilebox : Box) (P : List (Particle R))
    (ngJ lev : Int) (dt : R) :
    currentArgsCoarse d tilebox P ngJ 0 (P.length : Int) lev dt =
      { currentArgsCoarse d tilebox [] ngJ 0 0 lev dt with
        np := (P.length : Int), particles := P } := by
  simp [currentArgsCoarse]

omit [LinearOrderedField R] in
/-- The arguments of a fine charge call on a whole tile, as an update of the
arguments for the empty tile. -/
theorem chargeArgsFine_length (d : DepositEnv R) (tilebox : Box) (P : List (Particle R))
    (ngRho lev : Int) :
    chargeArgsFine d tilebox P ngRho (P.length : Int) lev =
      { chargeArgsFine d tilebox [] ngRho 0 lev with
        np := (P.length : Int), particles := P } := by
  simp [chargeArgsFine]

omit [LinearOrderedField R] in
/-- The arguments of a coarse charge call on a whole tile, as an update of the
arguments for the empty tile. -/
theorem chargeArgsCoarse_length (d : DepositEnv R) (tilebox : Box) (P : List (Particle R))
    (ngRho lev : Int) :
    chargeArgsCoarse d tilebox P ngRho 0 (P.length : Int) lev =
      { chargeArgsCoarse d tilebox [] ngRho 0 0 lev with
        np := (P.length : Int), particles := P } := by
  simp [chargeArgsCoarse]

/-- For an additive kernel, the fine current call on two particles leaves the
sum of what the calls on each leave. -/
theorem currentScratchFine_pair (d : DepositEnv R) (hd : d.CurrentAdditive) (tilebox : Box)
    (p1 p2 : Particle R) (ngJ lev : Int) (dt : R) (i j k : Int) :
    (d.warpx_current_deposition (currentArgsFine d tilebox [p1, p2] ngJ 2 lev dt)
        (fun _ _ _ => 0) (fun _ _ _ => 0) (fun _ _ _ => 0)).1 i j k =
      (d.warpx_current_deposition (currentArgsFine d tilebox [p1] ngJ 1 lev dt)
        (fun _ _ _ => 0) (fun _ _ _ => 0) (fun _ _ _ => 0)).1 i j k
      + (d.warpx_current_deposition (currentArgsFine d tilebox [p2] ngJ 1 lev dt)
        (fun _ _ _ => 0) (fun _ _ _ => 0) (fun _ _ _ => 0)).1 i j k ∧
    (d.warpx_current_deposition (currentArgsFine d tilebox [p1, p2] ngJ 2 lev dt)
        (fun _ _ _ => 0) (fun _ _ _ => 0) (fun _ _ _ => 0)).2.1 i j k =
      (d.warpx_current_deposition (currentArgsFine d tilebox [p1] ngJ 1 lev dt)
        (fun _ _ _ => 0) (fun _ _ _ => 0) (fun _ _ _ => 0)).2.1 i j k
      + (d.warpx_current_deposition (currentArgsFine d tilebox [p2] ngJ 1 lev dt)
        (fun _ _ _ => 0) (fun _ _ _ => 0) (fun _ _ _ => 0)).2.1 i j k ∧
    (d.warpx_current_deposition (currentArgsFine d tilebox [p1, p2] ngJ 2 lev dt)
        (fun _ _ _ => 0) (fun _ _ _ => 0) (fun _ _ _ => 0)).2.2 i j k =
      (d.warpx_current_deposition (currentArgsFine d tilebox [p1] ngJ 1 lev dt)
        (fun _ _ _ => 0) (fun _ _ _ => 0) (fun _ _ _ => 0)).2.2 i j k
      + (d.warpx_current_deposition (currentArgsFine d tilebox [p2] ngJ 1 lev dt)
        (fun _ _ _ => 0) (fun _ _ _ => 0) (fun _ _ _ => 0)).2.2 i j k := by
  have e12 := currentArgsFine_length d tilebox [p1, p2] ngJ lev dt
  have e1 := currentArgsFine_length d tilebox [p1] ngJ lev dt
  have e2 := currentArgsFine_length d tilebox [p2] ngJ lev dt
  have h := hd (currentArgsFine d tilebox [] ngJ 0 lev dt) [p1] [p2] i j k
  rw [← e1, ← e2] at h
  have e12' : currentArgsFine d tilebox [p1, p2] ngJ 2 lev dt =
      { currentArgsFine d tilebox [] ngJ 0 lev dt with
        np := (([p1] ++ [p2]).length : Int), particles := [p1] ++ [p2] } := e12
  rw [e12']
  exact h

/-- For an additive kernel, the coarse current call on two particles leaves
the sum of what the calls on each leave. -/
theorem currentScratchCoarse_pair (d : DepositEnv R) (hd : d.CurrentAdditive) (tilebox : Box)
    (p1 p2 : Particle R) (ngJ lev : Int) (dt : R) (i j k : Int) :
    (d.warpx_current_deposition (currentArgsCoarse d tilebox [p1, p2] ngJ 0 2 lev dt)
        (fun _ _ _ => 0) (fun _ _ _ => 0) (fun _ _ _ => 0)).1 i j k =
      (d.warpx_current_deposition (currentArgsCoarse d tilebox [p1] ngJ 0 1 lev dt)
        (fun _ _ _ => 0) (fun _ _ _ => 0) (fun _ _ _ => 0)).1 i j k
      + (d.warpx_current_deposition (currentArgsCoarse d tilebox [p2] ngJ 0 1 lev dt)
        (fun _ _ _ => 0) (fun _ _ _ => 0) (fun _ _ _ => 0)).1 i j k ∧
    (d.warpx_current_deposition (currentArgsCoarse d tilebox [p1, p2] ngJ 0 2 lev dt)
        (fun _ _ _ => 0) (fun _ _ _ => 0) (fun _ _ _ => 0)).2.1 i j k =
      (d.warpx_current_deposition (currentArgsCoarse d tilebox [p1] ngJ 0 1 lev dt)
        (fun _ _ _ => 0) (fun _ _ _ => 0) (fun _ _ _ => 0)).2.1 i j k
      + (d.warpx_current_deposition (currentArgsCoarse d tilebox [p2] ngJ 0 1 lev dt)
        (fun _ _ _ => 0) (fun _ _ _ => 0) (fun _ _ _ => 0)).2.1 i j k ∧
    (d.warpx_current_deposition (currentArgsCoarse d tilebox [p1, p2] ngJ 0 2 lev dt)
        (fun _ _ _ => 0) (fun _ _ _ => 0) (fun _ _ _ => 0)).2.2 i j k =
      (d.warpx_current_deposition (currentArgsCoarse d tilebox [p1] ngJ 0 1 lev dt)
        (fun _ _ _ => 0) (fun _ _ _ => 0) (fun _ _ _ => 0)).2.2 i j k
      + (d.warpx_current_deposition (currentArgsCoarse d tilebox [p2] ngJ 0 1 lev dt)
        (fun _ _ _ => 0) (fun _ _ _ => 0) (fun _ _ _ => 0)).2.2 i j k := by
  have e12 := currentArgsCoarse_length d tilebox [p1, p2] ngJ lev dt
  have e1 := currentArgsCoarse_length d tilebox [p1] ngJ lev dt
  have e2 := currentArgsCoarse_length d tilebox [p2] ngJ lev dt
  have h := hd (currentArgsCoarse d tilebox [] ngJ 0 0 lev dt) [p1] [p2] i j k
  rw [← e1, ← e2] at h
  have e12' : currentArgsCoarse d tilebox [p1, p2] ngJ 0 2 lev dt =
      { currentArgsCoarse d tilebox [] ngJ 0 0 lev dt with
        np := (([p1] ++ [p2]).length : Int), particles := [p1] ++ [p2] } := e12
  rw [e12']
  exact h

/-- For an additive kernel, the fine charge call on two particles leaves the
sum of what the calls on each leave. -/
theorem chargeScratchFine_pair (d : DepositEnv R) (hd : d.ChargeAdditive) (tilebox : Box)
    (p1 p2 : Particle R) (ngRho lev : Int) (f1 f2 f12 : FArrayBox R) (i j k : Int) :
    chargeScratchFine d tilebox [p1, p2] ngRho 2 lev f12 i j k =
      chargeScratchFine d tilebox [p1] ngRho 1 lev f1 i j k
        + chargeScratchFine d tilebox [p2] ngRho 1 lev f2 i j k := by
  have e12 := chargeArgsFine_length d tilebox [p1, p2] ngRho lev
  have e1 := chargeArgsFine_length d tilebox [p1] ngRho lev
  have e2 := chargeArgsFine_length d tilebox [p2] ngRho lev
  have h := hd (chargeArgsFine d tilebox [] ngRho 0 lev) [p1] [p2] i j k
  simp only [chargeScratchFine_eq]
  rw [← e1, ← e2] at h
  have e12' : chargeArgsFine d tilebox [p1, p2] ngRho 2 lev =
      { chargeArgsFine d tilebox [] ngRho 0 lev with
        np := (([p1] ++ [p2]).length : Int), particles := [p1] ++ [p2] } := e12
  rw [e12']
  exact h

/-- For an additive kernel, the coarse charge call on two particles leaves the
sum of what the calls on each leave. -/
theorem chargeScratchCoarse_pair (d : DepositEnv R) (hd : d.ChargeAdditive) (tilebox : Box)
    (p1 p2 : Particle R) (ngRho lev : Int) (f1 f2 f12 : FArrayBox R) (i j k : Int) :
    chargeScratchCoarse d tilebox [p1, p2] ngRho 0 2 lev f12 i j k =
      chargeScratchCoarse d tilebox [p1] ngRho 0 1 lev f1 i j k
        + chargeScratchCoarse d tilebox [p2] ngRho 0 1 lev f2 i j k := by
  have e12 := chargeArgsCoarse_length d tilebox [p1, p2] ngRho lev
  have e1 := chargeArgsCoarse_length d tilebox [p1] ngRho lev
  have e2 := chargeArgsCoarse_length d tilebox [p2] ngRho lev
  have h := hd (chargeArgsCoarse d tilebox [] ngRho 0 0 lev) [p1] [p2] i j k
  simp only [chargeScratchCoarse_eq]
  rw [← e1, ← e2] at h
  have e12' : chargeArgsCoarse d tilebox [p1, p2] ngRho 0 2 lev =
      { chargeArgsCoarse d tilebox [] ngRho 0 0 lev with
        np := (([p1] ++ [p2]).length : Int), particles := [p1] ++ [p2] } := e12
  rw [e12']
  exact h

/-- Two fine blocks of `DepositCurrent` on one particle each leave the fields
one fine block on both particles leaves. -/
theorem DepositCurrent_fine_twice (d : DepositEnv R) (hcur : d.CurrentAdditive) (tilebox : Box)
    (p1 p2 : Particle R) (lev : Int) (dt : R) (s : CurrentState R) (tr : List Event) :
    (DepositCurrent_fine d tilebox [p2] 1 lev dt
        { DepositCurrent_fine d tilebox [p1] 1 lev dt s with trace := tr }).dest
      = (DepositCurrent_fine d tilebox [p1, p2] 2 lev dt s).dest := by
  simp only [CurrentState.dest, DepositCurrent_fine, MultiFab.withFab, Prod.mk.injEq,
    MultiFab.mk.injEq, true_and, and_true, currentScratchFine_eq]
  refine ⟨?_, ?_, ?_⟩
  · apply atomicAdd_atomicAdd
    intro i j k
    exact (currentScratchFine_pair d hcur tilebox p1 p2 _ lev dt i j k).1
  · apply atomicAdd_atomicAdd
    intro i j k
    exact (currentScratchFine_pair d hcur tilebox p1 p2 _ lev dt i j k).2.1
  · apply atomicAdd_atomicAdd
    intro i j k
    exact (currentScratchFine_pair d hcur tilebox p1 p2 _ lev dt i j k).2.2

/-- The coarse block of `DepositCurrent` with the coarse fields present. -/
theorem DepositCurrent_coarse_some (d : DepositEnv R) (tilebox : Box) (P : List (Particle R))
    (np_current np lev : Int) (dt : R) (s : CurrentState R) (cx cy cz : MultiFab R)
    (hx : s.cjx = some cx) (hy : s.cjy = some cy) (hz : s.cjz = some cz) :
    DepositCurrent_coarse d tilebox P np_current np lev dt s = some
      { s with
        local_jx := ⟨(currentBoxes d (d.coarsen tilebox (d.RefRatio (lev - 1))) s.jx.nGrow).1,
          (currentScratchCoarse d tilebox P s.jx.nGrow np_current np lev dt s).1⟩
        local_jy := ⟨(currentBoxes d (d.coarsen tilebox (d.RefRatio (lev - 1))) s.jx.nGrow).2.1,
          (currentScratchCoarse d tilebox P s.jx.nGrow np_current np lev dt s).2.1⟩
        local_jz := ⟨(currentBoxes d (d.coarsen tilebox (d.RefRatio (lev - 1))) s.jx.nGrow).2.2,
          (currentScratchCoarse d tilebox P s.jx.nGrow np_current np lev dt s).2.2⟩
        cjx := some (cx.withFab (atomicAdd cx.fab
          (currentScratchCoarse d tilebox P s.jx.nGrow np_current np lev dt s).1
          (currentBoxes d (d.coarsen tilebox (d.RefRatio (lev - 1))) s.jx.nGrow).1 0))
        cjy := some (cy.withFab (atomicAdd cy.fab
          (currentScratchCoarse d tilebox P s.jx.nGrow np_current np lev dt s).2.1
          (currentBoxes d (d.coarsen tilebox (d.RefRatio (lev - 1))) s.jx.nGrow).2.1 0))
        cjz := some (cz.withFab (atomicAdd cz.fab
          (currentScratchCoarse d tilebox P s.jx.nGrow np_current np lev dt s).2.2
          (currentBoxes d (d.coarsen tilebox (d.RefRatio (lev - 1))) s.jx.nGrow).2.2 0))
        trace := s.trace ++ [Event.RefRatio (lev - 1), Event.LowerCorner (lev - 1),
          Event.current_deposition np_current (np - np_current), Event.atomicAdd Dest.cjx,
          Event.atomicAdd Dest.cjy, Event.atomicAdd Dest.cjz] } := by
  simp only [DepositCurrent_coarse, hx, hy, hz]

/-- The coarse block of the per-tile `DepositCharge` with `crhomf` present. -/
theorem DepositCharge_coarse_some (d : DepositEnv R) (tilebox : Box) (P : List (Particle R))
    (icomp : Nat) (ngRho np_current np lev : Int) (s : ChargeState R) (c : MultiFab R)
    (hc : s.crhomf = some c) :
    DepositCharge_coarse d tilebox P icomp ngRho np_current np lev s = some
      { s with
        local_rho := ⟨chargeBox d (d.coarsen tilebox (d.RefRatio (lev - 1))) ngRho,
          chargeScratchCoarse d tilebox P ngRho np_current np lev s.local_rho⟩
        crhomf := some (c.withFab (atomicAdd c.fab
          (chargeScratchCoarse d tilebox P ngRho np_current np lev s.local_rho)
          (chargeBox d (d.coarsen tilebox (d.RefRatio (lev - 1))) ngRho) icomp))
        trace := s.trace ++ [Event.RefRatio (lev - 1), Event.LowerCorner (lev - 1),
          Event.charge_deposition np_current (np - np_current),
          Event.atomicAdd Dest.crhomf] } := by
  simp only [DepositCharge_coarse, hc]

/-- Two fine blocks of `DepositCharge` on one particle each leave the fields
one fine block on both particles leaves. -/
theorem DepositCharge_fine_twice (d : DepositEnv R) (hch : d.ChargeAdditive) (tilebox : Box)
    (p1 p2 : Particle R) (icomp : Nat) (lev : Int) (rhomf : MultiFab R) (s : ChargeState R)
    (tr : List Event) :
    (DepositCharge_fine d tilebox [p2] icomp 1 lev
        (rhomf.withFab (atomicAdd rhomf.fab
          (chargeScratchFine d tilebox [p1] rhomf.nGrow 1 lev s.local_rho)
          (chargeBox d tilebox rhomf.nGrow) icomp))
        { DepositCharge_fine d tilebox [p1] icomp 1 lev rhomf s with trace := tr }).dest
      = (DepositCharge_fine d tilebox [p1, p2] icomp 2 lev rhomf s).dest := by
  simp only [ChargeState.dest, DepositCharge_fine, MultiFab.withFab, Prod.mk.injEq,
    MultiFab.mk.injEq, true_and, and_true, Option.some.injEq]
  apply atomicAdd_atomicAdd
  intro i j k
  exact chargeScratchFine_pair d hch tilebox p1 p2 _ lev _ _ _ i j k

/-- What the coarse block of `DepositCurrent` returns when the coarse fields
are present. -/
theorem DepositCurrent_coarse_spec (d : DepositEnv R) (tilebox : Box) (P : List (Particle R))
    (np_current np lev : Int) (dt : R) (s : CurrentState R) (cx cy cz : MultiFab R)
    (hx : s.cjx = some cx) (hy : s.cjy = some cy) (hz : s.cjz = some cz) :
    ∃ s', DepositCurrent_coarse d tilebox P np_current np lev dt s = some s' ∧
      s'.jx = s.jx ∧ s'.jy = s.jy ∧ s'.jz = s.jz ∧
      s'.cjx = some (cx.withFab (atomicAdd cx.fab
        (d.warpx_current_deposition
          (currentArgsCoarse d tilebox P s.jx.nGrow np_current np lev dt)
          (fun _ _ _ => 0) (fun _ _ _ => 0) (fun _ _ _ => 0)).1
        (currentBoxes d (d.coarsen tilebox (d.RefRatio (lev - 1))) s.jx.nGrow).1 0)) ∧
      s'.cjy = some (cy.withFab (atomicAdd cy.fab
        (d.warpx_current_deposition
          (currentArgsCoarse d tilebox P s.jx.nGrow np_current np lev dt)
          (fun _ _ _ => 0) (fun _ _ _ => 0) (fun _ _ _ => 0)).2.1
        (currentBoxes d (d.coarsen tilebox (d.RefRatio (lev - 1))) s.jx.nGrow).2.1 0)) ∧
      s'.cjz = some (cz.withFab (atomicAdd cz.fab
        (d.warpx_current_deposition
          (currentArgsCoarse d tilebox P s.jx.nGrow np_current np lev dt)
          (fun _ _ _ => 0) (fun _ _ _ => 0) (fun _ _ _ => 0)).2.2
        (currentBoxes d (d.coarsen tilebox (d.RefRatio (lev - 1))) s.jx.nGrow).2.2 0)) := by
  refine ⟨_, DepositCurrent_coarse_some d tilebox P np_current np lev dt s cx cy cz hx hy hz,
    rfl, rfl, rfl, ?_, ?_, ?_⟩ <;> simp only [currentScratchCoarse_eq]

/-- What the coarse block of the per-tile `DepositCharge` returns when
`crhomf` is present. -/
theorem DepositCharge_coarse_spec (d : DepositEnv R) (tilebox : Box) (P : List (Particle R))
    (icomp : Nat) (ngRho np_current np lev : Int) (s : ChargeState R) (c : MultiFab R)
    (hc : s.crhomf = some c) :
    ∃ s', DepositCharge_coarse d tilebox P icomp ngRho np_current np lev s = some s' ∧
      s'.rhomf = s.rhomf ∧
      s'.crhomf = some (c.withFab (atomicAdd c.fab
        (d.warpx_charge_deposition (chargeArgsCoarse d tilebox P ngRho np_current np lev)
          (fun _ _ _ => 0))
        (chargeBox d (d.coarsen tilebox (d.RefRatio (lev - 1))) ngRho) icomp)) := by
  refine ⟨_, DepositCharge_coarse_some d tilebox P icomp ngRho np_current np lev s c hc,
    rfl, ?_⟩
  simp only [chargeScratchCoarse_eq]

/-- Two coarse blocks of `DepositCurrent` on one particle each leave the
fields one coarse block on both particles leaves. -/
theorem DepositCurrent_coarse_twice (d : DepositEnv R) (hcur : d.CurrentAdditive)
    (tilebox : Box) (p1 p2 : Particle R) (lev : Int) (dt : R) (s : CurrentState R)
    (cx cy cz : MultiFab R) (hx : s.cjx = some cx) (hy : s.cjy = some cy)
    (hz : s.cjz = some cz) (tr : List Event) :
    ∃ s1 s2 s12, DepositCurrent_coarse d tilebox [p1] 0 1 lev dt s = some s1 ∧
      DepositCurrent_coarse d tilebox [p2] 0 1 lev dt { s1 with trace := s1.trace ++ tr }
        = some s2 ∧
      DepositCurrent_coarse d tilebox [p1, p2] 0 2 lev dt s = some s12 ∧
      s2.dest = s12.dest := by
  obtain ⟨s1, e1, a1, a2, a3, a4, a5, a6⟩ :=
    DepositCurrent_coarse_spec d tilebox [p1] 0 1 lev dt s cx cy cz hx hy hz
  obtain ⟨s2, e2, b1, b2, b3, b4, b5, b6⟩ :=
    DepositCurrent_coarse_spec d tilebox [p2] 0 1 lev dt { s1 with trace := s1.trace ++ tr }
      _ _ _ a4 a5 a6
  obtain ⟨s12, e12, c1, c2, c3, c4, c5, c6⟩ :=
    DepositCurrent_coarse_spec d tilebox [p1, p2] 0 2 lev dt s cx cy cz hx hy hz
  refine ⟨s1, s2, s12, e1, e2, e12, ?_⟩
  simp only [a1] at b4 b5 b6
  simp only [CurrentState.dest, b1, b2, b3, b4, b5, b6, c1, c2, c3, c4, c5, c6, a1, a2, a3,
    MultiFab.withFab, Prod.mk.injEq, MultiFab.mk.injEq, true_and, and_true, Option.some.injEq]
  refine ⟨?_, ?_, ?_⟩
  · apply atomicAdd_atomicAdd
    intro i j k
    exact (currentScratchCoarse_pair d hcur tilebox p1 p2 _ lev dt i j k).1
  · apply atomicAdd_atomicAdd
    intro i j k
    exact (currentScratchCoarse_pair d hcur tilebox p1 p2 _ lev dt i j k).2.1
  · apply atomicAdd_atomicAdd
    intro i j k
    exact (currentScratchCoarse_pair d hcur tilebox p1 p2 _ lev dt i j k).2.2

/-- Two coarse blocks of `DepositCharge` on one particle each leave the fields
one coarse block on both particles leaves. -/
theorem DepositCharge_coarse_twice (d : DepositEnv R) (hch : d.ChargeAdditive) (tilebox : Box)
    (p1 p2 : Particle R) (icomp : Nat) (ngRho lev : Int) (s : ChargeState R) (c : MultiFab R)
    (hc : s.crhomf = some c) (tr : List Event) :
    ∃ s1 s2 s12, DepositCharge_coarse d tilebox [p1] icomp ngRho 0 1 lev s = some s1 ∧
      DepositCharge_coarse d tilebox [p2] icomp ngRho 0 1 lev
        { s1 with trace := s1.trace ++ tr } = some s2 ∧
      DepositCharge_coarse d tilebox [p1, p2] icomp ngRho 0 2 lev s = some s12 ∧
      s2.dest = s12.dest ∧ s1.rhomf = s.rhomf := by
  obtain ⟨s1, e1, a1, a2⟩ :=
    DepositCharge_coarse_spec d tilebox [p1] icomp ngRho 0 1 lev s c hc
  obtain ⟨s2, e2, b1, b2⟩ :=
    DepositCharge_coarse_spec d tilebox [p2] icomp ngRho 0 1 lev
      { s1 with trace := s1.trace ++ tr } _ a2
  obtain ⟨s12, e12, c1, c2⟩ :=
    DepositCharge_coarse_spec d tilebox [p1, p2] icomp ngRho 0 2 lev s c hc
  refine ⟨s1, s2, s12, e1, e2, e12, ?_, a1⟩
  simp only [ChargeState.dest, b1, b2, c1, c2, a1,
    MultiFab.withFab, Prod.mk.injEq, MultiFab.mk.injEq, true_and, and_true, Option.some.injEq]
  apply atomicAdd_atomicAdd
  intro i j k
  have h := chargeScratchCoarse_pair d hch tilebox p1 p2 ngRho lev s.local_rho s.local_rho
    s.local_rho i j k
  simp only [chargeScratchCoarse_eq] at h
  exact h

/-- A `DepositCurrent` call on a tile without buffer particles is the fine
block. -/
theorem DepositCurrent_all_fine (d : DepositEnv R) (tilebox : Box) (P : List (Particle R))
    (np lev : Int) (dt : R) (st : CurrentState R) (h : np > 0) :
    DepositCurrent d tilebox P np np lev dt st = some
      (DepositCurrent_fine d tilebox P np lev dt { st with trace := st.trace ++
        [Event.LowerCorner lev, Event.CellSize lev, Event.CellSize (max (lev - 1) 0)] }) := by
  simp only [DepositCurrent, h, lt_irrefl, if_true, if_false]

/-- A per-tile `DepositCharge` call on a tile without buffer particles is the
fine block. -/
theorem DepositCharge_all_fine (d : DepositEnv R) (tilebox : Box) (P : List (Particle R))
    (icomp : Nat) (np lev : Int) (st : ChargeState R) (rhomf : MultiFab R)
    (hr : st.rhomf = some rhomf) (h : np > 0) :
    DepositCharge d tilebox P icomp np np lev st = some
      (DepositCharge_fine d tilebox P icomp np lev rhomf { st with trace := st.trace ++
        [Event.LowerCorner lev, Event.CellSize lev, Event.CellSize (max (lev - 1) 0)] }) := by
  simp only [DepositCharge, hr, h, lt_irrefl, if_true, if_false]

/-- C17: for kernels additive over the particle list, on one tile box,
`DepositCurrent` on the single particle `p1` followed by `DepositCurrent` on
the single particle `p2` leaves the fields it deposits into equal to what one
`DepositCurrent` on the two particles leaves, both when the particles are
outside the buffer (`np_current = np`, fields `jx`, `jy`, `jz`) and when they
are inside it (`np_current = 0`, coarse fields present, fields `cjx`, `cjy`,
`cjz`); likewise the per-tile `DepositCharge` with `rhomf` and `crhomf`. -/
theorem C17_additive_over_particles (d : DepositEnv R) (hcur : d.CurrentAdditive)
    (hch : d.ChargeAdditive) (tilebox : Box) (p1 p2 : Particle R) (icomp : Nat) (lev : Int)
    (dt : R) (st : CurrentState R) (ct : ChargeState R) (rhomf : MultiFab R) :
    (∃ st1 st2 st12,
      DepositCurrent d tilebox [p1] 1 1 lev dt st = some st1 ∧
      DepositCurrent d tilebox [p2] 1 1 lev dt st1 = some st2 ∧
      DepositCurrent d tilebox [p1, p2] 2 2 lev dt st = some st12 ∧
      st2.dest = st12.dest) ∧
    (∀ cjx cjy cjz : MultiFab R, ∃ st1 st2 st12,
      DepositCurrent d tilebox [p1] 0 1 lev dt
        { st with cjx := some cjx, cjy := some cjy, cjz := some cjz } = some st1 ∧
      DepositCurrent d tilebox [p2] 0 1 lev dt st1 = some st2 ∧
      DepositCurrent d tilebox [p1, p2] 0 2 lev dt
        { st with cjx := some cjx, cjy := some cjy, cjz := some cjz } = some st12 ∧
      st2.dest = st12.dest) ∧
    (∃ ct1 ct2 ct12,
      DepositCharge d tilebox [p1] icomp 1 1 lev { ct with rhomf := some rhomf } = some ct1 ∧
      DepositCharge d tilebox [p2] icomp 1 1 lev ct1 = some ct2 ∧
      DepositCharge d tilebox [p1, p2] icomp 2 2 lev { ct with rhomf := some rhomf }
        = some ct12 ∧
      ct2.dest = ct12.dest) ∧
    (∀ crhomf : MultiFab R, ∃ ct1 ct2 ct12,
      DepositCharge d tilebox [p1] icomp 0 1 lev
        { ct with rhomf := some rhomf, crhomf := some crhomf } = some ct1 ∧
      DepositCharge d tilebox [p2] icomp 0 1 lev ct1 = some ct2 ∧
      DepositCharge d tilebox [p1, p2] icomp 0 2 lev
        { ct with rhomf := some rhomf, crhomf := some crhomf } = some ct12 ∧
      ct2.dest = ct12.dest) := by
  have h01 : ¬ (0 : Int) > 0 := by decide
  have h10 : (1 : Int) > 0 := by decide
  have h20 : (2 : Int) > 0 := by decide
  have h11 : ¬ (1 : Int) < 1 := by decide
  have h22 : ¬ (2 : Int) < 2 := by decide
  have h0l1 : (0 : Int) < 1 := by decide
  have h0l2 : (0 : Int) < 2 := by decide
  refine ⟨?_, ?_, ?_, ?_⟩
  · exact ⟨_, _, _, DepositCurrent_all_fine d tilebox [p1] 1 lev dt st h10,
      DepositCurrent_all_fine d tilebox [p2] 1 lev dt _ h10,
      DepositCurrent_all_fine d tilebox [p1, p2] 2 lev dt st h20,
      DepositCurrent_fine_twice d hcur tilebox p1 p2 lev dt _ _⟩
  · intro cjx cjy cjz
    obtain ⟨s1, s2, s12, e1, e2, e12, hd⟩ := DepositCurrent_coarse_twice d hcur tilebox p1 p2
      lev dt { st with cjx := some cjx, cjy := some cjy, cjz := some cjz, trace := st.trace ++
        [Event.LowerCorner lev, Event.CellSize lev, Event.CellSize (max (lev - 1) 0)] }
      cjx cjy cjz rfl rfl rfl
      [Event.LowerCorner lev, Event.CellSize lev, Event.CellSize (max (lev - 1) 0)]
    refine ⟨s1, s2, s12, ?_, ?_, ?_, hd⟩
    · simp only [DepositCurrent, h01, h0l1, if_true, if_false]
      exact e1
    · simp only [DepositCurrent, h01, h0l1, if_true, if_false]
      exact e2
    · simp only [DepositCurrent, h01, h0l2, if_true, if_false]
      exact e12
  · exact ⟨_, _, _, DepositCharge_all_fine d tilebox [p1] icomp 1 lev _ rhomf rfl h10,
      DepositCharge_all_fine d tilebox [p2] icomp 1 lev _ _ rfl h10,
      DepositCharge_all_fine d tilebox [p1, p2] icomp 2 lev _ rhomf rfl h20,
      DepositCharge_fine_twice d hch tilebox p1 p2 icomp lev rhomf _ _⟩
  · intro crhomf
    obtain ⟨s1, s2, s12, e1, e2, e12, hd, hs1⟩ := DepositCharge_coarse_twice d hch tilebox
      p1 p2 icomp rhomf.nGrow lev
      { ct with rhomf := some rhomf, crhomf := some crhomf, trace := ct.trace ++
          [Event.LowerCorner lev, Event.CellSize lev, Event.CellSize (max (lev - 1) 0)] }
      crhomf rfl
      [Event.LowerCorner lev, Event.CellSize lev, Event.CellSize (max (lev - 1) 0)]
    refine ⟨s1, s2, s12, ?_, ?_, ?_, hd⟩
    · simp only [DepositCharge, h01, h0l1, if_true, if_false]
      exact e1
    · have hs1r : s1.rhomf = some rhomf := hs1
      simp only [DepositCharge, hs1r, h01, h0l1, if_true, if_false]
      simp only [hs1r] at e2
      exact e2
    · simp only [DepositCharge, h01, h0l2, if_true, if_false]
      exact e12

/-- The current kernel of `originEnv` is additive over the particle list. -/
theorem originEnv_currentAdditive : originEnv.CurrentAdditive := by
  intro a P1 P2 i j k
  by_cases h : i = 0 ∧ j = 0 ∧ k = 0 <;>
    simp [originEnv, List.map_append, List.sum_append, h]

/-- The charge kernel of `originEnv` is additive over the particle list. -/
theorem originEnv_chargeAdditive : originEnv.ChargeAdditive := by
  intro a P1 P2 i j k
  by_cases h : i = 0 ∧ j = 0 ∧ k = 0 <;>
    simp [originEnv, List.map_append, List.sum_append, h]

/-- Witness of `C17_additive_over_particles`: the kernels of `originEnv`, the
particles `particleA` and `particleB` on the tile `unitBox`. -/
theorem C17_additive_over_particles_witness :
    originEnv.CurrentAdditive ∧ originEnv.ChargeAdditive ∧
    (∃ st1 st2 st12,
      DepositCurrent originEnv unitBox [particleA] 1 1 0 (1 / 2 : ℚ) currentState0 = some st1 ∧
      DepositCurrent originEnv unitBox [particleB] 1 1 0 (1 / 2 : ℚ) st1 = some st2 ∧
      DepositCurrent originEnv unitBox [particleA, particleB] 2 2 0 (1 / 2 : ℚ) currentState0
        = some st12 ∧
      st2.dest = st12.dest) :=
  ⟨originEnv_currentAdditive, originEnv_chargeAdditive,
    (C17_additive_over_particles originEnv originEnv_currentAdditive originEnv_chargeAdditive
      unitBox particleA particleB 0 0 (1 / 2 : ℚ) currentState0 chargeState0 (uniformFab 3)).1⟩

/-! ## C18: the by-level charge deposition -/

/-- With the flag set, `PushX(lev, dt)` returns at line 819. -/
theorem PushX_lev_do_not_push (e : PushEnv R) (h : e.do_not_push ≠ 0) (lev : Int) (dt : R)
    (c : Container R) : PushX_lev e lev dt c = some c := by
  simp only [PushX_lev, h, ne_eq, not_false_eq_true, if_true]

/-- A loop over levels whose every iteration returns the state it received
returns the state it received. -/
theorem PushX_fold_fixed (e : PushEnv R) (dt : R) (c : Container R)
    (h : ∀ lev, PushX_lev e lev dt c = some c) (levs : List Nat) :
    levs.foldl (fun acc (lev : Nat) => acc.bind (PushX_lev e (Int.ofNat lev) dt)) (some c)
      = some c := by
  induction levs with
  | nil => rfl
  | cons l ls ih =>
    rw [List.foldl_cons, Option.some_bind, h]
    exact ih

/-- C19: when `do_not_push` is nonzero, `PushX(lev, dt)`, for every `lev` and
`dt`, and `PushX(dt)`, for every `dt`, return the state they received: the
particles and cost fields of every level, the count of clock readings, and the
trace, to which no call of the pusher is added. -/
theorem C19_do_not_push (e : PushEnv R) (h : e.do_not_push ≠ 0) (lev : Int) (dt : R)
    (c : Container R) :
    PushX_lev e lev dt c = some c ∧ PushX e dt c = some c :=
  ⟨PushX_lev_do_not_push e h lev dt c,
    PushX_fold_fixed e dt c (fun l => PushX_lev_do_not_push e h l dt c) _⟩

/-- Witness of `C19_do_not_push`: the flag set to 1, the container
`sampleContainer`. -/
theorem C19_do_not_push_witness :
    (sampleEnv 1).do_not_push ≠ 0 ∧
    PushX_lev (sampleEnv 1) 0 (1 / 2 : ℚ) sampleContainer = some sampleContainer ∧
    PushX (sampleEnv 1) (1 / 2 : ℚ) sampleContainer = some sampleContainer :=
  ⟨by decide, C19_do_not_push (sampleEnv 1) (by decide) 0 (1 / 2 : ℚ) sampleContainer⟩

/-! ## C20: the cost field -/

/-- A box that contains a cell has a positive number of cells. -/
theorem Box.d_numPts_pos (b : Box) (i j k : Int) (h : b.contains i j k) :
    (0 : R) < b.d_numPts := by
  obtain ⟨⟨hx1, hx2⟩, ⟨hy1, hy2⟩, ⟨hz1, hz2⟩⟩ := h
  unfold Box.d_numPts Box.length
  have hx : (0 : R) < ((b.bigEnd.x - b.smallEnd.x + 1 : Int) : R) := Int.cast_pos.2 (by omega)
  have hy : (0 : R) < ((b.bigEnd.y - b.smallEnd.y + 1 : Int) : R) := Int.cast_pos.2 (by omega)
  have hz : (0 : R) < ((b.bigEnd.z - b.smallEnd.z + 1 : Int) : R) := Int.cast_pos.2 (by omega)
  exact mul_pos (mul_pos hx hy) hz

/-- No tile box at a cell, no increment at the cell. -/
theorem costAdded_outside (e : PushEnv R) (n : Nat) (tiles : List (Tile R)) (i j k : Int)
    (h : ∀ t ∈ tiles, ¬ t.tilebox.contains i j k) : costAdded e n tiles i j k = 0 := by
  induction tiles generalizing n with
  | nil => rfl
  | cons t ts ih =>
    simp only [costAdded, h t (List.mem_cons_self _ _), if_false, zero_add]
    exact ih (n + 2) (fun t' ht' => h t' (List.mem_cons_of_mem _ ht'))

/-- A cell in the box of one tile only receives the increment of that tile. -/
theorem costAdded_single (e : PushEnv R) (n : Nat) (tiles : List (Tile R)) (i j k : Int)
    (m : Nat) (t : Tile R) (ht : tiles[m]? = some t) (hin : t.tilebox.contains i j k)
    (hother : ∀ (m' : Nat) (t' : Tile R), tiles[m']? = some t' → m' ≠ m →
      ¬ t'.tilebox.contains i j k) :
    costAdded e n tiles i j k = costIncrement e (n + 2 * m) t := by
  induction tiles generalizing n m with
  | nil => simp at ht
  | cons a ts ih =>
    cases m with
    | zero =>
      simp only [List.getElem?_cons_zero, Option.some.injEq] at ht
      subst ht
      have hrest : costAdded e (n + 2) ts i j k = 0 := by
        apply costAdded_outside
        intro t' ht'
        obtain ⟨m', hm'⟩ := List.getElem?_of_mem ht'
        exact hother (m' + 1) t' (by simpa using hm') (by omega)
      simp [costAdded, hin, hrest]
    | succ m =>
      have ha : ¬ a.tilebox.contains i j k := hother 0 a (by simp) (by omega)
      simp only [costAdded, ha, if_false, zero_add]
      rw [ih (n + 2) m (by simpa using ht)]
      · congr 1
        omega
      · intro m' t' hm' hne
        exact hother (m' + 1) t' (by simpa using hm') (by omega)

/-- For a non-decreasing clock no increment is negative. -/
theorem costAdded_nonneg (e : PushEnv R) (hmono : Monotone e.second) (n : Nat)
    (tiles : List (Tile R)) (i j k : Int) : 0 ≤ costAdded e n tiles i j k := by
  induction tiles generalizing n with
  | nil => exact le_refl _
  | cons t ts ih =>
    simp only [costAdded]
    apply add_nonneg _ (ih (n + 2))
    by_cases hin : t.tilebox.contains i j k
    · simp only [hin, if_true, costIncrement]
      apply div_nonneg
      · exact sub_nonneg.2 (hmono (Nat.le_succ n))
      · exact le_of_lt (Box.d_numPts_pos t.tilebox i j k hin)
    · simp only [hin, if_false]
      exact le_refl _

/-- The loop over tiles with a cost field: the field after the loop, the
count of clock readings, and the tile boxes. -/
theorem PushX_tiles_cost (e : PushEnv R) (dt : R) (tiles : List (Tile R)) (s : PushLoop R)
    (cost : MultiFab R) (hs : s.cost = some cost) :
    ∃ cost', (tiles.foldl (PushX_tile e dt) s).cost = some cost' ∧
      (tiles.foldl (PushX_tile e dt) s).clock = s.clock + 2 * tiles.length ∧
      (tiles.foldl (PushX_tile e dt) s).done.map Tile.tilebox
        = s.done.map Tile.tilebox ++ tiles.map Tile.tilebox ∧
      cost'.validbox = cost.validbox ∧ cost'.nGrow = cost.nGrow ∧
      ∀ i j k n, cost'.fab i j k n =
        if n = 0 then cost.fab i j k n + costAdded e s.clock tiles i j k
        else cost.fab i j k n := by
  induction tiles generalizing s cost with
  | nil =>
    refine ⟨cost, hs, rfl, by simp, rfl, rfl, ?_⟩
    intro i j k n
    by_cases hn : n = 0 <;> simp [costAdded, hn]
  | cons t ts ih =>
    have hstep : (PushX_tile e dt s t).cost = some (cost.withFab
        (plus cost.fab (costIncrement e s.clock t) t.tilebox)) := by
      simp only [PushX_tile, hs, costIncrement]
    have hclock : (PushX_tile e dt s t).clock = s.clock + 2 := by
      simp only [PushX_tile, hs]
    have hdone : (PushX_tile e dt s t).done.map Tile.tilebox
        = s.done.map Tile.tilebox ++ [t.tilebox] := by
      simp only [PushX_tile, hs]
      simp
    obtain ⟨cost', h1, h2, h3, h4, h5, h6⟩ := ih (PushX_tile e dt s t) _ hstep
    refine ⟨cost', h1, ?_, ?_, h4, h5, ?_⟩
    · rw [List.foldl_cons, h2, hclock, List.length_cons]
      omega
    · rw [List.foldl_cons, h3, hdone]
      simp
    · intro i j k n
      rw [h6 i j k n, hclock]
      by_cases hn : n = 0
      · subst hn
        by_cases hin : t.tilebox.contains i j k
        · simp [MultiFab.withFab, plus, costAdded, hin, add_assoc]
        · simp [MultiFab.withFab, plus, costAdded, hin]
      · simp [MultiFab.withFab, plus, hn]

/-- The loop over tiles without a cost field records nothing. -/
theorem PushX_tiles_no_cost (e : PushEnv R) (dt : R) (tiles : List (Tile R)) (s : PushLoop R)
    (hs : s.cost = none) : (tiles.foldl (PushX_tile e dt) s).cost = none := by
  induction tiles generalizing s with
  | nil => exact hs
  | cons t ts ih =>
    rw [List.foldl_cons]
    apply ih
    simp only [PushX_tile, hs]

/-- `PushX(lev, dt)` on a level of the container, with the flag unset. -/
theorem PushX_lev_eq (e : PushEnv R) (dt : R) (c : Container R) (lev : Nat) (L : Level R)
    (hpush : e.do_not_push = 0) (hL : c.levels[lev]? = some L) :
    PushX_lev e (Int.ofNat lev) dt c = some
      { levels := c.levels.set lev
          ⟨(L.tiles.foldl (PushX_tile e dt) ⟨[], [], L.costs, c.clock, c.trace⟩).done,
            (L.tiles.foldl (PushX_tile e dt) ⟨[], [], L.costs, c.clock, c.trace⟩).cost⟩
        clock := (L.tiles.foldl (PushX_tile e dt) ⟨[], [], L.costs, c.clock, c.trace⟩).clock
        trace := (L.tiles.foldl (PushX_tile e dt) ⟨[], [], L.costs, c.clock, c.trace⟩).trace } := by
  have hneg : ¬ (Int.ofNat lev < 0) := by
    simp
  have hto : (Int.ofNat lev).toNat = lev := rfl
  simp only [PushX_lev, hpush, ne_eq, not_true_eq_false, if_false, hneg, hto, hL]

/-- `PushX(lev, dt)` on a level with a cost field, with the flag unset. -/
theorem PushX_lev_cost (e : PushEnv R) (dt : R) (c : Container R) (lev : Nat) (L : Level R)
    (cost : MultiFab R) (hpush : e.do_not_push = 0) (hL : c.levels[lev]? = some L)
    (hcost : L.costs = some cost) :
    ∃ c' L' cost', PushX_lev e (Int.ofNat lev) dt c = some c' ∧
      c'.levels[lev]? = some L' ∧ L'.costs = some cost' ∧
      L'.tiles.map Tile.tilebox = L.tiles.map Tile.tilebox ∧
      c'.clock = c.clock + 2 * L.tiles.length ∧
      cost'.validbox = cost.validbox ∧ cost'.nGrow = cost.nGrow ∧
      ∀ i j k n, cost'.fab i j k n =
        if n = 0 then cost.fab i j k n + costAdded e c.clock L.tiles i j k
        else cost.fab i j k n := by
  obtain ⟨cost', h1, h2, h3, h4, h5, h6⟩ := PushX_tiles_cost e dt L.tiles
    ⟨[], [], L.costs, c.clock, c.trace⟩ cost hcost
  have hlt : lev < c.levels.length := by
    by_contra hge
    rw [List.getElem?_eq_none (not_lt.1 hge)] at hL
    cases hL
  refine ⟨_, ⟨(L.tiles.foldl (PushX_tile e dt) ⟨[], [], L.costs, c.clock, c.trace⟩).done,
      (L.tiles.foldl (PushX_tile e dt) ⟨[], [], L.costs, c.clock, c.trace⟩).cost⟩, cost',
    PushX_lev_eq e dt c lev L hpush hL, ?_, h1, ?_, h2, h4, h5, h6⟩
  · simp [List.getElem?_set, hlt]
  · simpa using h3

/-- C20: with the flag unset, on a level `lev` of the container: if the level
has a cost field, `PushX(lev, dt)` returns, keeps shape and tile boxes, reads
the clock twice per tile, and leaves in component 0 of the cost field at every
cell the previous value plus the sum of the increments of the tiles whose box
contains the cell (other components unchanged), and a second pass adds its own
increments to that; if the level has no cost field it has none afterwards; the
other levels are not touched; the increment of a tile is the difference of its
two clock readings divided by the number of cells of its box; a cell in no
tile box receives nothing; a cell in the box of exactly one tile receives the
increment of that tile; and for a non-decreasing clock no cell receives a
negative amount. -/
theorem C20_cost_field (e : PushEnv R) (dt dt2 : R) (c : Container R) (lev : Nat)
    (L : Level R) (hpush : e.do_not_push = 0) (hL : c.levels[lev]? = some L) :
    (∀ cost, L.costs = some cost →
      ∃ c' L' cost', PushX_lev e (Int.ofNat lev) dt c = some c' ∧
        c'.levels[lev]? = some L' ∧ L'.costs = some cost' ∧
        L'.tiles.map Tile.tilebox = L.tiles.map Tile.tilebox ∧
        c'.clock = c.clock + 2 * L.tiles.length ∧
        cost'.validbox = cost.validbox ∧ cost'.nGrow = cost.nGrow ∧
        (∀ i j k n, cost'.fab i j k n =
          if n = 0 then cost.fab i j k n + costAdded e c.clock L.tiles i j k
          else cost.fab i j k n) ∧
        ∃ c'' L'' cost'', PushX_lev e (Int.ofNat lev) dt2 c' = some c'' ∧
          c''.levels[lev]? = some L'' ∧ L''.costs = some cost'' ∧
          ∀ i j k, cost''.fab i j k 0 = cost.fab i j k 0
            + costAdded e c.clock L.tiles i j k + costAdded e c'.clock L'.tiles i j k) ∧
    (L.costs = none → ∃ c' L', PushX_lev e (Int.ofNat lev) dt c = some c' ∧
      c'.levels[lev]? = some L' ∧ L'.costs = none) ∧
    (∀ c', PushX_lev e (Int.ofNat lev) dt c = some c' →
      ∀ m : Nat, m ≠ lev → c'.levels[m]? = c.levels[m]?) ∧
    (∀ (n : Nat) (t : Tile R), costIncrement e n t = (e.second (n + 1) - e.second n)
      / ((t.tilebox.length.x : R) * (t.tilebox.length.y : R) * (t.tilebox.length.z : R))) ∧
    (∀ (n : Nat) (tiles : List (Tile R)) (i j k : Int),
      (∀ t ∈ tiles, ¬ t.tilebox.contains i j k) → costAdded e n tiles i j k = 0) ∧
    (∀ (n : Nat) (tiles : List (Tile R)) (i j k : Int) (m : Nat) (t : Tile R),
      tiles[m]? = some t → t.tilebox.contains i j k →
      (∀ (m' : Nat) (t' : Tile R), tiles[m']? = some t' → m' ≠ m →
        ¬ t'.tilebox.contains i j k) →
      costAdded e n tiles i j k = costIncrement e (n + 2 * m) t) ∧
    (Monotone e.second →
      ∀ (n : Nat) (tiles : List (Tile R)) (i j k : Int), 0 ≤ costAdded e n tiles i j k) := by
  have hlt : lev < c.levels.length := by
    by_contra hge
    rw [List.getElem?_eq_none (not_lt.1 hge)] at hL
    cases hL
  refine ⟨?_, ?_, ?_, fun n t => rfl, costAdded_outside e, costAdded_single e,
    fun hmono => costAdded_nonneg e hmono⟩
  · intro cost hcost
    obtain ⟨c', L', cost', h1, h2, h3, h4, h5, h6, h7, h8⟩ :=
      PushX_lev_cost e dt c lev L cost hpush hL hcost
    obtain ⟨c'', L'', cost'', k1, k2, k3, _, _, _, _, k8⟩ :=
      PushX_lev_cost e dt2 c' lev L' cost' hpush h2 h3
    refine ⟨c', L', cost', h1, h2, h3, h4, h5, h6, h7, h8, c'', L'', cost'', k1, k2, k3, ?_⟩
    intro i j k
    rw [k8 i j k 0, h8 i j k 0]
    simp
  · intro hnone
    refine ⟨_, ⟨(L.tiles.foldl (PushX_tile e dt) ⟨[], [], L.costs, c.clock, c.trace⟩).done,
        (L.tiles.foldl (PushX_tile e dt) ⟨[], [], L.costs, c.clock, c.trace⟩).cost⟩,
      PushX_lev_eq e dt c lev L hpush hL, ?_, ?_⟩
    · simp [List.getElem?_set, hlt]
    · exact PushX_tiles_no_cost e dt L.tiles _ hnone
  · intro c' hc' m hm
    rw [PushX_lev_eq e dt c lev L hpush hL] at hc'
    cases hc'
    exact List.getElem?_set_ne (Ne.symm hm)

/-- Witness of `C20_cost_field`: the clock reading `0, 1, 2, ...`, the
container `sampleContainer` with two tiles of eight cells and a cost field. -/
theorem C20_cost_field_witness :
    (sampleEnv 0).do_not_push = 0 ∧
    sampleContainer.levels[0]?
      = some ⟨[⟨unitBox, [particleA]⟩, ⟨shiftedBox, [particleB]⟩], some (uniformFab 3)⟩ ∧
    ∃ c' L' cost', PushX_lev (sampleEnv 0) (Int.ofNat 0) (1 / 2 : ℚ) sampleContainer = some c' ∧
      c'.levels[0]? = some L' ∧ L'.costs = some cost' ∧
      ∀ i j k n, cost'.fab i j k n =
        if n = 0 then (uniformFab 3).fab i j k n + costAdded (sampleEnv 0) sampleContainer.clock
          [⟨unitBox, [particleA]⟩, ⟨shiftedBox, [particleB]⟩] i j k
        else (uniformFab 3).fab i j k n :=
  let ⟨c', L', cost', h1, h2, h3, _, _, _, _, h8, _⟩ :=
    (C20_cost_field (sampleEnv 0) (1 / 2 : ℚ) (1 / 2 : ℚ) sampleContainer 0
      ⟨[⟨unitBox, [particleA]⟩, ⟨shiftedBox, [particleB]⟩], some (uniformFab 3)⟩ rfl rfl).1
      (uniformFab 3) rfl
  ⟨rfl, rfl, c', L', cost', h1, h2, h3, h8⟩

/-! ## C21: the face-normal component of the effective field -/

/-- C21: the function `face_avg_to_face` of the spec returns the value of the
field at the cell when source and target orientation are equal; on every face
the M update obtains the face-normal component of `H_eff` from calls of
`face_avg_to_face` with the orientation of the face as source and as target,
on the bias field of that face and, when `coupling == 1`, on the Maxwell field
of that face; so with the function of the spec that component is
`H_bias(i,j,k)` of the face's own bias field, plus `H(i,j,k)` of the face's
own Maxwell field when `coupling == 1`. -/
theorem C21_normal_component_unaveraged (e : Env R)
    (stencil : IntVect → IntVect → IntVect × IntVect × IntVect × IntVect) (H : Hfield R)
    (w : Work) :
    (∀ (i j k : Int) (n : Nat) (s : IntVect) (F : Array4 R),
      face_avg_to_face stencil i j k n s s F = F i j k n) ∧
    (H_eff e H w.face w.i w.j w.k).normal w.face =
      e.face_avg_to_face w.i w.j w.k 0 w.face.dir w.face.dir (e.H_biasfield.face w.face)
        + (if e.coupling = 1 then
            e.face_avg_to_face w.i w.j w.k 0 w.face.dir w.face.dir (H.face w.face)
          else 0) ∧
    (H_eff (e.withFaceAvg stencil) H w.face w.i w.j w.k).normal w.face =
      e.H_biasfield.cell w + (if e.coupling = 1 then H.cell w else 0) := by
  refine ⟨fun i j k n s F => if_pos rfl, ?_, ?_⟩
  · rcases w with ⟨f, i, j, k⟩
    by_cases hc : e.coupling = 1 <;> cases f <;>
      simp [H_eff, hc, Vec3.normal, Face.dir, Env.H_biasfield, Hfield.face]
  · rcases w with ⟨f, i, j, k⟩
    by_cases hc : e.coupling = 1 <;> cases f <;>
      simp [H_eff, hc, Vec3.normal, Face.dir, Env.H_biasfield, Hfield.face, Hfield.cell,
        Env.withFaceAvg, face_avg_to_face]

/-! ## C22: the increment of the explicit step and `M_old` -/

/-- The increment of the explicit LLG step is orthogonal to M. -/
theorem llgStep_orthogonal (dt c G : R) (M H : Vec3 R) :
    ((llgStep dt c G M H).sub M).dot M = 0 := by
  simp only [llgStep, Vec3.add, Vec3.smul, Vec3.cross, Vec3.sub, Vec3.dot]
  ring

/-- The squared magnitude after the explicit LLG step is the squared magnitude
before it plus that of the increment. -/
theorem llgStep_normSq (dt c G : R) (M H : Vec3 R) :
    (llgStep dt c G M H).dot (llgStep dt c G M H)
      = M.dot M + ((llgStep dt c G M H).sub M).dot ((llgStep dt c G M H).sub M) := by
  simp only [llgStep, Vec3.add, Vec3.smul, Vec3.cross, Vec3.sub, Vec3.dot]
  ring

/-- On x- and y-faces the increment of the explicit step of a call that reads
the snapshot value at its cell is orthogonal to `M_old`, and the squared
magnitude grows by that of the increment. -/
theorem M_updated_orthogonal_xy (e : Env R) (H : Hfield R) (M_old M : Mfield R) (w : Work)
    (hf : w.face ≠ Face.z) (hc : M.cell w = M_old.cell w) :
    ((M_updated e H M_old M w).sub (M_old.cell w)).dot (M_old.cell w) = 0 ∧
    (M_updated e H M_old M w).dot (M_updated e H M_old M w)
      = (M_old.cell w).dot (M_old.cell w)
        + ((M_updated e H M_old M w).sub (M_old.cell w)).dot
          ((M_updated e H M_old M w).sub (M_old.cell w)) ∧
    (M_old.cell w).dot (M_old.cell w)
      ≤ (M_updated e H M_old M w).dot (M_updated e H M_old M w) := by
  have hM : M_updated e H M_old M w =
      llgStep e.dt (e.mu0 * mag_gamma_interp e w.face w.i w.j w.k)
        (Gil_damp e w.face (M_old.cell w) w.i w.j w.k) (M_old.cell w)
        (H_eff e H w.face w.i w.j w.k) := by
    rw [M_updated_congr e H M_old M M_old w hc]
    rcases w with ⟨f, i, j, k⟩
    cases f
    · exact M_xface_update_eq _ _ _ _ _ _
    · exact M_yface_update_eq _ _ _ _ _ _
    · exact absurd rfl hf
  rw [hM]
  refine ⟨llgStep_orthogonal _ _ _ _ _, llgStep_normSq _ _ _ _ _, ?_⟩
  rw [llgStep_normSq]
  have : 0 ≤ ((llgStep e.dt (e.mu0 * mag_gamma_interp e w.face w.i w.j w.k)
      (Gil_damp e w.face (M_old.cell w) w.i w.j w.k) (M_old.cell w)
      (H_eff e H w.face w.i w.j w.k)).sub (M_old.cell w)).dot
      ((llgStep e.dt (e.mu0 * mag_gamma_interp e w.face w.i w.j w.k)
      (Gil_damp e w.face (M_old.cell w) w.i w.j w.k) (M_old.cell w)
      (H_eff e H w.face w.i w.j w.k)).sub (M_old.cell w)) := by
    simp only [Vec3.dot]
    nlinarith [mul_self_nonneg ((llgStep e.dt (e.mu0 * mag_gamma_interp e w.face w.i w.j w.k)
      (Gil_damp e w.face (M_old.cell w) w.i w.j w.k) (M_old.cell w)
      (H_eff e H w.face w.i w.j w.k)).sub (M_old.cell w)).c0,
      mul_self_nonneg ((llgStep e.dt (e.mu0 * mag_gamma_interp e w.face w.i w.j w.k)
      (Gil_damp e w.face (M_old.cell w) w.i w.j w.k) (M_old.cell w)
      (H_eff e H w.face w.i w.j w.k)).sub (M_old.cell w)).c1,
      mul_self_nonneg ((llgStep e.dt (e.mu0 * mag_gamma_interp e w.face w.i w.j w.k)
      (Gil_damp e w.face (M_old.cell w) w.i w.j w.k) (M_old.cell w)
      (H_eff e H w.face w.i w.j w.k)).sub (M_old.cell w)).c2]
  linarith

/-- C22 fails on the code on z-faces: with `M_zface_old = (0, 3/5, 4/5)`,
`M_yface_old(i,j,k,2) = 0`, `H_eff = (0, 1, 0)`, `mu0 = gamma = Gil_damp = 1`
and `dt = 1/10`, the explicit step on the z-face gives `(-2/25, 67/125, 4/5)`:
the increment has scalar product `-24/625` with `M_old` and the squared
magnitude falls from 1 to `14589/15625`. The x-face update of the same data
gives `(-2/25, 67/125, 106/125)`, whose increment is orthogonal to `M_old`. -/
theorem C22_zface_increment_not_orthogonal :
    slipM.cell ⟨Face.z, 0, 0, 0⟩ = ⟨0, 3 / 5, 4 / 5⟩ ∧
    M_updated slipEnv (uniformH 0) slipM slipM ⟨Face.z, 0, 0, 0⟩ = ⟨-2 / 25, 67 / 125, 4 / 5⟩ ∧
    ((M_updated slipEnv (uniformH 0) slipM slipM ⟨Face.z, 0, 0, 0⟩).sub
      (slipM.cell ⟨Face.z, 0, 0, 0⟩)).dot (slipM.cell ⟨Face.z, 0, 0, 0⟩) = -24 / 625 ∧
    (slipM.cell ⟨Face.z, 0, 0, 0⟩).dot (slipM.cell ⟨Face.z, 0, 0, 0⟩) = 1 ∧
    (M_updated slipEnv (uniformH 0) slipM slipM ⟨Face.z, 0, 0, 0⟩).dot
      (M_updated slipEnv (uniformH 0) slipM slipM ⟨Face.z, 0, 0, 0⟩) = 14589 / 15625 ∧
    slipM.cell ⟨Face.x, 0, 0, 0⟩ = slipM.cell ⟨Face.z, 0, 0, 0⟩ ∧
    M_updated slipEnv (uniformH 0) slipM slipM ⟨Face.x, 0, 0, 0⟩
      = ⟨-2 / 25, 67 / 125, 106 / 125⟩ ∧
    ((M_updated slipEnv (uniformH 0) slipM slipM ⟨Face.x, 0, 0, 0⟩).sub
      (slipM.cell ⟨Face.x, 0, 0, 0⟩)).dot (slipM.cell ⟨Face.x, 0, 0, 0⟩) = 0 := by
  have hz : M_updated slipEnv (uniformH 0) slipM slipM ⟨Face.z, 0, 0, 0⟩
      = ⟨-2 / 25, 67 / 125, 4 / 5⟩ := by
    simp [M_updated, slipEnv, slipM, uniformEnv, uniformH, Mfield.face, readCell, uniform3,
      uniform1, mag_gamma_interp, Gil_damp, M_magnitude, H_eff, Face.dir, M_zface_update]
    norm_num
  have hx : M_updated slipEnv (uniformH 0) slipM slipM ⟨Face.x, 0, 0, 0⟩
      = ⟨-2 / 25, 67 / 125, 106 / 125⟩ := by
    simp [M_updated, slipEnv, slipM, uniformEnv, uniformH, Mfield.face, readCell, uniform3,
      uniform1, mag_gamma_interp, Gil_damp, M_magnitude, H_eff, Face.dir, M_xface_update]
    norm_num
  have hcz : slipM.cell ⟨Face.z, 0, 0, 0⟩ = ⟨0, 3 / 5, 4 / 5⟩ := by
    simp [Mfield.cell, slipM, Mfield.face, readCell, uniform3]
  have hcx : slipM.cell ⟨Face.x, 0, 0, 0⟩ = ⟨0, 3 / 5, 4 / 5⟩ := by
    simp [Mfield.cell, slipM, Mfield.face, readCell, uniform3]
  refine ⟨hcz, hz, ?_, ?_, ?_, ?_, hx, ?_⟩
  · rw [hz, hcz]
    norm_num [Vec3.sub, Vec3.dot]
  · rw [hcz]
    norm_num [Vec3.dot]
  · rw [hz]
    norm_num [Vec3.dot]
  · rw [hcx, hcz]
  · rw [hx, hcx]
    norm_num [Vec3.sub, Vec3.dot]

/-! ## C23: the divisors of the per-cell update -/

/-- A triple other than zero has positive squared magnitude. -/
theorem normSq_pos_of_ne_zero (m : Vec3 R) (h : m ≠ ⟨0, 0, 0⟩) :
    0 < m.c0 ^ 2 + m.c1 ^ 2 + m.c2 ^ 2 := by
  rcases m with ⟨a, b, c⟩
  by_contra hn
  have h0 := sq_nonneg a
  have h1 := sq_nonneg b
  have h2 := sq_nonneg c
  simp only [not_lt] at hn
  have ha : a ^ 2 = 0 := by linarith
  have hb : b ^ 2 = 0 := by linarith
  have hc : c ^ 2 = 0 := by linarith
  apply h
  rw [pow_eq_zero_iff two_ne_zero] at ha hb hc
  rw [ha, hb, hc]

/-- The square root of a positive number is not zero, and that of zero is
zero. -/
theorem sqrt_ne_zero_of_pos (sqrt : R → R)
    (hs : ∀ x : R, 0 ≤ x → 0 ≤ sqrt x ∧ sqrt x * sqrt x = x) :
    (∀ x : R, 0 < x → 0 < sqrt x) ∧ sqrt 0 = 0 := by
  refine ⟨fun x hx => ?_, ?_⟩
  · obtain ⟨h0, h1⟩ := hs x hx.le
    rcases h0.lt_or_eq with h | h
    · exact h
    · rw [← h, zero_mul] at h1
      exact absurd h1 hx.ne
  · exact mul_self_eq_zero.1 (hs 0 le_rfl).2

/-- Where the policy renormalizes, the divisor is at least `1 - tol` in strict
mode and above 1 in non-strict mode, and the mode is not negative. -/
theorem renormalizes_bounds (Mn : Int) (tol n : R) (h : renormalizes Mn tol n) :
    (0 < Mn → 1 - tol ≤ n) ∧ (Mn = 0 → 1 < n) ∧ ¬ Mn < 0 := by
  unfold renormalizes at h
  by_cases h1 : Mn > 0
  · rw [if_pos h1] at h
    refine ⟨fun _ => ?_, fun h0 => by omega, by omega⟩
    have h2 := (abs_le.mp (not_lt.mp h)).2
    linarith
  · rw [if_neg h1] at h
    by_cases h0 : Mn = 0
    · rw [if_pos h0] at h
      exact ⟨fun h => absurd h h1, fun _ => h.2.1, by omega⟩
    · rw [if_neg h0] at h
      exact h.elim

/-- Where the policy renormalizes, it returns the updated triple divided by the
normalized magnitude. -/
theorem validity_of_renormalizes (Mn : Int) (tol n : R) (m : Vec3 R)
    (h : renormalizes Mn tol n) : validity Mn tol n m = some (normalize m n) := by
  unfold renormalizes at h
  unfold validity
  by_cases h1 : Mn > 0
  · rw [if_pos h1] at h ⊢
    rw [if_neg h]
  · rw [if_neg h1] at h ⊢
    by_cases h0 : Mn = 0
    · rw [if_pos h0] at h ⊢
      rw [if_neg h.1, if_pos h.2]
    · rw [if_neg h0] at h
      exact h.elim

/-- Where the policy does not renormalize, it aborts or returns the updated
triple as it is. -/
theorem validity_of_not_renormalizes (Mn : Int) (tol n : R) (m : Vec3 R)
    (h : ¬ renormalizes Mn tol n) : validity Mn tol n m = none ∨ validity Mn tol n m = some m := by
  unfold renormalizes at h
  unfold validity
  by_cases h1 : Mn > 0
  · rw [if_pos h1] at h ⊢
    rw [if_pos (not_not.mp h)]
    exact Or.inl rfl
  · rw [if_neg h1] at h ⊢
    by_cases h0 : Mn = 0
    · rw [if_pos h0] at h ⊢
      by_cases h2 : n > 1 + tol
      · rw [if_pos h2]
        exact Or.inl rfl
      · rw [if_neg h2, if_neg (fun h3 => h ⟨h2, h3⟩)]
        exact Or.inr rfl
    · rw [if_neg h0]
      exact Or.inr rfl

/-- C23: for a call of the per-cell M update whose cell still holds the
snapshot value, with `std::sqrt` a square root. Under the precondition
(interpolated Ms positive, tolerance below 1, `M_old` at the cell nonzero when
`M_normalization == 0`) none of the divisors of the call is zero: `M_magnitude`
is nonzero, the interpolated Ms is nonzero, and where the policy renormalizes
its divisor is positive, at least `1 - tol` in strict mode and above 1 in
non-strict mode. Without it a zero divisor is reached: in non-strict mode with
`M_old = 0` at the cell, and whenever the interpolated Ms is 0. -/
theorem C23_no_zero_divisor (e : Env R) (hs : e.SqrtSpec) (H : Hfield R) (M_old M : Mfield R)
    (w : Work) (hcell : M.cell w = M_old.cell w) :
    (0 < mag_Ms_interp e w.face w.i w.j w.k → e.mag_normalized_error < 1 →
      (e.M_normalization = 0 → M_old.cell w ≠ ⟨0, 0, 0⟩) →
      (∀ d ∈ LLG_divisors e H M_old M w, d ≠ 0) ∧
      M_magnitude e w.face (M.cell w) w.i w.j w.k ≠ 0 ∧
      mag_Ms_interp e w.face w.i w.j w.k ≠ 0 ∧
      (renormalizes e.M_normalization e.mag_normalized_error
          (M_magnitude_normalized e w.face (M_updated e H M_old M w) w.i w.j w.k) →
        0 < M_magnitude_normalized e w.face (M_updated e H M_old M w) w.i w.j w.k ∧
        (0 < e.M_normalization → 1 - e.mag_normalized_error
          ≤ M_magnitude_normalized e w.face (M_updated e H M_old M w) w.i w.j w.k) ∧
        (e.M_normalization = 0 →
          1 < M_magnitude_normalized e w.face (M_updated e H M_old M w) w.i w.j w.k))) ∧
    (e.M_normalization = 0 → M_old.cell w = ⟨0, 0, 0⟩ →
      M_magnitude e w.face (M.cell w) w.i w.j w.k = 0 ∧
      (0 : R) ∈ LLG_divisors e H M_old M w) ∧
    (mag_Ms_interp e w.face w.i w.j w.k = 0 → (0 : R) ∈ LLG_divisors e H M_old M w) := by
  obtain ⟨hpos, hzero⟩ := sqrt_ne_zero_of_pos e.sqrt hs
  refine ⟨fun hMs htol hM => ?_, fun h0 hM => ?_, fun hMs => ?_⟩
  · have hmag : M_magnitude e w.face (M.cell w) w.i w.j w.k ≠ 0 := by
      unfold M_magnitude
      by_cases h0 : e.M_normalization = 0
      · rw [if_pos h0, hcell]
        exact (hpos _ (normSq_pos_of_ne_zero _ (hM h0))).ne'
      · rw [if_neg h0]
        exact hMs.ne'
    have hren : renormalizes e.M_normalization e.mag_normalized_error
          (M_magnitude_normalized e w.face (M_updated e H M_old M w) w.i w.j w.k) →
        0 < M_magnitude_normalized e w.face (M_updated e H M_old M w) w.i w.j w.k ∧
        (0 < e.M_normalization → 1 - e.mag_normalized_error
          ≤ M_magnitude_normalized e w.face (M_updated e H M_old M w) w.i w.j w.k) ∧
        (e.M_normalization = 0 →
          1 < M_magnitude_normalized e w.face (M_updated e H M_old M w) w.i w.j w.k) := by
      intro hr
      obtain ⟨h1, h2, h3⟩ := renormalizes_bounds _ _ _ hr
      refine ⟨?_, h1, h2⟩
      rcases lt_trichotomy e.M_normalization 0 with hn | hn | hn
      · exact absurd hn h3
      · linarith [h2 hn]
      · linarith [h1 hn]
    refine ⟨?_, hmag, hMs.ne', hren⟩
    intro d hd
    unfold LLG_divisors at hd
    simp only [List.mem_append, List.mem_cons, List.mem_singleton, List.not_mem_nil,
      or_false] at hd
    rcases hd with (hd | hd) | hd
    · rw [hd]
      exact hmag
    · rw [hd]
      exact hMs.ne'
    · by_cases hr : renormalizes e.M_normalization e.mag_normalized_error
          (M_magnitude_normalized e w.face (M_updated e H M_old M w) w.i w.j w.k)
      · rw [if_pos hr] at hd
        simp only [List.mem_cons, List.mem_singleton, List.not_mem_nil, or_false, or_self]
          at hd
        rw [hd]
        exact (hren hr).1.ne'
      · rw [if_neg hr] at hd
        exact absurd hd (List.not_mem_nil _)
  · have hmag : M_magnitude e w.face (M.cell w) w.i w.j w.k = 0 := by
      unfold M_magnitude
      rw [if_pos h0, hcell, hM]
      simpa using hzero
    refine ⟨hmag, ?_⟩
    unfold LLG_divisors
    simp only [List.mem_append, List.mem_cons]
    exact Or.inl (Or.inl hmag.symm)
  · unfold LLG_divisors
    simp only [List.mem_append, List.mem_cons]
    exact Or.inl (Or.inr (Or.inl hMs.symm))

/-- Witness of `C23_no_zero_divisor`: strict mode over the reals, M uniformly
`(1, 0, 0)`. -/
theorem C23_no_zero_divisor_witness :
    (restEnv Real.sqrt 1 (1 / 10 : ℝ)).SqrtSpec ∧
    (uniformM (⟨1, 0, 0⟩ : Vec3 ℝ)).cell ⟨Face.x, 0, 0, 0⟩
      = (uniformM (⟨1, 0, 0⟩ : Vec3 ℝ)).cell ⟨Face.x, 0, 0, 0⟩ ∧
    ∀ d ∈ LLG_divisors (restEnv Real.sqrt 1 (1 / 10 : ℝ)) (uniformH 0) (uniformM ⟨1, 0, 0⟩)
      (uniformM ⟨1, 0, 0⟩) ⟨Face.x, 0, 0, 0⟩, d ≠ 0 :=
  ⟨restEnv_real_sqrtSpec 1 (1 / 10), rfl,
    ((C23_no_zero_divisor (restEnv Real.sqrt 1 (1 / 10 : ℝ)) (restEnv_real_sqrtSpec 1 (1 / 10))
      (uniformH 0) (uniformM ⟨1, 0, 0⟩) (uniformM ⟨1, 0, 0⟩) ⟨Face.x, 0, 0, 0⟩ rfl).1
      (by norm_num [mag_Ms_interp, restEnv, uniformEnv, uniform1])
      (by norm_num [restEnv, uniformEnv])
      (fun h => absurd h (by decide))).1⟩

/-! ## C24: the update and the sign of `M_normalization` -/

/-- The explicit step reads `M_normalization` only in the test
`M_normalization == 0`. -/
theorem M_updated_mode_congr (e : Env R) (n1 n2 : Int) (h : n1 = 0 ↔ n2 = 0) (H : Hfield R)
    (M_old M : Mfield R) (w : Work) :
    M_updated { e with M_normalization := n1 } H M_old M w
      = M_updated { e with M_normalization := n2 } H M_old M w := by
  rcases w with ⟨f, i, j, k⟩
  by_cases h1 : n1 = 0
  · have h2 : n2 = 0 := h.1 h1
    subst h1
    subst h2
    rfl
  · have h2 : ¬ n2 = 0 := fun h3 => h1 (h.2 h3)
    cases f <;>
      simp only [M_updated, Gil_damp, M_magnitude, if_neg h1, if_neg h2, mag_gamma_interp, H_eff]

/-- C24: the per-cell M update depends on `M_normalization` only through its
sign. Two positive values give the same result (abort or stored M) on the same
inputs; zero selects the non-strict policy; for a negative value the call
returns the value of the explicit step as it is, whatever its magnitude: it
does not abort, does not renormalize, and any two negative values give the
same result. -/
theorem C24_sign_only (e : Env R) (H : Hfield R) (M_old M : Mfield R) (w : Work) (n1 n2 : Int) :
    (0 < n1 → 0 < n2 →
      LLG_cell { e with M_normalization := n1 } H M_old M w
        = LLG_cell { e with M_normalization := n2 } H M_old M w) ∧
    (e.M_normalization = 0 →
      LLG_cell e H M_old M w =
        if M_magnitude_normalized e w.face (M_updated e H M_old M w) w.i w.j w.k
            > 1 + e.mag_normalized_error then none
        else if M_magnitude_normalized e w.face (M_updated e H M_old M w) w.i w.j w.k > 1 ∧
            M_magnitude_normalized e w.face (M_updated e H M_old M w) w.i w.j w.k
              ≤ 1 + e.mag_normalized_error then
          some (normalize (M_updated e H M_old M w)
            (M_magnitude_normalized e w.face (M_updated e H M_old M w) w.i w.j w.k))
        else some (M_updated e H M_old M w)) ∧
    (e.M_normalization < 0 →
      LLG_cell e H M_old M w = some (M_updated e H M_old M w) ∧
      ¬ renormalizes e.M_normalization e.mag_normalized_error
        (M_magnitude_normalized e w.face (M_updated e H M_old M w) w.i w.j w.k) ∧
      validity_printf e.M_normalization e.mag_normalized_error
        (M_magnitude_normalized e w.face (M_updated e H M_old M w) w.i w.j w.k)
        (mag_Ms_interp e w.face w.i w.j w.k) w = []) ∧
    (n1 < 0 → n2 < 0 →
      LLG_cell { e with M_normalization := n1 } H M_old M w
        = LLG_cell { e with M_normalization := n2 } H M_old M w) := by
  refine ⟨fun h1 h2 => ?_, fun h0 => ?_, fun hneg => ?_, fun h1 h2 => ?_⟩
  · have hm := M_updated_mode_congr e n1 n2 (by omega) H M_old M w
    unfold LLG_cell
    rw [hm]
    simp only [validity, M_magnitude_normalized, mag_Ms_interp, gt_iff_lt, if_pos h1, if_pos h2]
  · unfold LLG_cell validity
    rw [if_neg (by omega), if_pos h0]
  · have hp : ¬ e.M_normalization > 0 := by omega
    have hz : ¬ e.M_normalization = 0 := by omega
    refine ⟨?_, ?_, ?_⟩
    · unfold LLG_cell validity
      rw [if_neg hp, if_neg hz]
    · unfold renormalizes
      rw [if_neg hp, if_neg hz]
      exact not_false
    · unfold validity_printf
      rw [if_neg hp, if_neg hz]
  · have hm := M_updated_mode_congr e n1 n2 (by omega) H M_old M w
    have hp1 : ¬ n1 > 0 := by omega
    have hz1 : ¬ n1 = 0 := by omega
    have hp2 : ¬ n2 > 0 := by omega
    have hz2 : ¬ n2 = 0 := by omega
    unfold LLG_cell
    rw [hm]
    simp only [validity, if_neg hp1, if_neg hz1, if_neg hp2, if_neg hz2]

/-! ## C25: renormalization is a positive scaling -/

/-- Multiplication by a positive scalar keeps negative numbers negative. -/
theorem scale_sign (t a : R) (ht : 0 < t) : (t * a < 0 ↔ a < 0) ∧ (t * a = 0 ↔ a = 0) := by
  refine ⟨⟨fun h => ?_, fun h => mul_neg_of_pos_of_neg ht h⟩, ?_⟩
  · by_contra hc
    have := mul_nonneg ht.le (not_lt.mp hc)
    linarith
  · rw [mul_eq_zero]
    exact ⟨fun h => h.resolve_left ht.ne', Or.inr⟩

/-- C25: whenever the validity policy renormalizes a cell, in either mode
with tolerance below 1, the stored M is the updated M multiplied by the one
scalar `1 / M_norm`, which is positive: every component keeps its sign and a
zero component stays zero. -/
theorem C25_renormalization_scales (e : Env R) (H : Hfield R) (M_old M : Mfield R) (w : Work)
    (htol : e.mag_normalized_error < 1)
    (hren : renormalizes e.M_normalization e.mag_normalized_error
      (M_magnitude_normalized e w.face (M_updated e H M_old M w) w.i w.j w.k)) :
    ∃ stored : Vec3 R, LLG_cell e H M_old M w = some stored ∧
      stored = Vec3.smul (1 / M_magnitude_normalized e w.face (M_updated e H M_old M w) w.i w.j w.k)
        (M_updated e H M_old M w) ∧
      0 < 1 / M_magnitude_normalized e w.face (M_updated e H M_old M w) w.i w.j w.k ∧
      (0 < stored.c0 ↔ 0 < (M_updated e H M_old M w).c0) ∧
      (stored.c0 < 0 ↔ (M_updated e H M_old M w).c0 < 0) ∧
      (stored.c0 = 0 ↔ (M_updated e H M_old M w).c0 = 0) ∧
      (0 < stored.c1 ↔ 0 < (M_updated e H M_old M w).c1) ∧
      (stored.c1 < 0 ↔ (M_updated e H M_old M w).c1 < 0) ∧
      (stored.c1 = 0 ↔ (M_updated e H M_old M w).c1 = 0) ∧
      (0 < stored.c2 ↔ 0 < (M_updated e H M_old M w).c2) ∧
      (stored.c2 < 0 ↔ (M_updated e H M_old M w).c2 < 0) ∧
      (stored.c2 = 0 ↔ (M_updated e H M_old M w).c2 = 0) := by
  obtain ⟨h1, h2, h3⟩ := renormalizes_bounds _ _ _ hren
  have hn : 0 < M_magnitude_normalized e w.face (M_updated e H M_old M w) w.i w.j w.k := by
    rcases lt_trichotomy e.M_normalization 0 with hn | hn | hn
    · exact absurd hn h3
    · linarith [h2 hn]
    · linarith [h1 hn]
  have hinv : 0 < 1 / M_magnitude_normalized e w.face (M_updated e H M_old M w) w.i w.j w.k :=
    one_div_pos.2 hn
  refine ⟨_, ?_, rfl, hinv, ?_⟩
  · unfold LLG_cell
    rw [validity_of_renormalizes _ _ _ _ hren]
    simp only [normalize, Vec3.smul, div_eq_inv_mul, mul_one]
  · simp only [Vec3.smul]
    refine ⟨?_, ?_, ?_, ?_, ?_, ?_, ?_, ?_, ?_⟩
    · exact mul_pos_iff_of_pos_left hinv
    · exact (scale_sign _ _ hinv).1
    · rw [mul_eq_zero]
      exact ⟨fun h => h.resolve_left hinv.ne', Or.inr⟩
    · exact mul_pos_iff_of_pos_left hinv
    · exact (scale_sign _ _ hinv).1
    · rw [mul_eq_zero]
      exact ⟨fun h => h.resolve_left hinv.ne', Or.inr⟩
    · exact mul_pos_iff_of_pos_left hinv
    · exact (scale_sign _ _ hinv).1
    · rw [mul_eq_zero]
      exact ⟨fun h => h.resolve_left hinv.ne', Or.inr⟩

/-- On `kickEnv` the explicit step at a cell holding `(0, 1, 0)` has normalized
magnitude `5/4`. -/
theorem kick_norm :
    M_magnitude_normalized kickEnv Face.x
      (M_updated kickEnv (uniformH 0) torqueM torqueM ⟨Face.x, 0, 0, 0⟩) 0 0 0 = 5 / 4 := by
  simp [M_magnitude_normalized, mag_Ms_interp, M_updated, kickEnv, torqueM, uniformEnv, uniformM,
    Mfield.face, readCell, uniform3, uniform1, mag_gamma_interp, Gil_damp, M_magnitude, H_eff,
    Face.dir, M_xface_update]
  norm_num [rat_sqrt_25_16]

/-- Witness of `C25_renormalization_scales`: strict mode with tolerance `1/2`
and normalized magnitude `5/4`. -/
theorem C25_renormalization_scales_witness :
    kickEnv.mag_normalized_error < 1 ∧
    renormalizes kickEnv.M_normalization kickEnv.mag_normalized_error
      (M_magnitude_normalized kickEnv Face.x
        (M_updated kickEnv (uniformH 0) torqueM torqueM ⟨Face.x, 0, 0, 0⟩) 0 0 0) ∧
    ∃ stored : Vec3 ℚ,
      LLG_cell kickEnv (uniformH 0) torqueM torqueM ⟨Face.x, 0, 0, 0⟩ = some stored ∧
      stored = Vec3.smul (1 / M_magnitude_normalized kickEnv Face.x
          (M_updated kickEnv (uniformH 0) torqueM torqueM ⟨Face.x, 0, 0, 0⟩) 0 0 0)
        (M_updated kickEnv (uniformH 0) torqueM torqueM ⟨Face.x, 0, 0, 0⟩) := by
  have h1 : kickEnv.mag_normalized_error < 1 := by norm_num [kickEnv, uniformEnv]
  have h2 : renormalizes kickEnv.M_normalization kickEnv.mag_normalized_error
      (M_magnitude_normalized kickEnv Face.x
        (M_updated kickEnv (uniformH 0) torqueM torqueM ⟨Face.x, 0, 0, 0⟩) 0 0 0) := by
    rw [kick_norm]
    have h3 : ¬ abs ((1 : ℚ) - 5 / 4) > 1 / 2 := by
      rw [abs_of_neg (by norm_num)]
      norm_num
    simpa [renormalizes, kickEnv, uniformEnv] using h3
  obtain ⟨s, hs, hs2, _⟩ := C25_renormalization_scales kickEnv (uniformH 0) torqueM torqueM
    ⟨Face.x, 0, 0, 0⟩ h1 h2
  exact ⟨h1, h2, s, hs, hs2⟩

/-! ## C26: `sumParticleCharge` -/

/-- C26 fails on the code: the level loop of `sumParticleCharge` runs over
`lev < finestLevel()`, so a container with one level (`finestLevel() == 0`)
has no level visited and the sum is 0 whatever it holds. With charge 1 and one
particle of weight 1 on level 0 the call returns 0, while the charge times the
sum of the weights is 1; `meanParticleVelocity` on the same container counts
the particle. -/
theorem C26_single_level_sum_is_zero :
    finestLevel (singleLevel [particleA]) = 0 ∧
    allParticles (singleLevel [particleA]) = [particleA] ∧
    particleA.w = 1 ∧
    (1 : ℚ) * ((allParticles (singleLevel [particleA])).map Particle.w).sum = 1 ∧
    sumParticleCharge (1 : ℚ) id (singleLevel [particleA]) true = 0 ∧
    (∀ (charge : R) (ReduceRealSum : R → R) (c : Container R), c.levels.length ≤ 1 →
      sumParticleCharge charge ReduceRealSum c true = 0) ∧
    (∀ (sqrt : ℚ → ℚ) (reduce : MeanAcc ℚ → MeanAcc ℚ) (mean_v : Vec3 ℚ),
      meanParticleVelocity sqrt 1 reduce (singleLevel [particleA]) true mean_v
        = ⟨1 * (1 / sqrt 2), 0, 0⟩) := by
  refine ⟨by decide, rfl, rfl, ?_, ?_, ?_, ?_⟩
  · simp [allParticles, singleLevel, particleA]
  · simp [sumParticleCharge, finestLevel, singleLevel]
  · intro charge red c hc
    have h : (finestLevel c).toNat = 0 := by
      unfold finestLevel
      omega
    simp [sumParticleCharge, h]
  · intro sqrt reduce mean_v
    simp [meanParticleVelocity, meanParticleVelocity_tile, finestLevel, singleLevel, particleA]
    norm_num

/-! ## C27: the index split of `AddNParticles` -/

theorem splitStart_succ (a l p : Int) :
    splitStart a l (p + 1) = splitStart a l p + a + (if p < l then 1 else 0) := by
  unfold splitStart
  rw [add_mul, one_mul]
  split_ifs with h <;> omega

theorem splitStart_mono (a l : Int) (ha : 0 ≤ a) (p : Int) (k : Nat) :
    splitStart a l p ≤ splitStart a l (p + k) := by
  induction k with
  | zero => simp
  | succ k ih =>
    have h := splitStart_succ a l (p + k)
    rw [Nat.cast_succ, ← add_assoc, h]
    split_ifs <;> omega

theorem splitStart_le (a l : Int) (ha : 0 ≤ a) (p q : Int) (h : p ≤ q) :
    splitStart a l p ≤ splitStart a l q := by
  have h1 := splitStart_mono a l ha p (q - p).toNat
  have h2 : p + ((q - p).toNat : Int) = q := by omega
  rwa [h2] at h1

/-- With `n >= 0` and `nprocs >= 1` the pair computed for rank `p` is
`(splitStart p, splitStart (p + 1))` for quotient and remainder of `n` by
`nprocs`. -/
theorem AddNParticles_range_eq (n nprocs p : Int) (hn : 0 ≤ n) (hp : 1 ≤ nprocs) :
    AddNParticles_range n 0 p nprocs
      = (splitStart (n / nprocs) (n % nprocs) p, splitStart (n / nprocs) (n % nprocs) (p + 1)) := by
  have hl : n - n / nprocs * nprocs = n % nprocs := by
    have := Int.ediv_add_emod n nprocs
    rw [mul_comm] at this
    omega
  rw [splitStart_succ]
  unfold AddNParticles_range splitStart
  simp only [ne_eq, not_true_eq_false, if_false]
  rw [Int.tdiv_eq_ediv hn (by omega), hl]
  by_cases h : p < n % nprocs
  · rw [if_pos h, if_pos h, min_eq_left h.le, mul_add, mul_one]
  · rw [if_neg h, if_neg h, min_eq_right (not_lt.mp h)]
    ext <;> simp

/-- Every index below the start of rank `k` lies in the range of one of the
ranks below `k`. -/
theorem splitStart_cover (a l i : Int) (hl : 0 ≤ l) (hi : 0 ≤ i) (k : Nat)
    (hk : i < splitStart a l k) :
    ∃ p : Int, 0 ≤ p ∧ p < k ∧ splitStart a l p ≤ i ∧ i < splitStart a l (p + 1) := by
  induction k with
  | zero =>
    have h0 : splitStart a l 0 = 0 := by
      unfold splitStart
      rw [zero_mul, min_eq_left hl]
      rfl
    rw [Nat.cast_zero, h0] at hk
    omega
  | succ k ih =>
    by_cases h : i < splitStart a l k
    · obtain ⟨p, h0, h1, h2, h3⟩ := ih h
      exact ⟨p, h0, by push_cast; omega, h2, h3⟩
    · refine ⟨k, by omega, by push_cast; omega, not_lt.mp h, ?_⟩
      rwa [Nat.cast_succ] at hk

/-- C27: in `AddNParticles` with `uniqueparticles == 0`, `n >= 0` and
`nprocs >= 1`, the ranges `[ibegin, iend)` of the ranks `0 .. nprocs-1` start
at 0, end at `n`, are contiguous (the end of a rank is the start of the next),
are pairwise disjoint and cover `[0, n)` (every index below `n` lies in the
range of exactly one rank), and the lengths of two ranks differ by at most 1;
the loop of a rank builds the particles of the indices of its range. With
`uniqueparticles != 0` the range is `[0, n)`. -/
theorem C27_index_split (n nprocs : Int) (hn : 0 ≤ n) (hp : 1 ≤ nprocs) :
    (AddNParticles_range n 0 0 nprocs).1 = 0 ∧
    (AddNParticles_range n 0 (nprocs - 1) nprocs).2 = n ∧
    (∀ p : Int, 0 ≤ p → p < nprocs →
      0 ≤ (AddNParticles_range n 0 p nprocs).1 ∧
      (AddNParticles_range n 0 p nprocs).1 ≤ (AddNParticles_range n 0 p nprocs).2 ∧
      (AddNParticles_range n 0 p nprocs).2 ≤ n) ∧
    (∀ p : Int, 0 ≤ p → p + 1 < nprocs →
      (AddNParticles_range n 0 p nprocs).2 = (AddNParticles_range n 0 (p + 1) nprocs).1) ∧
    (∀ p q : Int, 0 ≤ p → p < q → q < nprocs →
      (AddNParticles_range n 0 p nprocs).2 ≤ (AddNParticles_range n 0 q nprocs).1) ∧
    (∀ p q i : Int, 0 ≤ p → p < nprocs → 0 ≤ q → q < nprocs →
      i ∈ AddNParticles_indices n 0 p nprocs → i ∈ AddNParticles_indices n 0 q nprocs →
      p = q) ∧
    (∀ i : Int, 0 ≤ i → i < n →
      ∃ p : Int, 0 ≤ p ∧ p < nprocs ∧ i ∈ AddNParticles_indices n 0 p nprocs) ∧
    (∀ p i : Int, 0 ≤ p → p < nprocs → i ∈ AddNParticles_indices n 0 p nprocs →
      0 ≤ i ∧ i < n) ∧
    (∀ p q : Int, 0 ≤ p → p < nprocs → 0 ≤ q → q < nprocs →
      abs (((AddNParticles_range n 0 p nprocs).2 - (AddNParticles_range n 0 p nprocs).1)
        - ((AddNParticles_range n 0 q nprocs).2 - (AddNParticles_range n 0 q nprocs).1)) ≤ 1) ∧
    (∀ p : Int, (AddNParticles_indices n 0 p nprocs).Nodup ∧
      ((AddNParticles_indices n 0 p nprocs).length : Int)
        = (AddNParticles_range n 0 p nprocs).2 - (AddNParticles_range n 0 p nprocs).1) ∧
    (∀ u p np : Int, u ≠ 0 →
      AddNParticles_range n u p np = (0, n) ∧
      ∀ i : Int, i ∈ AddNParticles_indices n u p np ↔ 0 ≤ i ∧ i < n) := by
  have ha : 0 ≤ n / nprocs := Int.ediv_nonneg hn (by omega)
  have hl0 : 0 ≤ n % nprocs := Int.emod_nonneg n (by omega)
  have hl1 : n % nprocs < nprocs := Int.emod_lt_of_pos n (by omega)
  have hnl : nprocs * (n / nprocs) + n % nprocs = n := Int.ediv_add_emod n nprocs
  have hR := fun p => AddNParticles_range_eq n nprocs p hn hp
  have hS := splitStart_succ (n / nprocs) (n % nprocs)
  have hmono := splitStart_le (n / nprocs) (n % nprocs) ha
  have h0 : splitStart (n / nprocs) (n % nprocs) 0 = 0 := by
    unfold splitStart
    rw [zero_mul, min_eq_left hl0]
    rfl
  have hN : splitStart (n / nprocs) (n % nprocs) nprocs = n := by
    unfold splitStart
    rw [min_eq_right hl1.le]
    exact hnl
  have hmem : ∀ p i : Int, i ∈ AddNParticles_indices n 0 p nprocs ↔
      splitStart (n / nprocs) (n % nprocs) p ≤ i ∧
        i < splitStart (n / nprocs) (n % nprocs) (p + 1) := by
    intro p i
    unfold AddNParticles_indices
    rw [mem_rangeI, hR]
    constructor <;> intro h <;> refine ⟨h.1, ?_⟩ <;> have := h.2 <;> simp only at this ⊢ <;> omega
  refine ⟨?_, ?_, ?_, ?_, ?_, ?_, ?_, ?_, ?_, ?_, ?_⟩
  · rw [hR, h0]
  · rw [hR, sub_add_cancel, hN]
  · intro p hp0 hp1
    rw [hR]
    refine ⟨?_, hmono _ _ (by omega), ?_⟩
    · have := hmono 0 p hp0
      rw [h0] at this
      exact this
    · have := hmono (p + 1) nprocs (by omega)
      rw [hN] at this
      exact this
  · intro p _ _
    rw [hR, hR]
  · intro p q _ hpq _
    rw [hR, hR]
    exact hmono _ _ (by omega)
  · intro p q i _ _ _ _ hip hiq
    rw [hmem] at hip hiq
    rcases lt_trichotomy p q with h | h | h
    · have := hmono (p + 1) q (by omega)
      omega
    · exact h
    · have := hmono (q + 1) p (by omega)
      omega
  · intro i hi0 hi1
    have hk : i < splitStart (n / nprocs) (n % nprocs) (nprocs.toNat : Int) := by
      rw [Int.toNat_of_nonneg (by omega), hN]
      exact hi1
    obtain ⟨p, hp0, hp1, h2, h3⟩ := splitStart_cover _ _ i hl0 hi0 _ hk
    exact ⟨p, hp0, by omega, (hmem p i).2 ⟨h2, h3⟩⟩
  · intro p i hp0 hp1 hi
    rw [hmem] at hi
    have h1 := hmono 0 p hp0
    have h2 := hmono (p + 1) nprocs (by omega)
    rw [h0] at h1
    rw [hN] at h2
    omega
  · intro p q _ _ _ _
    rw [hR, hR]
    simp only
    rw [hS p, hS q, abs_le]
    split_ifs <;> constructor <;> omega
  · intro p
    refine ⟨rangeI_nodup _ _, ?_⟩
    unfold AddNParticles_indices rangeI
    rw [List.length_map, List.length_range, hR]
    simp only
    have := hS p
    split_ifs at this <;> omega
  · intro u p np hu
    have hr : AddNParticles_range n u p np = (0, n) := by
      unfold AddNParticles_range
      rw [if_pos hu]
    refine ⟨hr, fun i => ?_⟩
    unfold AddNParticles_indices
    rw [mem_rangeI, hr]
    simp only
    omega

/-- Witness of `C27_index_split`: 7 particles on 3 ranks give the ranges
`[0, 3)`, `[3, 5)` and `[5, 7)`. -/
theorem C27_index_split_witness :
    (0 : Int) ≤ 7 ∧ (1 : Int) ≤ 3 ∧
    AddNParticles_range 7 0 0 3 = (0, 3) ∧
    AddNParticles_range 7 0 1 3 = (3, 5) ∧
    AddNParticles_range 7 0 2 3 = (5, 7) ∧
    (AddNParticles_range 7 0 (3 - 1) 3).2 = 7 :=
  ⟨by decide, by decide, by decide, by decide, by decide,
    (C27_index_split 7 3 (by decide) (by decide)).2.1⟩

/-! ## C28: the level indices of the coarse path -/

/-- The level indices a returning call of `DepositCurrent` passes to
`LowerCorner`, `CellSize` and `RefRatio`, in program order. -/
theorem DepositCurrent_levels (d : DepositEnv R) (tilebox : Box) (P : List (Particle R))
    (np_current np lev : Int) (dt : R) (st st' : CurrentState R)
    (h : DepositCurrent d tilebox P np_current np lev dt st = some st') :
    (st'.trace.drop st.trace.length).filterMap Event.level
      = [lev, lev, max (lev - 1) 0] ++ (if np_current < np then [lev - 1, lev - 1] else []) := by
  rw [DepositCurrent_trace d tilebox P np_current np lev dt st st' h, List.drop_left]
  by_cases hf : 0 < np_current <;> by_cases hc : np_current < np <;>
    simp [hf, hc, List.filterMap, Event.level]

/-- The level indices a returning call of the per-tile `DepositCharge` passes
to `LowerCorner`, `CellSize` and `RefRatio`, in program order. -/
theorem DepositCharge_levels (d : DepositEnv R) (tilebox : Box) (P : List (Particle R))
    (icomp : Nat) (np_current np lev : Int) (st st' : ChargeState R)
    (h : DepositCharge d tilebox P icomp np_current np lev st = some st') :
    (st'.trace.drop st.trace.length).filterMap Event.level
      = [lev, lev, max (lev - 1) 0] ++ (if np_current < np then [lev - 1, lev - 1] else []) := by
  rw [DepositCharge_trace d tilebox P icomp np_current np lev st st' h, List.drop_left]
  by_cases hf : 0 < np_current <;> by_cases hc : np_current < np <;>
    simp [hf, hc, List.filterMap, Event.level]

/-- With `lev >= 1` the level indices of a call are not negative. -/
theorem levels_nonneg (np_current np lev : Int) (hlev : 1 ≤ lev) :
    ∀ l ∈ [lev, lev, max (lev - 1) 0] ++ (if np_current < np then [lev - 1, lev - 1] else []),
      0 ≤ l := by
  intro l hl
  by_cases hc : np_current < np
  · simp only [hc, if_true, List.mem_append, List.mem_cons, List.mem_singleton,
      List.not_mem_nil, or_false] at hl
    omega
  · simp only [hc, if_false, List.append_nil, List.mem_cons, List.mem_singleton,
      List.not_mem_nil, or_false] at hl
    omega

/-- A coarse block of `DepositCurrent` that finds one of `cjx`, `cjy`, `cjz`
null does not return. -/
theorem DepositCurrent_coarse_none (d : DepositEnv R) (tilebox : Box) (P : List (Particle R))
    (np_current np lev : Int) (dt : R) (s : CurrentState R)
    (h : s.cjx = none ∨ s.cjy = none ∨ s.cjz = none) :
    DepositCurrent_coarse d tilebox P np_current np lev dt s = none := by
  unfold DepositCurrent_coarse
  rcases h with h | h | h
  · simp only [h]
  · cases hx : s.cjx <;> simp only [h]
  · cases hx : s.cjx <;> cases hy : s.cjy <;> simp only [h]

/-- C28: in `DepositCurrent` and the per-tile `DepositCharge` the coarse path
passes `lev - 1` to `RefRatio` and to `LowerCorner` (of the coarsened tile
box) and dereferences the coarse fields: it does not return when one is
null. With `lev >= 1` and the coarse fields present when `np_current < np`
(and `rhomf`, dereferenced at line 407, present), the call returns and every
level index it uses is at least 0. At `lev = 0` with `np_current < np` and the
coarse fields present the call returns having used the level index `-1` for
`RefRatio` and `LowerCorner`, while the cell size the coarse kernel is passed
is that of level `max(lev - 1, 0) = 0`. -/
theorem C28_coarse_level_index (d : DepositEnv R) (tilebox : Box) (P : List (Particle R))
    (icomp : Nat) (np_current np lev : Int) (dt : R) (st : CurrentState R)
    (ct : ChargeState R) :
    ((currentArgsCoarse d tilebox P st.jx.nGrow np_current np lev dt).xyzmin
        = d.LowerCorner (d.coarsen tilebox (d.RefRatio (lev - 1))) (lev - 1) ∧
      (currentArgsCoarse d tilebox P st.jx.nGrow np_current np lev dt).dx
        = d.CellSize (max (lev - 1) 0) ∧
      ∀ ngRho : Int,
        (chargeArgsCoarse d tilebox P ngRho np_current np lev).xyzmin
          = d.LowerCorner (d.coarsen tilebox (d.RefRatio (lev - 1))) (lev - 1) ∧
        (chargeArgsCoarse d tilebox P ngRho np_current np lev).dx
          = d.CellSize (max (lev - 1) 0)) ∧
    ((st.cjx.isSome ∧ st.cjy.isSome ∧ st.cjz.isSome →
        (DepositCurrent_coarse d tilebox P np_current np lev dt st).isSome) ∧
      (ct.crhomf.isSome → ∀ ngRho : Int,
        (DepositCharge_coarse d tilebox P icomp ngRho np_current np lev ct).isSome)) ∧
    (np_current < np →
      ((st.cjx = none ∨ st.cjy = none ∨ st.cjz = none) →
        DepositCurrent d tilebox P np_current np lev dt st = none) ∧
      (ct.crhomf = none → DepositCharge d tilebox P icomp np_current np lev ct = none) ∧
      (∀ st', DepositCurrent d tilebox P np_current np lev dt st = some st' →
        (st'.trace.drop st.trace.length).filterMap Event.level
          = [lev, lev, max (lev - 1) 0, lev - 1, lev - 1] ∧
        Event.RefRatio (lev - 1) ∈ st'.trace.drop st.trace.length ∧
        Event.LowerCorner (lev - 1) ∈ st'.trace.drop st.trace.length) ∧
      (∀ ct', DepositCharge d tilebox P icomp np_current np lev ct = some ct' →
        (ct'.trace.drop ct.trace.length).filterMap Event.level
          = [lev, lev, max (lev - 1) 0, lev - 1, lev - 1] ∧
        Event.RefRatio (lev - 1) ∈ ct'.trace.drop ct.trace.length ∧
        Event.LowerCorner (lev - 1) ∈ ct'.trace.drop ct.trace.length)) ∧
    (1 ≤ lev → (np_current < np → st.cjx.isSome ∧ st.cjy.isSome ∧ st.cjz.isSome) →
      ∃ st', DepositCurrent d tilebox P np_current np lev dt st = some st' ∧
        ∀ l ∈ (st'.trace.drop st.trace.length).filterMap Event.level, 0 ≤ l) ∧
    (1 ≤ lev → ct.rhomf.isSome → (np_current < np → ct.crhomf.isSome) →
      ∃ ct', DepositCharge d tilebox P icomp np_current np lev ct = some ct' ∧
        ∀ l ∈ (ct'.trace.drop ct.trace.length).filterMap Event.level, 0 ≤ l) ∧
    (lev = 0 → np_current < np →
      (st.cjx.isSome ∧ st.cjy.isSome ∧ st.cjz.isSome →
        ∃ st', DepositCurrent d tilebox P np_current np lev dt st = some st' ∧
          (st'.trace.drop st.trace.length).filterMap Event.level = [0, 0, 0, -1, -1] ∧
          Event.RefRatio (-1) ∈ st'.trace ∧ Event.LowerCorner (-1) ∈ st'.trace ∧
          Event.CellSize 0 ∈ st'.trace ∧
          (currentArgsCoarse d tilebox P st.jx.nGrow np_current np lev dt).xyzmin
            = d.LowerCorner (d.coarsen tilebox (d.RefRatio (-1))) (-1) ∧
          (currentArgsCoarse d tilebox P st.jx.nGrow np_current np lev dt).dx = d.CellSize 0) ∧
      (ct.rhomf.isSome → ct.crhomf.isSome →
        ∃ ct', DepositCharge d tilebox P icomp np_current np lev ct = some ct' ∧
          (ct'.trace.drop ct.trace.length).filterMap Event.level = [0, 0, 0, -1, -1] ∧
          Event.RefRatio (-1) ∈ ct'.trace ∧ Event.LowerCorner (-1) ∈ ct'.trace ∧
          Event.CellSize 0 ∈ ct'.trace ∧
          ∀ ngRho : Int,
            (chargeArgsCoarse d tilebox P ngRho np_current np lev).xyzmin
              = d.LowerCorner (d.coarsen tilebox (d.RefRatio (-1))) (-1) ∧
            (chargeArgsCoarse d tilebox P ngRho np_current np lev).dx = d.CellSize 0)) := by
  refine ⟨⟨rfl, rfl, fun _ => ⟨rfl, rfl⟩⟩, ⟨?_, ?_⟩, fun hlt => ⟨?_, ?_, ?_, ?_⟩, ?_, ?_, ?_⟩
  · rintro ⟨hx, hy, hz⟩
    obtain ⟨cx, hcx⟩ := Option.isSome_iff_exists.1 hx
    obtain ⟨cy, hcy⟩ := Option.isSome_iff_exists.1 hy
    obtain ⟨cz, hcz⟩ := Option.isSome_iff_exists.1 hz
    rw [DepositCurrent_coarse_some d tilebox P np_current np lev dt st cx cy cz hcx hcy hcz]
    rfl
  · intro hc ngRho
    obtain ⟨c, hcr⟩ := Option.isSome_iff_exists.1 hc
    rw [DepositCharge_coarse_some d tilebox P icomp ngRho np_current np lev ct c hcr]
    rfl
  · intro hnone
    unfold DepositCurrent
    rw [if_pos hlt]
    apply DepositCurrent_coarse_none
    by_cases hf : np_current > 0
    · simpa [hf, DepositCurrent_fine] using hnone
    · simpa [hf] using hnone
  · intro hnone
    unfold DepositCharge
    cases hr : ct.rhomf with
    | none => rfl
    | some rhomf =>
      by_cases hf : np_current > 0
      · simp [hlt, hf, DepositCharge_coarse, DepositCharge_fine, hnone]
      · simp [hlt, hf, DepositCharge_coarse, hnone]
  · intro st' h
    have ht := DepositCurrent_trace d tilebox P np_current np lev dt st st' h
    refine ⟨?_, ?_, ?_⟩
    · rw [DepositCurrent_levels d tilebox P np_current np lev dt st st' h, if_pos hlt]
      rfl
    · rw [ht, List.drop_left, if_pos hlt]
      simp
    · rw [ht, List.drop_left, if_pos hlt]
      simp
  · intro ct' h
    have ht := DepositCharge_trace d tilebox P icomp np_current np lev ct ct' h
    refine ⟨?_, ?_, ?_⟩
    · rw [DepositCharge_levels d tilebox P icomp np_current np lev ct ct' h, if_pos hlt]
      rfl
    · rw [ht, List.drop_left, if_pos hlt]
      simp
    · rw [ht, List.drop_left, if_pos hlt]
      simp
  · intro hlev hc
    obtain ⟨st', h⟩ := DepositCurrent_isSome d tilebox P np_current np lev dt st hc
    refine ⟨st', h, ?_⟩
    rw [DepositCurrent_levels d tilebox P np_current np lev dt st st' h]
    exact levels_nonneg np_current np lev hlev
  · intro hlev hr hc
    obtain ⟨ct', h⟩ := DepositCharge_isSome d tilebox P icomp np_current np lev ct hr hc
    refine ⟨ct', h, ?_⟩
    rw [DepositCharge_levels d tilebox P icomp np_current np lev ct ct' h]
    exact levels_nonneg np_current np lev hlev
  · intro hlev hlt
    subst hlev
    refine ⟨fun hc => ?_, fun hr hc => ?_⟩
    · obtain ⟨st', h⟩ := DepositCurrent_isSome d tilebox P np_current np 0 dt st (fun _ => hc)
      have ht := DepositCurrent_trace d tilebox P np_current np 0 dt st st' h
      refine ⟨st', h, ?_, ?_, ?_, ?_, rfl, rfl⟩
      · rw [DepositCurrent_levels d tilebox P np_current np 0 dt st st' h, if_pos hlt]
        rfl
      · rw [ht, if_pos hlt]
        simp
      · rw [ht, if_pos hlt]
        simp
      · rw [ht]
        simp
    · obtain ⟨ct', h⟩ := DepositCharge_isSome d tilebox P icomp np_current np 0 ct hr
        (fun _ => hc)
      have ht := DepositCharge_trace d tilebox P icomp np_current np 0 ct ct' h
      refine ⟨ct', h, ?_, ?_, ?_, ?_, fun _ => ⟨rfl, rfl⟩⟩
      · rw [DepositCharge_levels d tilebox P icomp np_current np 0 ct ct' h, if_pos hlt]
        rfl
      · rw [ht, if_pos hlt]
        simp
      · rw [ht, if_pos hlt]
        simp
      · rw [ht]
        simp

/-! ## C29: `meanParticleVelocity` -/

theorem MeanAcc.plus_nil (sqrt : R → R) (clight : R) (acc : MeanAcc R) :
    acc.plus sqrt clight [] = acc := by
  cases acc
  simp [MeanAcc.plus]

theorem MeanAcc.plus_append (sqrt : R → R) (clight : R) (acc : MeanAcc R)
    (P Q : List (Particle R)) :
    (acc.plus sqrt clight P).plus sqrt clight Q = acc.plus sqrt clight (P ++ Q) := by
  simp only [MeanAcc.plus, List.map_append, List.sum_append, List.length_append, Nat.cast_add,
    add_assoc]

/-- The term a particle adds to `vx_total`, `vy_total` or `vz_total` is its
velocity component. -/
theorem gaminv_eq (sqrt : R → R) (clight : R) (p : Particle R) (u : R) :
    u * (1 / sqrt (1 + (p.ux * p.ux + p.uy * p.uy + p.uz * p.uz) * (1 / clight / clight)))
      = velocity sqrt clight p u := by
  unfold velocity
  have h : (p.ux * p.ux + p.uy * p.uy + p.uz * p.uz) * (1 / clight / clight)
      = (p.ux ^ 2 + p.uy ^ 2 + p.uz ^ 2) / clight ^ 2 := by
    rw [div_div, mul_one_div, sq, sq, sq, sq]
  rw [h, mul_one_div]

/-- The loop over the particles of a tile (lines 722-728). -/
theorem meanParticleVelocity_particles (sqrt : R → R) (clight : R) (P : List (Particle R))
    (a : MeanAcc R) :
    P.foldl (fun a p =>
      let usq := (p.ux * p.ux + p.uy * p.uy + p.uz * p.uz) * (1 / clight / clight)
      let gaminv := 1 / sqrt (1 + usq)
      { a with
        vx_total := a.vx_total + p.ux * gaminv
        vy_total := a.vy_total + p.uy * gaminv
        vz_total := a.vz_total + p.uz * gaminv }) a
      = ⟨a.vx_total + (P.map fun p => velocity sqrt clight p p.ux).sum,
         a.vy_total + (P.map fun p => velocity sqrt clight p p.uy).sum,
         a.vz_total + (P.map fun p => velocity sqrt clight p p.uz).sum,
         a.np_total⟩ := by
  induction P generalizing a with
  | nil => simp
  | cons p P ih =>
    rw [List.foldl_cons, ih]
    simp only [← gaminv_eq, List.map_cons, List.sum_cons, add_assoc]

theorem meanParticleVelocity_tile_eq (sqrt : R → R) (clight : R) (acc : MeanAcc R)
    (tile : Tile R) :
    meanParticleVelocity_tile sqrt (1 / clight / clight) acc tile
      = acc.plus sqrt clight tile.particles := by
  unfold meanParticleVelocity_tile
  simp only [meanParticleVelocity_particles]
  rfl

theorem meanParticleVelocity_tiles (sqrt : R → R) (clight : R) (tiles : List (Tile R))
    (acc : MeanAcc R) :
    tiles.foldl (meanParticleVelocity_tile sqrt (1 / clight / clight)) acc
      = acc.plus sqrt clight (tiles.flatMap Tile.particles) := by
  induction tiles generalizing acc with
  | nil => simp [MeanAcc.plus_nil]
  | cons t ts ih =>
    rw [List.foldl_cons, ih, meanParticleVelocity_tile_eq, MeanAcc.plus_append,
      List.flatMap_cons]

theorem meanParticleVelocity_levels (sqrt : R → R) (clight : R) (levels : List (Level R))
    (acc : MeanAcc R) :
    levels.foldl
        (fun acc L => L.tiles.foldl (meanParticleVelocity_tile sqrt (1 / clight / clight)) acc)
        acc
      = acc.plus sqrt clight (levels.flatMap fun L => L.tiles.flatMap Tile.particles) := by
  induction levels generalizing acc with
  | nil => simp [MeanAcc.plus_nil]
  | cons L Ls ih =>
    rw [List.foldl_cons, ih, meanParticleVelocity_tiles, MeanAcc.plus_append,
      List.flatMap_cons]

omit [LinearOrderedField R] in
/-- The levels `0 .. finestLevel()` are all the levels of the container. -/
theorem take_finestLevel (c : Container R) :
    c.levels.take (finestLevel c + 1).toNat = c.levels := by
  apply List.take_of_length_le
  unfold finestLevel
  omega

/-- The velocity component of a particle is below `clight` in absolute
value. -/
theorem abs_velocity_lt (sqrt : R → R) (hs : IsSqrt sqrt) (clight : R) (hc : 0 < clight)
    (p : Particle R) :
    abs (velocity sqrt clight p p.ux) < clight ∧ abs (velocity sqrt clight p p.uy) < clight ∧
      abs (velocity sqrt clight p p.uz) < clight := by
  have hU : 0 ≤ (p.ux ^ 2 + p.uy ^ 2 + p.uz ^ 2) / clight ^ 2 := by positivity
  obtain ⟨h0, h1⟩ := hs (1 + (p.ux ^ 2 + p.uy ^ 2 + p.uz ^ 2) / clight ^ 2) (by linarith)
  have hpos : 0 < sqrt (1 + (p.ux ^ 2 + p.uy ^ 2 + p.uz ^ 2) / clight ^ 2) := by
    rcases h0.lt_or_eq with h | h
    · exact h
    · rw [← h, zero_mul] at h1
      linarith
  have hsq : (clight * sqrt (1 + (p.ux ^ 2 + p.uy ^ 2 + p.uz ^ 2) / clight ^ 2)) ^ 2
      = clight ^ 2 + (p.ux ^ 2 + p.uy ^ 2 + p.uz ^ 2) := by
    rw [mul_pow, sq (sqrt _), h1]
    field_simp
  have hc2 : 0 < clight ^ 2 := by positivity
  have key : ∀ u : R, u ^ 2 ≤ p.ux ^ 2 + p.uy ^ 2 + p.uz ^ 2 →
      abs (velocity sqrt clight p u) < clight := by
    intro u hu
    unfold velocity
    rw [abs_div, abs_of_pos hpos, div_lt_iff₀ hpos]
    apply abs_lt_of_sq_lt_sq _ (mul_pos hc hpos).le
    rw [hsq]
    linarith
  refine ⟨key _ ?_, key _ ?_, key _ ?_⟩
  · nlinarith [sq_nonneg p.uy, sq_nonneg p.uz]
  · nlinarith [sq_nonneg p.ux, sq_nonneg p.uz]
  · nlinarith [sq_nonneg p.ux, sq_nonneg p.uy]

/-- The mean of numbers below `b` in absolute value is below `b` in absolute
value. -/
theorem abs_mean_lt (b : R) (P : List (Particle R)) (f : Particle R → R)
    (hf : ∀ p, abs (f p) < b) (hne : P ≠ []) :
    abs ((P.map f).sum / (P.length : R)) < b := by
  have hle : ∀ Q : List (Particle R), abs ((Q.map f).sum) ≤ (Q.length : R) * b := by
    intro Q
    induction Q with
    | nil => simp
    | cons q Q ih =>
      rw [List.map_cons, List.sum_cons, List.length_cons, Nat.cast_succ, add_mul, one_mul]
      have := abs_add (f q) ((Q.map f).sum)
      have := (hf q).le
      linarith
  cases P with
  | nil => exact absurd rfl hne
  | cons p P =>
    have hlen : (0 : R) < ((p :: P).length : R) := by
      rw [List.length_cons]
      exact_mod_cast Nat.succ_pos _
    rw [abs_div, abs_of_pos hlen, div_lt_iff₀ hlen]
    rw [List.map_cons, List.sum_cons, List.length_cons, Nat.cast_succ]
    have h1 := abs_add (f p) ((P.map f).sum)
    have h2 := hf p
    have h3 := hle P
    rw [mul_add, mul_one]
    linarith

/-- The real square root is a square root on the nonnegative numbers. -/
theorem isSqrt_real : IsSqrt Real.sqrt :=
  fun x hx => ⟨Real.sqrt_nonneg x, Real.mul_self_sqrt hx⟩

/-- C29: with `std::sqrt` a square root and `c > 0`, for a container holding
at least one particle `meanParticleVelocity(local = true)` returns, per
component, the sum over the particles of the levels `0 .. finestLevel()`
(which are all the levels) of `u / sqrt(1 + |u|^2 / c^2)` divided by the
number of particles, and each component is below `c` in absolute value; for a
container without particles no division is made and the array is returned as
it was. -/
theorem C29_mean_velocity (sqrt : R → R) (hs : IsSqrt sqrt) (clight : R) (hc : 0 < clight)
    (reduce : MeanAcc R → MeanAcc R) (c : Container R) (mean_v : Vec3 R) :
    c.levels.take (finestLevel c + 1).toNat = c.levels ∧
    (allParticles c ≠ [] →
      meanParticleVelocity sqrt clight reduce c true mean_v
        = ⟨((allParticles c).map fun p => velocity sqrt clight p p.ux).sum
            / ((allParticles c).length : R),
           ((allParticles c).map fun p => velocity sqrt clight p p.uy).sum
            / ((allParticles c).length : R),
           ((allParticles c).map fun p => velocity sqrt clight p p.uz).sum
            / ((allParticles c).length : R)⟩ ∧
      abs (meanParticleVelocity sqrt clight reduce c true mean_v).c0 < clight ∧
      abs (meanParticleVelocity sqrt clight reduce c true mean_v).c1 < clight ∧
      abs (meanParticleVelocity sqrt clight reduce c true mean_v).c2 < clight) ∧
    (allParticles c = [] → meanParticleVelocity sqrt clight reduce c true mean_v = mean_v) := by
  have hacc : (c.levels.take (finestLevel c + 1).toNat).foldl
      (fun acc L => L.tiles.foldl (meanParticleVelocity_tile sqrt (1 / clight / clight)) acc)
      (⟨0, 0, 0, 0⟩ : MeanAcc R)
      = (⟨0, 0, 0, 0⟩ : MeanAcc R).plus sqrt clight (allParticles c) := by
    rw [take_finestLevel, meanParticleVelocity_levels]
    rfl
  refine ⟨take_finestLevel c, fun hne => ?_, fun he => ?_⟩
  · have hpos : (0 : Int) < ((allParticles c).length : Int) := by
      exact_mod_cast List.length_pos.2 hne
    have heq : meanParticleVelocity sqrt clight reduce c true mean_v
        = ⟨((allParticles c).map fun p => velocity sqrt clight p p.ux).sum
            / ((allParticles c).length : R),
           ((allParticles c).map fun p => velocity sqrt clight p p.uy).sum
            / ((allParticles c).length : R),
           ((allParticles c).map fun p => velocity sqrt clight p p.uz).sum
            / ((allParticles c).length : R)⟩ := by
      unfold meanParticleVelocity
      simp only [hacc, if_true, MeanAcc.plus, zero_add, gt_iff_lt, hpos, Int.cast_natCast]
    rw [heq]
    exact ⟨rfl,
      abs_mean_lt clight _ _ (fun p => (abs_velocity_lt sqrt hs clight hc p).1) hne,
      abs_mean_lt clight _ _ (fun p => (abs_velocity_lt sqrt hs clight hc p).2.1) hne,
      abs_mean_lt clight _ _ (fun p => (abs_velocity_lt sqrt hs clight hc p).2.2) hne⟩
  · unfold meanParticleVelocity
    simp only [hacc, if_true, MeanAcc.plus, he, List.length_nil, Nat.cast_zero, add_zero,
      gt_iff_lt, lt_irrefl, if_false]

/-- Witness of `C29_mean_velocity`: over the reals with `c = 1`, one particle
of momentum `(1, 0, 0)`. -/
theorem C29_mean_velocity_witness :
    IsSqrt Real.sqrt ∧ (0 : ℝ) < 1 ∧
    allParticles (singleLevel [particleOf (1 : ℝ) 0 0 1]) ≠ [] ∧
    abs (meanParticleVelocity Real.sqrt 1 id (singleLevel [particleOf (1 : ℝ) 0 0 1]) true
      ⟨0, 0, 0⟩).c0 < 1 :=
  ⟨isSqrt_real, one_pos, by simp [allParticles, singleLevel],
    ((C29_mean_velocity Real.sqrt isSqrt_real 1 one_pos id
      (singleLevel [particleOf (1 : ℝ) 0 0 1]) ⟨0, 0, 0⟩).2.1
      (by simp [allParticles, singleLevel])).2.1⟩

/-! ## C30: what a call of the per-cell update prints -/

/-- A validity policy that does not abort prints nothing. -/
theorem validity_printf_of_some (Mn : Int) (tol n Ms : R) (m v : Vec3 R) (w : Work)
    (h : validity Mn tol n m = some v) : validity_printf Mn tol n Ms w = ([] : List (Printed R)) := by
  unfold validity at h
  unfold validity_printf
  by_cases h1 : Mn > 0
  · rw [if_pos h1] at h ⊢
    by_cases h2 : abs (1 - n) > tol
    · rw [if_pos h2] at h
      cases h
    · rw [if_neg h2]
  · rw [if_neg h1] at h ⊢
    by_cases h0 : Mn = 0
    · rw [if_pos h0] at h ⊢
      by_cases h2 : n > 1 + tol
      · rw [if_pos h2] at h
        cases h
      · rw [if_neg h2]
    · rw [if_neg h0]

/-- A call that does not abort prints what its debugging block prints. -/
theorem LLG_output_of_some (e : Env R) (H : Hfield R) (M_old M : Mfield R) (w : Work)
    (v : Vec3 R) (h : LLG_cell e H M_old M w = some v) :
    LLG_output e H M_old M w = debug_printf e H M_old M w := by
  have hv := validity_printf_of_some _ _ _ (mag_Ms_interp e w.face w.i w.j w.k) _ _ w h
  show debug_printf e H M_old M w ++ validity_printf _ _ _ _ _ = _
  rw [hv, List.append_nil]

/-- C30, as stated, fails: at rest in strict mode (M uniformly `(1, 0, 0)`,
no field) the call at the cell `(4, 4, 4)` of the x-face does not abort and
stores `(1, 0, 0)`, and it prints the seven lines of the debugging block. The
block is guarded by `i == 4 && j == 4 && k == 4` alone. -/
theorem C30_counterexample :
    LLG_cell (restEnv Rat.sqrt 1 (1 / 10 : ℚ)) (uniformH 0) (uniformM ⟨1, 0, 0⟩)
      (uniformM ⟨1, 0, 0⟩) ⟨Face.x, 4, 4, 4⟩ = some ⟨1, 0, 0⟩ ∧
    LLG_output (restEnv Rat.sqrt 1 (1 / 10 : ℚ)) (uniformH 0) (uniformM ⟨1, 0, 0⟩)
      (uniformM ⟨1, 0, 0⟩) ⟨Face.x, 4, 4, 4⟩
      = [Printed.face_cell Face.x 4 4 4, Printed.M_values 1 0 0, Printed.H_eff_values 0 0 0,
         Printed.H_values 0 0 0, Printed.torque_damping 0 0 0, Printed.torque_damping 1 0 0,
         Printed.torque_damping 2 0 0] := by
  refine ⟨LLG_cell_rest _ _, ?_⟩
  rw [LLG_output_of_some _ _ _ _ _ _ (LLG_cell_rest (uniformH 0) ⟨Face.x, 4, 4, 4⟩)]
  simp [debug_printf, printed_torque, printed_damping, M_updated, restEnv, uniformEnv, uniformM,
    uniformH, Mfield.face, readCell, uniform3, uniform1, mag_gamma_interp, Gil_damp, M_magnitude,
    H_eff, Face.dir, M_xface_update]

/-- The validity policy prints exactly when it aborts. -/
theorem validity_printf_eq_nil_iff (Mn : Int) (tol n Ms : R) (m : Vec3 R) (w : Work) :
    validity_printf Mn tol n Ms w = ([] : List (Printed R)) ↔ validity Mn tol n m ≠ none := by
  unfold validity validity_printf
  by_cases h1 : Mn > 0
  · rw [if_pos h1, if_pos h1]
    by_cases h2 : abs (1 - n) > tol
    · rw [if_pos h2, if_pos h2]
      simp
    · rw [if_neg h2, if_neg h2]
      simp
  · rw [if_neg h1, if_neg h1]
    by_cases h0 : Mn = 0
    · rw [if_pos h0, if_pos h0]
      by_cases h2 : n > 1 + tol
      · rw [if_pos h2, if_pos h2]
        simp
      · rw [if_neg h2, if_neg h2]
        by_cases h3 : n > 1 ∧ n ≤ 1 + tol
        · rw [if_pos h3]
          simp
        · rw [if_neg h3]
          simp
    · rw [if_neg h0, if_neg h0]
      simp

/-- C30, amended: a call of the per-cell M update that does not abort prints
nothing at a cell other than `i = j = k = 4`; the validity policy prints
exactly when it aborts, so renormalization is silent at every cell; at the cell
`i = j = k = 4` every call, aborting or not, first prints the seven lines of
the debugging block: the face and cell, the updated M, H_eff, `H(i,j,k)`, and
per component the torque term `dt * mu0 * gamma * (M_old x H_eff)` and the
damping term `dt * Gil_damp * (M_old x (M_old x H_eff))` as the block writes
them (on a z-face the line of component y carries the damping term of
component z). -/
theorem C30_output_only_at_debug_cell (e : Env R) (H : Hfield R) (M_old M : Mfield R)
    (w : Work) :
    (validity_printf e.M_normalization e.mag_normalized_error
        (M_magnitude_normalized e w.face (M_updated e H M_old M w) w.i w.j w.k)
        (mag_Ms_interp e w.face w.i w.j w.k) w = [] ↔ LLG_cell e H M_old M w ≠ none) ∧
    (renormalizes e.M_normalization e.mag_normalized_error
        (M_magnitude_normalized e w.face (M_updated e H M_old M w) w.i w.j w.k) →
      validity_printf e.M_normalization e.mag_normalized_error
        (M_magnitude_normalized e w.face (M_updated e H M_old M w) w.i w.j w.k)
        (mag_Ms_interp e w.face w.i w.j w.k) w = []) ∧
    (∀ v, LLG_cell e H M_old M w = some v →
      LLG_output e H M_old M w = debug_printf e H M_old M w ∧
      (¬ (w.i = 4 ∧ w.j = 4 ∧ w.k = 4) → LLG_output e H M_old M w = [])) ∧
    (w.i = 4 ∧ w.j = 4 ∧ w.k = 4 →
      LLG_output e H M_old M w =
        [Printed.face_cell w.face 4 4 4,
         Printed.M_values (M_updated e H M_old M w).c0 (M_updated e H M_old M w).c1
           (M_updated e H M_old M w).c2,
         Printed.H_eff_values (H_eff e H w.face 4 4 4).c0 (H_eff e H w.face 4 4 4).c1
           (H_eff e H w.face 4 4 4).c2,
         Printed.H_values (H.Hx 4 4 4 0) (H.Hy 4 4 4 0) (H.Hz 4 4 4 0),
         Printed.torque_damping 0
           (printed_torque e.dt e.mu0 (mag_gamma_interp e w.face 4 4 4) (M_old.cell w)
             (H_eff e H w.face 4 4 4)).c0
           (printed_damping e.dt (Gil_damp e w.face (M.cell w) 4 4 4) (M_old.cell w)
             (H_eff e H w.face 4 4 4)).c0,
         Printed.torque_damping 1
           (printed_torque e.dt e.mu0 (mag_gamma_interp e w.face 4 4 4) (M_old.cell w)
             (H_eff e H w.face 4 4 4)).c1
           (if w.face = Face.z then
             (printed_damping e.dt (Gil_damp e w.face (M.cell w) 4 4 4) (M_old.cell w)
               (H_eff e H w.face 4 4 4)).c2
            else
             (printed_damping e.dt (Gil_damp e w.face (M.cell w) 4 4 4) (M_old.cell w)
               (H_eff e H w.face 4 4 4)).c1),
         Printed.torque_damping 2
           (printed_torque e.dt e.mu0 (mag_gamma_interp e w.face 4 4 4) (M_old.cell w)
             (H_eff e H w.face 4 4 4)).c2
           (printed_damping e.dt (Gil_damp e w.face (M.cell w) 4 4 4) (M_old.cell w)
             (H_eff e H w.face 4 4 4)).c2]
        ++ validity_printf e.M_normalization e.mag_normalized_error
          (M_magnitude_normalized e w.face (M_updated e H M_old M w) w.i w.j w.k)
          (mag_Ms_interp e w.face w.i w.j w.k) w) ∧
    (∀ (dt mu0 g G : R) (m h : Vec3 R),
      printed_torque dt mu0 g m h = Vec3.smul dt (Vec3.smul (mu0 * g) (m.cross h)) ∧
      printed_damping dt G m h = Vec3.smul dt (Vec3.smul G (m.cross (m.cross h)))) := by
  refine ⟨validity_printf_eq_nil_iff _ _ _ _ _ _, fun hren => ?_, fun v h => ?_, fun h4 => ?_,
    fun dt mu0 g G m h => ?_⟩
  · exact validity_printf_of_some _ _ _ _ _ _ w (validity_of_renormalizes _ _ _
      (M_updated e H M_old M w) hren)
  · have hout := LLG_output_of_some e H M_old M w v h
    refine ⟨hout, fun hn => ?_⟩
    rw [hout]
    unfold debug_printf
    rw [if_neg hn]
  · rcases w with ⟨f, i, j, k⟩
    obtain ⟨hi, hj, hk⟩ := h4
    simp only at hi hj hk
    subst hi
    subst hj
    subst hk
    show debug_printf e H M_old M _ ++ validity_printf _ _ _ _ _ = _
    congr 1
    cases f <;> simp [debug_printf, Mfield.cell]
  · constructor
    · simp only [printed_torque, Vec3.smul, Vec3.cross, Vec3.mk.injEq]
      refine ⟨?_, ?_, ?_⟩ <;> ring
    · simp only [printed_damping, Vec3.smul, Vec3.cross, Vec3.mk.injEq]
      refine ⟨?_, ?_, ?_⟩ <;> ring

end Claims

end WarpX
